import Mathlib

/-!
Verification of the asset-graph engine of the barefoot data platform
(`bdp/materialize.py`).  Python strings are modelled as `List Char`,
Python dicts as insertion-ordered association lists, raised exceptions as
`Except` values.  The stdlib `graphlib.TopologicalSorter.static_order`
used by `materialize` is embedded following the CPython source
(`Lib/graphlib.py`): graph initialisation, the iterative depth-first
cycle search `_find_cycle`, and the Kahn ready-queue loop.
-/

namespace BDP

/-- Python strings are modelled as lists of characters. -/
abbrev Str := List Char

/-- Coerce a Lean string literal into the model type. -/
def str (s : String) : Str := s.data

/-- Python `str` whitespace test (`isspace`), restricted to the ASCII
whitespace characters; the Unicode extras cannot occur in the repository's
asset files and play no role in any claim. -/
def pyIsSpace (c : Char) : Bool :=
  c == ' ' || c == '\t' || c == '\n' || c == '\r' || c == '\x0b' || c == '\x0c'

/-- Python `str.lstrip()` with no argument: drop leading whitespace. -/
def pyLstrip (s : Str) : Str := s.dropWhile pyIsSpace

/-- Python `str.rstrip()` with no argument: drop trailing whitespace. -/
def pyRstrip (s : Str) : Str := (s.reverse.dropWhile pyIsSpace).reverse

/-- Python `str.strip()` with no argument. -/
def pyStrip (s : Str) : Str := pyRstrip (pyLstrip s)

/-- Python `str.split(c)` for a one-character separator: splits at every
occurrence of `c`, keeping empty pieces (`"".split(c) = [""]`). -/
def splitChar (c : Char) : Str → List Str
  | [] => [[]]
  | x :: xs =>
    match splitChar c xs with
    | [] => if x == c then [[], []] else [[x]]
    | h :: t => if x == c then [] :: h :: t else (x :: h) :: t

/-- Python `str.splitlines()` restricted to `'\n'` line boundaries (the
other Unicode line boundaries recognised by Python do not occur in the
repository's asset files): like `split '\n'` except that the empty string
yields no lines and a trailing newline does not yield a trailing empty
line. -/
def pySplitlines (s : Str) : List Str :=
  if s = [] then []
  else
    let parts := splitChar '\n' s
    if s.getLast? = some '\n' then parts.dropLast else parts

/-- Loop body of `extract_metadata_lines` (materialize.py lines 168-182),
with the accumulated `lines` list made explicit.  The redundant
`if not lines: continue` / `continue` branching of the source on a
whitespace-only line is kept as written. -/
def extractMetadataAux (pfx : Str) (acc : List Str) : List Str → List Str
  | [] => acc
  | line :: rest =>
    let stripped := pyLstrip line
    if stripped = [] then
      if acc = [] then extractMetadataAux pfx acc rest
      else extractMetadataAux pfx acc rest
    else if pfx.isPrefixOf stripped then
      let content := pyLstrip (stripped.drop pfx.length)
      if content = [] then extractMetadataAux pfx acc rest
      else extractMetadataAux pfx (acc ++ [content]) rest
    else acc

/-- `extract_metadata_lines(source, prefix)` (materialize.py lines
168-182): iterate over `source.splitlines()` accumulating stripped
metadata comment contents. -/
def extract_metadata_lines (source : Str) (pfx : Str) : List Str :=
  extractMetadataAux pfx [] (pySplitlines source)

/-- Modelled from the spec's words for claim C3: the maximal leading run
of non-empty lines that start with the comment prefix, with the prefix
and following whitespace stripped and blank comment lines ignored;
whitespace-only lines are not part of the run of non-empty lines, and a
non-empty line not starting with the prefix ends the block. -/
def metadataLinesSpec (source : Str) (pfx : Str) : List Str :=
  ((((pySplitlines source).filter (fun l => decide (pyLstrip l ≠ []))).takeWhile
      (fun l => pfx.isPrefixOf (pyLstrip l))).map
      (fun l => pyLstrip ((pyLstrip l).drop pfx.length))).filter
    (fun l => decide (l ≠ []))

/-- Line-list form of `metadataLinesSpec`. -/
def metadataLinesSpecOn (pfx : Str) (lines : List Str) : List Str :=
  (((lines.filter (fun l => decide (pyLstrip l ≠ []))).takeWhile
      (fun l => pfx.isPrefixOf (pyLstrip l))).map
      (fun l => pyLstrip ((pyLstrip l).drop pfx.length))).filter
    (fun l => decide (l ≠ []))

lemma extractMetadataAux_eq (pfx : Str) :
    ∀ (lines : List Str) (acc : List Str),
      extractMetadataAux pfx acc lines = acc ++ metadataLinesSpecOn pfx lines := by
  intro lines
  induction lines with
  | nil => intro acc; simp [extractMetadataAux, metadataLinesSpecOn]
  | cons line rest ih =>
    intro acc
    by_cases hblank : pyLstrip line = []
    · have : extractMetadataAux pfx acc (line :: rest) =
          extractMetadataAux pfx acc rest := by
        simp [extractMetadataAux, hblank]
      rw [this, ih]
      simp [metadataLinesSpecOn, List.filter_cons, hblank]
    · by_cases hpre : pfx.isPrefixOf (pyLstrip line)
      · by_cases hcont : pyLstrip ((pyLstrip line).drop pfx.length) = []
        · have : extractMetadataAux pfx acc (line :: rest) =
              extractMetadataAux pfx acc rest := by
            simp only [extractMetadataAux]
            rw [if_neg hblank, if_pos hpre, if_pos hcont]
          rw [this, ih]
          simp [metadataLinesSpecOn, List.filter_cons, List.takeWhile_cons,
            hblank, hpre, hcont]
        · have : extractMetadataAux pfx acc (line :: rest) =
              extractMetadataAux pfx
                (acc ++ [pyLstrip ((pyLstrip line).drop pfx.length)]) rest := by
            simp only [extractMetadataAux]
            rw [if_neg hblank, if_pos hpre, if_neg hcont]
          rw [this, ih]
          simp [metadataLinesSpecOn, List.filter_cons, List.takeWhile_cons,
            hblank, hpre, hcont]
      · have : extractMetadataAux pfx acc (line :: rest) = acc := by
          simp only [extractMetadataAux]
          rw [if_neg hblank, if_neg hpre]
        rw [this]
        simp [metadataLinesSpecOn, List.filter_cons, List.takeWhile_cons,
          hblank, hpre]

/-- Claim C3: for every source text and comment prefix,
`extract_metadata_lines` returns exactly the maximal leading run of
non-empty lines that start with the comment prefix, with the prefix and
the whitespace following it stripped and blank comment lines dropped;
the run ends at the first non-empty line that does not start with the
prefix, and no line after that terminator is included
(`metadataLinesSpec` is the word-for-word reading of the spec sentence). -/
theorem extract_metadata_lines_spec (source : Str) (pfx : Str) :
    extract_metadata_lines source pfx = metadataLinesSpec source pfx := by
  show extractMetadataAux pfx [] (pySplitlines source) = _
  rw [extractMetadataAux_eq]
  simp [metadataLinesSpecOn, metadataLinesSpec]

/-- Errors raised by the engine, as structured values: each constructor
records the data interpolated into the corresponding Python exception
message. -/
inductive Err where
  /-- "Missing dataset metadata in {path}" -/
  | missingMetadata (path : Str)
  /-- "Invalid dataset metadata line in {path}: {line}" -/
  | invalidMetadataLine (path : Str) (line : Str)
  /-- "Missing dataset.{key} in {path}" -/
  | missingKey (key : Str) (path : Str)
  /-- "dataset.{key} must appear once in {path}" -/
  | keyNotOnce (key : Str) (path : Str)
  /-- "dataset.{key} must have a value in {path}" -/
  | keyEmpty (key : Str) (path : Str)
  /-- "Invalid {label} name '{value}' from {path}" -/
  | invalidIdentifier (label : Str) (value : Str) (path : Str)
  /-- "Invalid dependency '{value}' in {path}. Expected schema.table." -/
  | invalidDependency (value : Str) (path : Str)
  /-- "Asset {name} depends on itself" -/
  | selfDependency (name : Str)
  /-- "Unknown dependency '{dep}' referenced in {path}" -/
  | unknownDependency (dep : Str) (path : Str)
  /-- "Pass --all or asset names to materialize." -/
  | usage
  /-- "Unknown assets: {comma-joined names}" -/
  | unknownAssets (names : List Str)
  /-- "Dependency cycle detected: {exc}" wrapping graphlib's CycleError,
  whose payload is the detected cycle as a node list. -/
  | cycle (nodes : List Str)
  /-- "SQL asset is empty: {path}" -/
  | emptySql (path : Str)
  deriving DecidableEq, Inhabited

/-- Path interpolated into an error message, when the message names one. -/
def errPathOf : Err → Option Str
  | .missingMetadata p => some p
  | .invalidMetadataLine p _ => some p
  | .missingKey _ p => some p
  | .keyNotOnce _ p => some p
  | .keyEmpty _ p => some p
  | .invalidIdentifier _ _ p => some p
  | .invalidDependency _ p => some p
  | .unknownDependency _ p => some p
  | _ => none

/-- Key, label or offending reference interpolated into an error message,
when the message names one. -/
def errKeyOf : Err → Option Str
  | .missingKey k _ => some k
  | .keyNotOnce k _ => some k
  | .keyEmpty k _ => some k
  | .invalidIdentifier label _ _ => some label
  | .invalidDependency v _ => some v
  | _ => none

/-- Asset kinds (`AssetKind` literal, materialize.py line 18). -/
inductive AssetKind where
  | python
  | sql
  | bash
  deriving DecidableEq, Inhabited

/-- `COMMENT_PREFIXES[kind]` (materialize.py line 24). -/
def commentMarkerOf : AssetKind → Str
  | .python => str "#"
  | .sql => str "--"
  | .bash => str "#"

/-- Character class `[A-Za-z_]` of `IDENTIFIER_RE` (line 25). -/
def isIdentStart (c : Char) : Bool := c.isAlpha || c == '_'

/-- Character class `[A-Za-z0-9_]` of `IDENTIFIER_RE` (line 25). -/
def isIdentChar (c : Char) : Bool := c.isAlphanum || c == '_'

/-- `IDENTIFIER_RE.fullmatch(value) is not None`:
`^[A-Za-z_][A-Za-z0-9_]*$`. -/
def isIdentifier : Str → Bool
  | [] => false
  | c :: cs => isIdentStart c && cs.all isIdentChar

/-- `validate_identifier(value, label, path)` (materialize.py lines
235-237). -/
def validate_identifier (value : Str) (label : Str) (path : Str) :
    Except Err Unit :=
  if isIdentifier value then .ok () else .error (.invalidIdentifier label value path)

/-- `validate_asset_reference(value, path)` (materialize.py lines
224-232): `value.split(".")` must have exactly two parts, both valid
identifiers. -/
def validate_asset_reference (value : Str) (path : Str) : Except Err Unit :=
  match splitChar '.' value with
  | [schema, table] => do
    validate_identifier schema (str "schema") path
    validate_identifier table (str "table") path
  | _ => .error (.invalidDependency value path)

/-- Inner loop of `parse_dependencies` (materialize.py lines 215-220):
walk the comma-split, stripped parts of one `depends` value, skipping
empty parts and validating the rest. -/
def parseDependencyParts (path : Str) : List Str → Except Err (List Str)
  | [] => .ok []
  | part :: rest =>
    if part = [] then parseDependencyParts path rest
    else do
      validate_asset_reference part path
      let ds ← parseDependencyParts path rest
      .ok (part :: ds)

/-- `parse_dependencies(values, path)` (materialize.py lines 210-221). -/
def parse_dependencies (values : List Str) (path : Str) : Except Err (List Str) :=
  match values with
  | [] => .ok []
  | raw :: rest =>
    if raw = [] then parse_dependencies rest path
    else do
      let ps ← parseDependencyParts path ((splitChar ',' raw).map pyStrip)
      let ds ← parse_dependencies rest path
      .ok (ps ++ ds)

/-- Python substring containment `pat in s`. -/
def containsSub (pat : Str) (s : Str) : Bool :=
  s.tails.any (fun t => pat.isPrefixOf t)

/-- `METADATA_LINE_RE.fullmatch(line)` for the pattern
`dataset\.(?P<key>[A-Za-z_][A-Za-z0-9_]*)\s*=\s*(?P<value>.*)` (line
26-28), in deterministic form: since the key class is closed under the
characters that could be given back by backtracking and those characters
can start neither `\s*` progress nor `=`, the greedy reading is the only
possible match; `.*` takes the whole remainder of a newline-free line. -/
def matchMetadataLine (line : Str) : Option (Str × Str) :=
  if (str "dataset.").isPrefixOf line then
    match line.drop (str "dataset.").length with
    | [] => none
    | c :: cs =>
      if isIdentStart c then
        match (cs.dropWhile isIdentChar).dropWhile pyIsSpace with
        | '=' :: rest => some (c :: cs.takeWhile isIdentChar, rest.dropWhile pyIsSpace)
        | _ => none
      else none
  else none

/-- `metadata.setdefault(key, []).append(value)` on an insertion-ordered
dict (materialize.py line 195). -/
def addMeta (md : List (Str × List Str)) (key : Str) (value : Str) :
    List (Str × List Str) :=
  match md with
  | [] => [(key, [value])]
  | (k, vs) :: rest =>
    if k = key then (k, vs ++ [value]) :: rest
    else (k, vs) :: addMeta rest key value

/-- Dict lookup on the insertion-ordered metadata mapping. -/
def lookupMeta (md : List (Str × List Str)) (key : Str) : Option (List Str) :=
  match md with
  | [] => none
  | (k, vs) :: rest => if k = key then some vs else lookupMeta rest key

/-- Loop of `parse_metadata_lines` (materialize.py lines 185-196) with
the metadata accumulator explicit: lines without the literal marker
`dataset.` are skipped, lines with it must fullmatch the pattern, and
values are stripped and accumulated per key in declaration order. -/
def parseMetadataAux (path : Str) (md : List (Str × List Str)) :
    List Str → Except Err (List (Str × List Str))
  | [] => .ok md
  | line :: rest =>
    if containsSub (str "dataset.") line then
      match matchMetadataLine line with
      | none => .error (.invalidMetadataLine path line)
      | some (key, value) => parseMetadataAux path (addMeta md key (pyStrip value)) rest
    else parseMetadataAux path md rest

/-- `parse_metadata_lines(lines, path)` (materialize.py lines 185-196). -/
def parse_metadata_lines (lines : List Str) (path : Str) :
    Except Err (List (Str × List Str)) :=
  parseMetadataAux path [] lines

/-- `single_metadata_value(metadata, key, path)` (materialize.py lines
199-207). -/
def single_metadata_value (metadata : List (Str × List Str)) (key : Str)
    (path : Str) : Except Err Str :=
  match lookupMeta metadata key with
  | none => .error (.missingKey key path)
  | some vs =>
    if vs = [] then .error (.missingKey key path)
    else if vs.length ≠ 1 then .error (.keyNotOnce key path)
    else
      let value := vs.headD []
      if value = [] then .error (.keyEmpty key path)
      else .ok value

/-- Descriptor-building stage of `parse_dataset_metadata` (materialize.py
lines 159-165): from the parsed metadata mapping, extract and validate
the required `schema` and `name` keys and the optional `depends` key. -/
def buildDescriptor (metadata : List (Str × List Str)) (path : Str) :
    Except Err (Str × Str × List Str) := do
  let schema ← single_metadata_value metadata (str "schema") path
  let table ← single_metadata_value metadata (str "name") path
  validate_identifier schema (str "schema") path
  validate_identifier table (str "table") path
  let depends ← parse_dependencies ((lookupMeta metadata (str "depends")).getD []) path
  .ok (schema, table, depends)

/-- `parse_dataset_metadata(path, kind, source)` (materialize.py lines
150-165), with lines 159-165 factored as `buildDescriptor`. -/
def parse_dataset_metadata (path : Str) (kind : AssetKind) (source : Str) :
    Except Err (Str × Str × List Str) :=
  let lines := extract_metadata_lines source (commentMarkerOf kind)
  if lines = [] then .error (.missingMetadata path)
  else do
    let metadata ← parse_metadata_lines lines path
    buildDescriptor metadata path

/-- `Asset` dataclass (materialize.py lines 31-39). -/
structure Asset where
  name : Str
  schema : Str
  table : Str
  path : Str
  kind : AssetKind
  source : Str
  depends : List Str
  deriving DecidableEq, Inhabited

/-- `asset_from_path` (materialize.py lines 134-147).  Reading the file
and mapping its suffix to a kind are filesystem effects; the function is
modelled from the read source text and the kind onward.  The asset name
is `f"{schema}.{table}"`. -/
def asset_from_path (path : Str) (kind : AssetKind) (source : Str) :
    Except Err Asset := do
  let (schema, table, depends) ← parse_dataset_metadata path kind source
  .ok { name := schema ++ '.' :: table, schema := schema, table := table,
        path := path, kind := kind, source := source, depends := depends }

/-- Statements issued against the database collaborator, at its
interface. -/
inductive DbStmt where
  /-- `create schema if not exists {schema}` -/
  | createSchema (schema : Str)
  /-- `create or replace table {schema}.{table} as {query}` -/
  | createTableAs (schema : Str) (table : Str) (query : Str)
  deriving DecidableEq

/-- `materialize_sql(asset)` (materialize.py lines 240-248): the executed
query text is `asset.source.strip()`, the whole file text stripped of
surrounding whitespace. -/
def materialize_sql (asset : Asset) : Except Err (List DbStmt) :=
  let sql := pyStrip asset.source
  if sql = [] then .error (.emptySql asset.path)
  else .ok [.createSchema asset.schema, .createTableAs asset.schema asset.table sql]

@[simp] lemma exbind_ok {α β : Type} (a : α) (f : α → Except Err β) :
    (Except.ok a >>= f) = f a := rfl

@[simp] lemma exbind_err {α β : Type} (e : Err) (f : α → Except Err β) :
    ((Except.error e : Except Err α) >>= f) = Except.error e := rfl

lemma except_cases {α : Type} (x : Except Err α) :
    (∃ e, x = .error e) ∨ (∃ v, x = .ok v) := by
  cases x with
  | error e => exact Or.inl ⟨e, rfl⟩
  | ok v => exact Or.inr ⟨v, rfl⟩

/-- Requirement of claim C8 on a required key of the parsed metadata
mapping, violated when the key is missing, has an empty occurrence list,
appears more than once, or its single value is empty or not a valid
identifier. -/
def badRequiredKey (metadata : List (Str × List Str)) (key : Str) : Prop :=
  lookupMeta metadata key = none ∨ lookupMeta metadata key = some [] ∨
    (∃ vs, lookupMeta metadata key = some vs ∧ 1 < vs.length) ∨
    (∃ v, lookupMeta metadata key = some [v] ∧ (v = [] ∨ isIdentifier v = false))

/-- Well-formedness of one dependency reference: splitting on dots gives
exactly two parts, both valid identifiers. -/
def ValidRef (part : Str) : Prop :=
  (splitChar '.' part).length = 2 ∧ ∀ q ∈ splitChar '.' part, isIdentifier q = true

/-- Malformed-dependency condition of claim C8: some comma-split,
stripped, non-empty part of some `depends` value is not a valid
`schema.table` reference. -/
def badDependencyRef (metadata : List (Str × List Str)) : Prop :=
  ∃ raw ∈ (lookupMeta metadata (str "depends")).getD [],
    ∃ part ∈ (splitChar ',' raw).map pyStrip, part ≠ [] ∧ ¬ValidRef part

/-- Presence of a single, non-empty, identifier-shaped value for a
required key; the negation of `badRequiredKey`. -/
def goodKey (metadata : List (Str × List Str)) (key : Str) : Prop :=
  ∃ v, lookupMeta metadata key = some [v] ∧ v ≠ [] ∧ isIdentifier v = true

lemma badRequiredKey_iff_not_goodKey (metadata : List (Str × List Str)) (key : Str) :
    badRequiredKey metadata key ↔ ¬goodKey metadata key := by
  rcases h : lookupMeta metadata key with _ | vs
  · simp [badRequiredKey, goodKey, h]
  · match vs with
    | [] => simp [badRequiredKey, goodKey, h]
    | [v] =>
      by_cases hv : v = []
      · simp [badRequiredKey, goodKey, h, hv]
      · by_cases hid : isIdentifier v = true <;>
          simp [badRequiredKey, goodKey, h, hv, hid]
    | v :: w :: t =>
      constructor
      · intro _ hg
        rcases hg with ⟨u, hu, _⟩
        rw [h] at hu
        simp at hu
      · intro _
        refine Or.inr (Or.inr (Or.inl ⟨v :: w :: t, h, by simp⟩))

lemma vi_ok_iff (value label path : Str) :
    validate_identifier value label path = .ok () ↔ isIdentifier value = true := by
  by_cases h : isIdentifier value = true <;> simp [validate_identifier, h]

lemma vi_err (value label path : Str) (e : Err)
    (h : validate_identifier value label path = .error e) :
    e = .invalidIdentifier label value path := by
  by_cases hid : isIdentifier value = true <;>
    simp [validate_identifier, hid] at h
  exact h.symm

lemma smv_ok_iff (metadata : List (Str × List Str)) (key path : Str) (v : Str) :
    single_metadata_value metadata key path = .ok v ↔
      lookupMeta metadata key = some [v] ∧ v ≠ [] := by
  rcases h : lookupMeta metadata key with _ | vs
  · simp [single_metadata_value, h]
  · match vs with
    | [] => simp [single_metadata_value, h]
    | [w] =>
      by_cases hw : w = []
      · subst hw
        simp [single_metadata_value, h]
      · constructor
        · intro hok
          have hv : w = v := by
            simpa [single_metadata_value, h, hw, List.headD] using hok
          subst hv
          exact ⟨rfl, hw⟩
        · rintro ⟨hv, hne⟩
          simp at hv
          subst hv
          simp [single_metadata_value, h, hw, List.headD]
    | w :: x :: t =>
      simp [single_metadata_value, h, List.length_cons]

lemma smv_err_key_path (metadata : List (Str × List Str)) (key path : Str) (e : Err)
    (h : single_metadata_value metadata key path = .error e) :
    errPathOf e = some path ∧ errKeyOf e = some key := by
  rcases hl : lookupMeta metadata key with _ | vs
  · simp [single_metadata_value, hl] at h
    subst h; simp [errPathOf, errKeyOf]
  · simp only [single_metadata_value, hl] at h
    split_ifs at h with h0 h1 h2
    · injection h with h; subst h; simp [errPathOf, errKeyOf]
    · injection h with h; subst h; simp [errPathOf, errKeyOf]
    · injection h with h; subst h; simp [errPathOf, errKeyOf]

lemma var_ok_iff (part path : Str) :
    validate_asset_reference part path = .ok () ↔ ValidRef part := by
  rcases h : splitChar '.' part with _ | ⟨a, _ | ⟨b, _ | ⟨c, t⟩⟩⟩
  · simp [validate_asset_reference, h, ValidRef]
  · simp [validate_asset_reference, h, ValidRef]
  · rcases except_cases (validate_identifier a (str "schema") path) with ⟨e, he⟩ | ⟨u, he⟩
    · constructor
      · intro hok
        simp [validate_asset_reference, h, he] at hok
      · rintro ⟨_, hall⟩
        have ha := hall a (by simp [h])
        rw [(vi_ok_iff a (str "schema") path).mpr ha] at he
        exact Except.noConfusion he
    · obtain rfl : u = () := rfl
      rcases except_cases (validate_identifier b (str "table") path) with ⟨e, hbe⟩ | ⟨v, hbe⟩
      · constructor
        · intro hok
          simp [validate_asset_reference, h, he, hbe] at hok
        · rintro ⟨_, hall⟩
          have hb := hall b (by simp [h])
          rw [(vi_ok_iff b (str "table") path).mpr hb] at hbe
          exact Except.noConfusion hbe
      · obtain rfl : v = () := rfl
        have ha := (vi_ok_iff a (str "schema") path).mp he
        have hb := (vi_ok_iff b (str "table") path).mp hbe
        constructor
        · intro _
          refine ⟨by simp [h], ?_⟩
          intro q hq
          rw [h] at hq
          simp at hq
          rcases hq with rfl | rfl
          · exact ha
          · exact hb
        · intro _
          simp [validate_asset_reference, h, he, hbe]
  · constructor
    · intro hok
      simp [validate_asset_reference, h] at hok
    · rintro ⟨hlen, _⟩
      rw [h] at hlen
      simp only [List.length_cons] at hlen
      omega

lemma var_err (part path : Str) (e : Err)
    (h : validate_asset_reference part path = .error e) :
    errPathOf e = some path ∧ errKeyOf e ≠ none := by
  rcases hs : splitChar '.' part with _ | ⟨a, _ | ⟨b, _ | ⟨c, t⟩⟩⟩
  · simp [validate_asset_reference, hs] at h
    subst h
    simp [errPathOf, errKeyOf]
  · simp [validate_asset_reference, hs] at h
    subst h
    simp [errPathOf, errKeyOf]
  · rcases except_cases (validate_identifier a (str "schema") path) with ⟨e1, he⟩ | ⟨u, he⟩
    · simp [validate_asset_reference, hs, he] at h
      subst h
      rw [vi_err _ _ _ _ he]
      simp [errPathOf, errKeyOf]
    · obtain rfl : u = () := rfl
      rcases except_cases (validate_identifier b (str "table") path) with ⟨e2, hbe⟩ | ⟨v, hbe⟩
      · simp [validate_asset_reference, hs, he, hbe] at h
        subst h
        rw [vi_err _ _ _ _ hbe]
        simp [errPathOf, errKeyOf]
      · obtain rfl : v = () := rfl
        simp [validate_asset_reference, hs, he, hbe] at h
  · simp [validate_asset_reference, hs] at h
    subst h
    simp [errPathOf, errKeyOf]

lemma pdp_ok_iff (path : Str) (parts : List Str) :
    (∃ ds, parseDependencyParts path parts = .ok ds) ↔
      ∀ part ∈ parts, part ≠ [] → ValidRef part := by
  induction parts with
  | nil => simp [parseDependencyParts]
  | cons part rest ih =>
    by_cases hp : part = []
    · simp only [parseDependencyParts, if_pos hp, List.forall_mem_cons]
      rw [ih]
      constructor
      · intro hall
        exact ⟨fun hne => absurd hp hne, hall⟩
      · exact fun h => h.2
    · rcases except_cases (validate_asset_reference part path) with ⟨e, he⟩ | ⟨u, hu⟩
      · constructor
        · rintro ⟨ds, hds⟩
          simp [parseDependencyParts, if_neg hp, he] at hds
        · intro hall
          have hok := (var_ok_iff part path).mpr (hall part (by simp) hp)
          rw [hok] at he
          exact Except.noConfusion he
      · obtain rfl : u = () := rfl
        have hvr := (var_ok_iff part path).mp hu
        constructor
        · rintro ⟨ds, hds⟩ q hq hqne
          rcases List.mem_cons.mp hq with rfl | hq'
          · exact hvr
          · rcases except_cases (parseDependencyParts path rest) with ⟨e, hre⟩ | ⟨ds', hre⟩
            · simp [parseDependencyParts, if_neg hp, hu, hre] at hds
            · exact (ih.mp ⟨ds', hre⟩) q hq' hqne
        · intro hall
          rcases ih.mpr (fun q hq hqne => hall q (by simp [hq]) hqne) with ⟨ds', hre⟩
          exact ⟨part :: ds', by simp [parseDependencyParts, if_neg hp, hu, hre]⟩

lemma pdp_err (path : Str) (parts : List Str) (e : Err)
    (h : parseDependencyParts path parts = .error e) :
    errPathOf e = some path ∧ errKeyOf e ≠ none := by
  induction parts with
  | nil => simp [parseDependencyParts] at h
  | cons part rest ih =>
    by_cases hp : part = []
    · rw [show parseDependencyParts path (part :: rest) =
          parseDependencyParts path rest by
        simp [parseDependencyParts, if_pos hp]] at h
      exact ih h
    · simp only [parseDependencyParts, if_neg hp] at h
      rcases except_cases (validate_asset_reference part path) with ⟨e1, he⟩ | ⟨u, he⟩
      · rw [he] at h
        simp at h
        subst h
        exact var_err part path e1 he
      · obtain rfl : u = () := rfl
        rw [he] at h
        simp only [exbind_ok] at h
        rcases except_cases (parseDependencyParts path rest) with ⟨e2, hre⟩ | ⟨ds, hre⟩
        · rw [hre] at h
          simp at h
          subst h
          exact ih hre
        · rw [hre] at h
          simp at h

lemma pd_ok_iff (values : List Str) (path : Str) :
    (∃ ds, parse_dependencies values path = .ok ds) ↔
      ∀ raw ∈ values, ∀ part ∈ (splitChar ',' raw).map pyStrip,
        part ≠ [] → ValidRef part := by
  induction values with
  | nil => simp [parse_dependencies]
  | cons raw rest ih =>
    rw [List.forall_mem_cons]
    by_cases hr : raw = []
    · simp only [parse_dependencies, if_pos hr]
      rw [ih]
      constructor
      · intro hall
        refine ⟨?_, hall⟩
        intro part hp hne
        subst hr
        simp [splitChar, pyStrip, pyLstrip, pyRstrip] at hp
        exact absurd hp hne
      · exact fun h => h.2
    · rcases except_cases (parseDependencyParts path ((splitChar ',' raw).map pyStrip))
        with ⟨e, he⟩ | ⟨ps, hps⟩
      · constructor
        · rintro ⟨ds, hds⟩
          simp [parse_dependencies, if_neg hr, he] at hds
        · rintro ⟨hraw, _⟩
          rcases (pdp_ok_iff path ((splitChar ',' raw).map pyStrip)).mpr hraw with ⟨ps, hps⟩
          rw [hps] at he
          exact Except.noConfusion he
      · have hraw := (pdp_ok_iff path ((splitChar ',' raw).map pyStrip)).mp ⟨ps, hps⟩
        constructor
        · rintro ⟨ds, hds⟩
          refine ⟨hraw, ?_⟩
          rcases except_cases (parse_dependencies rest path) with ⟨e, hre⟩ | ⟨ds', hre⟩
          · simp [parse_dependencies, if_neg hr, hps, hre] at hds
          · exact ih.mp ⟨ds', hre⟩
        · rintro ⟨_, hrest⟩
          rcases ih.mpr hrest with ⟨ds', hre⟩
          exact ⟨ps ++ ds', by simp [parse_dependencies, if_neg hr, hps, hre]⟩

lemma pd_err (values : List Str) (path : Str) (e : Err)
    (h : parse_dependencies values path = .error e) :
    errPathOf e = some path ∧ errKeyOf e ≠ none := by
  induction values with
  | nil => simp [parse_dependencies] at h
  | cons raw rest ih =>
    by_cases hr : raw = []
    · rw [show parse_dependencies (raw :: rest) path = parse_dependencies rest path by
        simp [parse_dependencies, if_pos hr]] at h
      exact ih h
    · simp only [parse_dependencies, if_neg hr] at h
      rcases except_cases (parseDependencyParts path ((splitChar ',' raw).map pyStrip))
        with ⟨e1, he⟩ | ⟨ps, hps⟩
      · rw [he] at h
        simp at h
        subst h
        exact pdp_err _ _ _ he
      · rw [hps] at h
        simp only [exbind_ok] at h
        rcases except_cases (parse_dependencies rest path) with ⟨e2, hre⟩ | ⟨ds, hre⟩
        · rw [hre] at h
          simp at h
          subst h
          exact ih hre
        · rw [hre] at h
          simp at h

/-- Requirement of claim C8 on the `depends` values: every comma-split,
stripped, non-empty part is a valid two-part reference. -/
def DepsOk (metadata : List (Str × List Str)) : Prop :=
  ∀ raw ∈ (lookupMeta metadata (str "depends")).getD [],
    ∀ part ∈ (splitChar ',' raw).map pyStrip, part ≠ [] → ValidRef part

lemma not_badDependencyRef_iff (metadata : List (Str × List Str)) :
    ¬badDependencyRef metadata ↔ DepsOk metadata := by
  unfold badDependencyRef DepsOk
  push_neg
  constructor
  · intro h raw hraw part hpart hne
    exact h raw hraw part hpart hne
  · intro h raw hraw part hpart hne
    exact h raw hraw part hpart hne

lemma bd_ok_char (metadata : List (Str × List Str)) (path s t : Str) (d : List Str) :
    buildDescriptor metadata path = .ok (s, t, d) ↔
      (lookupMeta metadata (str "schema") = some [s] ∧ s ≠ [] ∧ isIdentifier s = true) ∧
      (lookupMeta metadata (str "name") = some [t] ∧ t ≠ [] ∧ isIdentifier t = true) ∧
      parse_dependencies ((lookupMeta metadata (str "depends")).getD []) path = .ok d := by
  constructor
  · intro h
    rcases except_cases (single_metadata_value metadata (str "schema") path)
      with ⟨e1, he1⟩ | ⟨s0, hs0⟩
    · simp [buildDescriptor, he1] at h
    · rcases except_cases (single_metadata_value metadata (str "name") path)
        with ⟨e2, he2⟩ | ⟨t0, ht0⟩
      · simp [buildDescriptor, hs0, he2] at h
      · rcases except_cases (validate_identifier s0 (str "schema") path)
          with ⟨e3, he3⟩ | ⟨u, hu3⟩
        · simp [buildDescriptor, hs0, ht0, he3] at h
        · obtain rfl : u = () := rfl
          rcases except_cases (validate_identifier t0 (str "table") path)
            with ⟨e4, he4⟩ | ⟨v, hv4⟩
          · simp [buildDescriptor, hs0, ht0, hu3, he4] at h
          · obtain rfl : v = () := rfl
            rcases except_cases
                (parse_dependencies ((lookupMeta metadata (str "depends")).getD []) path)
              with ⟨e5, he5⟩ | ⟨d0, hd0⟩
            · simp [buildDescriptor, hs0, ht0, hu3, hv4, he5] at h
            · have hval : s0 = s ∧ t0 = t ∧ d0 = d := by
                simpa [buildDescriptor, hs0, ht0, hu3, hv4, hd0] using h
              obtain ⟨rfl, rfl, rfl⟩ := hval
              obtain ⟨hls, hsne⟩ := (smv_ok_iff metadata (str "schema") path s0).mp hs0
              obtain ⟨hlt, htne⟩ := (smv_ok_iff metadata (str "name") path t0).mp ht0
              exact ⟨⟨hls, hsne, (vi_ok_iff _ _ _).mp hu3⟩,
                ⟨hlt, htne, (vi_ok_iff _ _ _).mp hv4⟩, hd0⟩
  · rintro ⟨⟨hls, hsne, hsid⟩, ⟨hlt, htne, htid⟩, hpd⟩
    have h1 := (smv_ok_iff metadata (str "schema") path s).mpr ⟨hls, hsne⟩
    have h2 := (smv_ok_iff metadata (str "name") path t).mpr ⟨hlt, htne⟩
    have h3 := (vi_ok_iff s (str "schema") path).mpr hsid
    have h4 := (vi_ok_iff t (str "table") path).mpr htid
    simp [buildDescriptor, h1, h2, h3, h4, hpd]

lemma bd_exists_ok_iff (metadata : List (Str × List Str)) (path : Str) :
    (∃ v, buildDescriptor metadata path = .ok v) ↔
      goodKey metadata (str "schema") ∧ goodKey metadata (str "name") ∧
        DepsOk metadata := by
  constructor
  · rintro ⟨⟨s, t, d⟩, h⟩
    obtain ⟨⟨hls, hsne, hsid⟩, ⟨hlt, htne, htid⟩, hpd⟩ := (bd_ok_char _ _ _ _ _).mp h
    exact ⟨⟨s, hls, hsne, hsid⟩, ⟨t, hlt, htne, htid⟩,
      (pd_ok_iff _ _).mp ⟨d, hpd⟩⟩
  · rintro ⟨⟨s, hls, hsne, hsid⟩, ⟨t, hlt, htne, htid⟩, hdeps⟩
    rcases (pd_ok_iff ((lookupMeta metadata (str "depends")).getD []) path).mpr hdeps
      with ⟨d, hd⟩
    exact ⟨(s, t, d), (bd_ok_char _ _ _ _ _).mpr
      ⟨⟨hls, hsne, hsid⟩, ⟨hlt, htne, htid⟩, hd⟩⟩

lemma bd_err (metadata : List (Str × List Str)) (path : Str) (e : Err)
    (h : buildDescriptor metadata path = .error e) :
    errPathOf e = some path ∧ errKeyOf e ≠ none := by
  rcases except_cases (single_metadata_value metadata (str "schema") path)
    with ⟨e1, he1⟩ | ⟨s0, hs0⟩
  · have : e1 = e := by simpa [buildDescriptor, he1] using h
    subst this
    have := smv_err_key_path metadata (str "schema") path _ he1
    exact ⟨this.1, by simp [this.2]⟩
  · rcases except_cases (single_metadata_value metadata (str "name") path)
      with ⟨e2, he2⟩ | ⟨t0, ht0⟩
    · have : e2 = e := by simpa [buildDescriptor, hs0, he2] using h
      subst this
      have := smv_err_key_path metadata (str "name") path _ he2
      exact ⟨this.1, by simp [this.2]⟩
    · rcases except_cases (validate_identifier s0 (str "schema") path)
        with ⟨e3, he3⟩ | ⟨u, hu3⟩
      · have : e3 = e := by simpa [buildDescriptor, hs0, ht0, he3] using h
        subst this
        rw [vi_err _ _ _ _ he3]
        simp [errPathOf, errKeyOf]
      · obtain rfl : u = () := rfl
        rcases except_cases (validate_identifier t0 (str "table") path)
          with ⟨e4, he4⟩ | ⟨v, hv4⟩
        · have : e4 = e := by simpa [buildDescriptor, hs0, ht0, hu3, he4] using h
          subst this
          rw [vi_err _ _ _ _ he4]
          simp [errPathOf, errKeyOf]
        · obtain rfl : v = () := rfl
          rcases except_cases
              (parse_dependencies ((lookupMeta metadata (str "depends")).getD []) path)
            with ⟨e5, he5⟩ | ⟨d0, hd0⟩
          · have : e5 = e := by simpa [buildDescriptor, hs0, ht0, hu3, hv4, he5] using h
            subst this
            exact pd_err _ _ _ he5
          · simp [buildDescriptor, hs0, ht0, hu3, hv4, hd0] at h

/-- Claim C8: descriptor building from a parsed metadata mapping fails if
and only if a required key (`name` or `schema`) is missing, appears more
than once, has an empty value or a value that is not a valid identifier,
or a dependency reference is malformed; every failure carries the
offending file path and the offending key, label or reference; and on
success the single value of each required key is the asset's schema
respectively table. -/
theorem descriptor_building_failure_iff (metadata : List (Str × List Str)) (path : Str) :
    ((∃ e, buildDescriptor metadata path = .error e) ↔
      badRequiredKey metadata (str "schema") ∨ badRequiredKey metadata (str "name") ∨
        badDependencyRef metadata) ∧
    (∀ e, buildDescriptor metadata path = .error e →
      errPathOf e = some path ∧ errKeyOf e ≠ none) ∧
    (∀ s t d, buildDescriptor metadata path = .ok (s, t, d) →
      lookupMeta metadata (str "schema") = some [s] ∧
        lookupMeta metadata (str "name") = some [t]) := by
  refine ⟨?_, fun e he => bd_err metadata path e he, ?_⟩
  · have herr : (∃ e, buildDescriptor metadata path = .error e) ↔
        ¬∃ v, buildDescriptor metadata path = .ok v := by
      cases h : buildDescriptor metadata path with
      | error e => simp
      | ok v => simp
    rw [herr, bd_exists_ok_iff]
    have h1 := badRequiredKey_iff_not_goodKey metadata (str "schema")
    have h2 := badRequiredKey_iff_not_goodKey metadata (str "name")
    have h3 := not_badDependencyRef_iff metadata
    tauto
  · intro s t d h
    obtain ⟨⟨hls, _, _⟩, ⟨hlt, _, _⟩, _⟩ := (bd_ok_char _ _ _ _ _).mp h
    exact ⟨hls, hlt⟩

/-- Concrete metadata mapping used to instantiate
`descriptor_building_failure_iff`. -/
def mdW : List (Str × List Str) := [(str "schema", [str "s"]), (str "name", [str "t"])]

theorem descriptor_building_failure_iff_witness :
    lookupMeta mdW (str "schema") = some [str "s"] ∧
      lookupMeta mdW (str "name") = some [str "t"] :=
  (descriptor_building_failure_iff mdW (str "p")).2.2 (str "s") (str "t") [] rfl

/-- Split a qualified name at its first dot (Python `name.split(".", 1)`
on a dotted name). -/
def splitFirstDot (s : Str) : Str × Str :=
  (s.takeWhile (fun c => c != '.'), (s.dropWhile (fun c => c != '.')).drop 1)

lemma takeWhile_append_all {p : Char → Bool} {l₁ l₂ : Str}
    (h : ∀ c ∈ l₁, p c = true) :
    (l₁ ++ l₂).takeWhile p = l₁ ++ l₂.takeWhile p := by
  induction l₁ with
  | nil => simp
  | cons c cs ih =>
    have hc : p c = true := h c (by simp)
    simp [List.takeWhile_cons, hc, ih (fun x hx => h x (by simp [hx]))]

lemma dropWhile_append_all {p : Char → Bool} {l₁ l₂ : Str}
    (h : ∀ c ∈ l₁, p c = true) :
    (l₁ ++ l₂).dropWhile p = l₂.dropWhile p := by
  induction l₁ with
  | nil => simp
  | cons c cs ih =>
    have hc : p c = true := h c (by simp)
    simp [List.dropWhile_cons, hc, ih (fun x hx => h x (by simp [hx]))]

lemma isIdentifier_no_dot {s : Str} (h : isIdentifier s = true) :
    ∀ c ∈ s, (c != '.') = true := by
  match s with
  | [] => simp [isIdentifier] at h
  | c :: cs =>
    simp only [isIdentifier, Bool.and_eq_true] at h
    intro x hx
    rcases List.mem_cons.mp hx with rfl | hx'
    · rcases eq_or_ne x '.' with rfl | hne
      · exact absurd h.1 (by decide)
      · simpa using hne
    · have hxc := (List.all_eq_true.mp h.2) x hx'
      rcases eq_or_ne x '.' with rfl | hne
      · exact absurd hxc (by decide)
      · simpa using hne

lemma splitFirstDot_name {s t : Str} (hs : isIdentifier s = true)
    (ht : isIdentifier t = true) :
    splitFirstDot (s ++ '.' :: t) = (s, t) := by
  unfold splitFirstDot
  rw [takeWhile_append_all (isIdentifier_no_dot hs),
    dropWhile_append_all (isIdentifier_no_dot hs)]
  simp [List.takeWhile_cons, List.dropWhile_cons]

lemma pdm_ok_ident (path : Str) (kind : AssetKind) (source : Str) (s t : Str)
    (d : List Str) (h : parse_dataset_metadata path kind source = .ok (s, t, d)) :
    isIdentifier s = true ∧ isIdentifier t = true := by
  simp only [parse_dataset_metadata] at h
  by_cases hl : extract_metadata_lines source (commentMarkerOf kind) = []
  · rw [if_pos hl] at h
    exact Except.noConfusion h
  · rw [if_neg hl] at h
    rcases except_cases (parse_metadata_lines
        (extract_metadata_lines source (commentMarkerOf kind)) path)
      with ⟨e, he⟩ | ⟨md, hmd⟩
    · rw [he] at h
      simp at h
    · rw [hmd] at h
      simp only [exbind_ok] at h
      obtain ⟨⟨_, _, hsid⟩, ⟨_, _, htid⟩, _⟩ := (bd_ok_char _ _ _ _ _).mp h
      exact ⟨hsid, htid⟩

lemma afp_ok_char (path : Str) (kind : AssetKind) (source : Str) (a : Asset)
    (h : asset_from_path path kind source = .ok a) :
    ∃ s t d, parse_dataset_metadata path kind source = .ok (s, t, d) ∧
      a = { name := s ++ '.' :: t, schema := s, table := t, path := path,
            kind := kind, source := source, depends := d } := by
  rcases except_cases (parse_dataset_metadata path kind source)
    with ⟨e, he⟩ | ⟨⟨s, t, d⟩, hok⟩
  · simp [asset_from_path, he] at h
  · refine ⟨s, t, d, hok, ?_⟩
    have hr : Except.ok (ε := Err)
        ({ name := s ++ '.' :: t, schema := s, table := t, path := path,
           kind := kind, source := source, depends := d } : Asset) = .ok a := by
      rw [← h]
      simp [asset_from_path, hok]
    injection hr with hr
    exact hr.symm

/-- Claim C9: every asset produced by discovery has
`name = schema ++ "." ++ table`, and because schema and table match the
identifier pattern, which excludes dots, splitting the name at its first
dot recovers exactly the original schema and table. -/
theorem asset_name_round_trip (path : Str) (kind : AssetKind) (source : Str)
    (a : Asset) (h : asset_from_path path kind source = .ok a) :
    a.name = a.schema ++ '.' :: a.table ∧
      splitFirstDot a.name = (a.schema, a.table) := by
  obtain ⟨s, t, d, hok, rfl⟩ := afp_ok_char path kind source a h
  obtain ⟨hsid, htid⟩ := pdm_ok_ident path kind source s t d hok
  exact ⟨rfl, splitFirstDot_name hsid htid⟩

/-- Concrete SQL asset source instantiating `asset_name_round_trip`. -/
def srcW9 : Str := str "-- dataset.schema = s\n-- dataset.name = t\nselect 1"

/-- Asset produced by discovery from `srcW9`. -/
def aW9 : Asset :=
  { name := str "s.t", schema := str "s", table := str "t", path := str "w9.sql",
    kind := .sql, source := srcW9, depends := [] }

theorem asset_name_round_trip_witness :
    aW9.name = aW9.schema ++ '.' :: aW9.table ∧
      splitFirstDot aW9.name = (aW9.schema, aW9.table) :=
  asset_name_round_trip (str "w9.sql") .sql srcW9 aW9 rfl

lemma mem_dropWhile_of_not {p : Char → Bool} {c : Char} (hc : p c = false) :
    ∀ {l : Str}, c ∈ l → c ∈ l.dropWhile p := by
  intro l
  induction l with
  | nil => simp
  | cons x xs ih =>
    intro hm
    by_cases hx : p x = true
    · rw [List.dropWhile_cons, if_pos hx]
      rcases List.mem_cons.mp hm with rfl | hm'
      · rw [hc] at hx
        exact absurd hx (by simp)
      · exact ih hm'
    · rw [List.dropWhile_cons, if_neg hx]
      exact hm

lemma mem_pyStrip {c : Char} (hc : pyIsSpace c = false) {s : Str} (h : c ∈ s) :
    c ∈ pyStrip s := by
  have h1 : c ∈ pyLstrip s := mem_dropWhile_of_not hc h
  have h2 : c ∈ (pyLstrip s).reverse := List.mem_reverse.mpr h1
  have h3 : c ∈ (pyLstrip s).reverse.dropWhile pyIsSpace := mem_dropWhile_of_not hc h2
  exact List.mem_reverse.mpr h3

lemma splitChar_ne_nil (ch : Char) (s : Str) : splitChar ch s ≠ [] := by
  cases s with
  | nil => simp [splitChar]
  | cons x xs =>
    simp only [splitChar]
    rcases hr : splitChar ch xs with _ | ⟨h1, t1⟩ <;>
      by_cases hx : x = ch <;>
        simp [hr, hx]

lemma splitChar_subset (ch : Char) :
    ∀ (s : Str), ∀ l ∈ splitChar ch s, ∀ c ∈ l, c ∈ s := by
  intro s
  induction s with
  | nil =>
    intro l hl c hc
    simp [splitChar] at hl
    subst hl
    simp at hc
  | cons x xs ih =>
    intro l hl c hc
    rcases hr : splitChar ch xs with _ | ⟨h1, t1⟩
    · exact absurd hr (splitChar_ne_nil ch xs)
    · simp only [splitChar, hr] at hl
      by_cases hx : (x == ch) = true
      · rw [if_pos hx] at hl
        rcases List.mem_cons.mp hl with rfl | hl'
        · simp at hc
        · exact List.mem_cons_of_mem x (ih l (by rw [hr]; exact hl') c hc)
      · rw [if_neg hx] at hl
        rcases List.mem_cons.mp hl with rfl | hl'
        · rcases List.mem_cons.mp hc with rfl | hc'
          · simp
          · exact List.mem_cons_of_mem x (ih h1 (by rw [hr]; simp) c hc')
        · exact List.mem_cons_of_mem x (ih l (by rw [hr]; simp [hl']) c hc)

lemma pySplitlines_subset (s : Str) : ∀ l ∈ pySplitlines s, ∀ c ∈ l, c ∈ s := by
  intro l hl c hc
  unfold pySplitlines at hl
  by_cases h0 : s = []
  · simp [h0] at hl
  · rw [if_neg h0] at hl
    by_cases h1 : s.getLast? = some '\n'
    · rw [if_pos h1] at hl
      have hmem : l ∈ splitChar '\n' s := List.dropLast_subset _ hl
      exact splitChar_subset '\n' s l hmem c hc
    · rw [if_neg h1] at hl
      exact splitChar_subset '\n' s l hl c hc

lemma dropWhile_head_false {p : Char → Bool} :
    ∀ {l : Str} {c : Char} {rest : Str}, l.dropWhile p = c :: rest → p c = false := by
  intro l
  induction l with
  | nil =>
    intro c rest h
    simp at h
  | cons x xs ih =>
    intro c rest h
    by_cases hx : p x = true
    · rw [List.dropWhile_cons, if_pos hx] at h
      exact ih h
    · rw [List.dropWhile_cons, if_neg hx] at h
      injection h with h1 _
      subst h1
      simpa using hx

lemma extract_nonempty_source (source pfx : Str)
    (h : extract_metadata_lines source pfx ≠ []) :
    ∃ c ∈ source, pyIsSpace c = false := by
  rw [extract_metadata_lines_spec] at h
  unfold metadataLinesSpec at h
  rcases List.exists_mem_of_ne_nil _ h with ⟨x, hx⟩
  have hx1 := List.mem_filter.mp hx
  rcases List.mem_map.mp hx1.1 with ⟨l, hl, hlx⟩
  have hl2 : l ∈ (pySplitlines source).filter (fun l => decide (pyLstrip l ≠ [])) :=
    (List.takeWhile_prefix _).subset hl
  have hl3 := List.mem_filter.mp hl2
  have hxne : x ≠ [] := by simpa using hx1.2
  rcases hxval : x with _ | ⟨c, rest⟩
  · exact absurd hxval hxne
  · rw [hxval] at hlx
    have hlx2 : List.dropWhile pyIsSpace ((pyLstrip l).drop pfx.length) = c :: rest := hlx
    have hcfalse : pyIsSpace c = false := dropWhile_head_false hlx2
    have hcx : c ∈ pyLstrip ((pyLstrip l).drop pfx.length) := by
      rw [hlx]
      simp
    have hc1 : c ∈ (pyLstrip l).drop pfx.length := by
      have : pyLstrip ((pyLstrip l).drop pfx.length) ⊆ (pyLstrip l).drop pfx.length :=
        List.dropWhile_subset _
      exact this hcx
    have hc2 : c ∈ pyLstrip l := List.drop_subset _ _ hc1
    have hc3 : c ∈ l := List.dropWhile_subset _ hc2
    exact ⟨c, pySplitlines_subset source l hl3.1 c hc3, hcfalse⟩

lemma pdm_ok_strip_ne (path : Str) (kind : AssetKind) (source : Str) (s t : Str)
    (d : List Str) (h : parse_dataset_metadata path kind source = .ok (s, t, d)) :
    pyStrip source ≠ [] := by
  have hl : extract_metadata_lines source (commentMarkerOf kind) ≠ [] := by
    intro hc
    simp [parse_dataset_metadata, hc] at h
  rcases extract_nonempty_source _ _ hl with ⟨c, hcs, hcn⟩
  intro hstrip
  have hmem := mem_pyStrip hcn hcs
  rw [hstrip] at hmem
  simp at hmem

/-- Claim C10: an asset that passes discovery has non-whitespace source,
so the "SQL asset is empty" branch of `materialize_sql` is unreachable
for discovered assets, and the query it executes is the stripped whole
file text, metadata comment lines included, not only the body after the
metadata block. -/
theorem discovered_sql_never_empty (path : Str) (kind : AssetKind) (source : Str)
    (a : Asset) (h : asset_from_path path kind source = .ok a) :
    pyStrip a.source ≠ [] ∧
      materialize_sql a =
        .ok [.createSchema a.schema, .createTableAs a.schema a.table (pyStrip a.source)] := by
  obtain ⟨s, t, d, hok, rfl⟩ := afp_ok_char path kind source a h
  have hne : pyStrip source ≠ [] := pdm_ok_strip_ne path kind source s t d hok
  exact ⟨hne, by simp [materialize_sql, hne]⟩

/-- Concrete Python asset source instantiating `discovered_sql_never_empty`. -/
def srcW10 : Str := str "# dataset.schema = raw\n# dataset.name = nums\nx = 1"

/-- Asset produced by discovery from `srcW10`. -/
def aW10 : Asset :=
  { name := str "raw.nums", schema := str "raw", table := str "nums",
    path := str "w10.py", kind := .python, source := srcW10, depends := [] }

theorem discovered_sql_never_empty_witness :
    pyStrip aW10.source ≠ [] ∧
      materialize_sql aW10 =
        .ok [.createSchema aW10.schema,
          .createTableAs aW10.schema aW10.table (pyStrip aW10.source)] :=
  discovered_sql_never_empty (str "w10.py") .python srcW10 aW10 rfl

/-- Python `sorted(set(l))` for strings: the sorted duplicate-free list
of the elements, under the lexicographic code-point order (Python string
comparison, the lexicographic order on `List Char`). -/
def sortedDedup (l : List Str) : List Str := List.insertionSort (· ≤ ·) l.dedup

/-- Inner loop of `asset_dependencies` (materialize.py lines 81-88):
validate each declared dependency of one asset against the full
discovered key set. -/
def validateDeps (keys : List Str) (name : Str) (path : Str) :
    List Str → Except Err (List Str)
  | [] => .ok []
  | dep :: rest =>
    if dep = name then .error (.selfDependency name)
    else if dep ∉ keys then .error (.unknownDependency dep path)
    else do
      let ds ← validateDeps keys name path rest
      .ok (dep :: ds)

/-- Outer loop of `asset_dependencies` (materialize.py lines 79-89),
building the `deps_map` entries in dict order. -/
def assetDepsAux (keys : List Str) : List (Str × Asset) → Except Err (List (Str × List Str))
  | [] => .ok []
  | (name, asset) :: rest => do
    let deps ← validateDeps keys name asset.path asset.depends
    let m ← assetDepsAux keys rest
    .ok ((name, sortedDedup deps) :: m)

/-- `asset_dependencies(assets)` (materialize.py lines 77-90): validate
every declared dependency of every discovered asset and return, per
asset, `sorted(set(deps))`. -/
def asset_dependencies (assets : List (Str × Asset)) :
    Except Err (List (Str × List Str)) :=
  assetDepsAux (assets.map Prod.fst) assets

/-- `deps_map[name]` (total model: the selections that reach the lookup
have every selected name as a `deps_map` key, so the default is never
exercised there). -/
def depsOf (deps_map : List (Str × List Str)) (n : Str) : List Str :=
  (lookupMeta deps_map n).getD []

/-- Inner loop of `resolve_selection` (materialize.py lines 112-115):
walk one dependency list, adding unseen names to the selection and the
worklist. -/
def addDeps (sel stack : List Str) : List Str → List Str × List Str
  | [] => (sel, stack)
  | dep :: rest =>
    if dep ∈ sel then addDeps sel stack rest
    else addDeps (dep :: sel) (dep :: stack) rest

/-- Worklist loop of `resolve_selection` (materialize.py lines 109-116).
Python's `set` is modelled as a membership list and `stack.pop()` as
taking the worklist head; which end is popped only permutes the
traversal, and the resulting selection is used as a set.  The fuel is
spent one unit per iteration and is sized by `runClosure` so that it
cannot run out before the worklist empties. -/
def closureAux (dm : List (Str × List Str)) : Nat → List Str → List Str → List Str
  | 0, sel, _ => sel
  | _ + 1, sel, [] => sel
  | fuel + 1, sel, name :: rest =>
    let r := addDeps sel rest (depsOf dm name)
    closureAux dm fuel r.1 r.2

/-- Closure phase of `resolve_selection`: start from the initial
selection and saturate under declared dependencies. -/
def runClosure (dm : List (Str × List Str)) (selected : List Str) : List Str :=
  closureAux dm
    (selected.length + ((dm.map (fun e => e.2.length)).sum) + 1) selected selected

/-- `sorted(set(requested) - set(assets))` (materialize.py line 105): the
sorted duplicate-free list of the requested names outside the discovered
key set. -/
def unknownRequested (assets : List (Str × Asset)) (requested : List Str) : List Str :=
  sortedDedup (requested.filter (fun n => decide (n ∉ assets.map Prod.fst)))

/-- `resolve_selection(names, all_assets, assets, deps_map)`
(materialize.py lines 93-116).  `names : Iterable[str] | None` is an
`Option`; `if not names` catches both `None` and the empty list;
`sorted(set(requested) - set(assets))` is the sorted duplicate-free list
of the requested names outside the discovered key set; `set(requested)`,
the starting selection, is `requested.dedup`. -/
def resolve_selection (names : Option (List Str)) (all_assets : Bool)
    (assets : List (Str × Asset)) (deps_map : List (Str × List Str)) :
    Except Err (List Str) :=
  if all_assets then .ok (runClosure deps_map (assets.map Prod.fst))
  else
    match names with
    | none => .error .usage
    | some requested =>
      if requested = [] then .error .usage
      else
        let unknown := unknownRequested assets requested
        if unknown ≠ [] then .error (.unknownAssets unknown)
        else .ok (runClosure deps_map requested.dedup)

/-- State of `graphlib.TopologicalSorter`: `_node2info` as the insertion
order of its keys plus the `npredecessors` counter and `successors` list
of every node (defaults `0` and `[]` for nodes never inserted). -/
structure TSState where
  order : List Str
  npred : Str → Int
  succs : Str → List Str

/-- `TopologicalSorter._get_nodeinfo`: insert a fresh node at the end of
the dict order. -/
def tsGetNode (st : TSState) (n : Str) : TSState :=
  if n ∈ st.order then st else { st with order := st.order ++ [n] }

/-- Predecessor loop body of `TopologicalSorter.add` (graphlib): ensure
the predecessor is known and append the node to its successor list. -/
def tsAddSucc (node : Str) (acc : TSState) (p : Str) : TSState :=
  let acc1 := tsGetNode acc p
  { acc1 with succs := fun m => if m = p then acc1.succs p ++ [node] else acc1.succs m }

/-- `TopologicalSorter.add(node, *predecessors)` (graphlib): bump the
node's predecessor count and append the node to each predecessor's
successor list. -/
def tsAdd (st : TSState) (node : Str) (preds : List Str) : TSState :=
  let st1 := tsGetNode st node
  let st2 : TSState :=
    { st1 with npred := fun m => if m = node then st1.npred node + preds.length else st1.npred m }
  preds.foldl (tsAddSucc node) st2

/-- `TopologicalSorter(graph)`: add every `(node, predecessors)` item in
dict order. -/
def tsInit (g : List (Str × List Str)) : TSState :=
  g.foldl (fun st e => tsAdd st e.1 e.2)
    { order := [], npred := fun _ => 0, succs := fun _ => [] }

/-- Iterate a visiting function over a successor list, threading the
seen set and stopping at the first cycle found. -/
def visitStep (vf : List Str → Str → List Str × Option (List Str)) :
    List Str → List Str → List Str × Option (List Str)
  | seen, [] => (seen, none)
  | seen, c :: cs =>
    match vf seen c with
    | (seen', some cyc) => (seen', some cyc)
    | (seen', none) => visitStep vf seen' cs

/-- One step of `TopologicalSorter._find_cycle` (graphlib): a candidate
node reached from the top of the depth-first stack.  A seen node on the
current stack closes a cycle `stack[node2stacki[node]:] + [node]`; a
seen node off the stack is skipped; an unseen node is pushed and its
successors are explored.  The fuel bounds the expansion depth and is
sized by `findCycle` so that it cannot run out. -/
def visit (succs : Str → List Str) :
    Nat → List Str → List Str → Str → List Str × Option (List Str)
  | fuel, seen, path, node =>
    if node ∈ seen then
      if node ∈ path then
        (seen, some (path.dropWhile (fun x => decide (x ≠ node)) ++ [node]))
      else (seen, none)
    else
      match fuel with
      | 0 => (seen, none)
      | fuel' + 1 =>
        visitStep (fun s c => visit succs fuel' s (path ++ [node]) c)
          (node :: seen) (succs node)

/-- `visit` mapped over a successor list: the inner loop of the
depth-first expansion. -/
def visitList (succs : Str → List Str) (fuel : Nat) (seen path : List Str)
    (l : List Str) : List Str × Option (List Str) :=
  visitStep (fun s c => visit succs fuel s path c) seen l

lemma visit_eq (succs : Str → List Str) (fuel : Nat) (seen path : List Str)
    (node : Str) :
    visit succs fuel seen path node =
      if node ∈ seen then
        if node ∈ path then
          (seen, some (path.dropWhile (fun x => decide (x ≠ node)) ++ [node]))
        else (seen, none)
      else
        match fuel with
        | 0 => (seen, none)
        | fuel' + 1 =>
          visitList succs fuel' (node :: seen) (path ++ [node]) (succs node) := by
  cases fuel
  · rw [visit]
  · rw [visit]
    rfl

lemma visitList_nil (succs : Str → List Str) (fuel : Nat) (seen path : List Str) :
    visitList succs fuel seen path [] = (seen, none) := rfl

lemma visitList_cons (succs : Str → List Str) (fuel : Nat) (seen path : List Str)
    (c : Str) (cs : List Str) :
    visitList succs fuel seen path (c :: cs) =
      match visit succs fuel seen path c with
      | (seen', some cyc) => (seen', some cyc)
      | (seen', none) => visitList succs fuel seen' path cs := rfl

/-- Outer loop of `_find_cycle`: start a depth-first search at every
node in insertion order, skipping already-seen roots. -/
def findCycleAux (succs : Str → List Str) (fuel : Nat) :
    List Str → List Str → Option (List Str)
  | _, [] => none
  | seen, n :: rest =>
    if n ∈ seen then findCycleAux succs fuel seen rest
    else
      match visit succs fuel seen [] n with
      | (_, some cyc) => some cyc
      | (seen', none) => findCycleAux succs fuel seen' rest

/-- `TopologicalSorter._find_cycle` (graphlib). -/
def findCycle (st : TSState) : Option (List Str) :=
  findCycleAux st.succs (st.order.length + 1) [] st.order

/-- Innermost loop of `TopologicalSorter.done` (graphlib): decrement the
counter of each successor, collecting those that reach exactly 0 in the
ready accumulator.  (The `_NODE_OUT`/`_NODE_DONE` sentinels guard misuse
of the incremental API; in the `static_order` discipline a node's
counter is never decremented after it is passed out, so they never
change the arithmetic and are omitted.) -/
def decRun (npred : Str → Int) (acc : List Str) : List Str → (Str → Int) × List Str
  | [] => (npred, acc)
  | s :: rest =>
    let v := npred s - 1
    decRun (fun m => if m = s then v else npred m) (if v = 0 then acc ++ [s] else acc) rest

/-- `TopologicalSorter.done(*group)` (graphlib): process the group's
nodes in order, each walking its successor list. -/
def doneGroup (succs : Str → List Str) (npred : Str → Int) (group : List Str) :
    (Str → Int) × List Str :=
  group.foldl (fun st node => decRun st.1 st.2 (succs node)) (npred, [])

/-- `while is_active(): group = get_ready(); yield from group;
done(*group)` — the Kahn loop of `static_order` (graphlib), flattened to
the yielded node sequence.  After `done(*group)` the finished and
passed-out counts agree, so `is_active()` is exactly "the ready list is
non-empty".  The fuel is spent one unit per group and is sized by
`static_order` so that it cannot run out. -/
def kahnLoop (succs : Str → List Str) : Nat → (Str → Int) → List Str → List Str
  | 0, _, _ => []
  | fuel + 1, npred, ready =>
    if ready = [] then []
    else
      let r := doneGroup succs npred ready
      ready ++ kahnLoop succs fuel r.1 r.2

/-- `list(TopologicalSorter(graph).static_order())` (graphlib, used at
materialize.py line 53): initialise from the graph items, compute the
initial ready list in insertion order, raise `CycleError` with the found
cycle, otherwise run the Kahn loop to completion. -/
def static_order (g : List (Str × List Str)) : Except (List Str) (List Str) :=
  let st := tsInit g
  match findCycle st with
  | some cyc => .error cyc
  | none =>
    .ok (kahnLoop st.succs (st.order.length + 1) st.npred
      (st.order.filter (fun n => decide (st.npred n = 0))))

/-- `materialize(names, all_assets=...)` (materialize.py lines 42-64)
from the discovered asset mapping onward, up to the per-asset execution
loop: the returned list is the order in which the selected assets are
executed and their tables written.  The dict comprehension at line 51
iterates the `selected` set; this model enumerates it in the order the
closure produced (claim C2 treats the enumeration order as part of the
input). -/
def materializePlan (assets : List (Str × Asset)) (names : Option (List Str))
    (all_assets : Bool) : Except Err (List Str) := do
  let deps_map ← asset_dependencies assets
  let selected ← resolve_selection names all_assets assets deps_map
  let graph := selected.map (fun n => (n, depsOf deps_map n))
  match static_order graph with
  | .error cyc => .error (.cycle cyc)
  | .ok order => .ok order

/-- Assets whose execution loop runs (and hence whose tables are
written) in a `materialize` run: none when the run fails before the
loop. -/
def executedAssets (r : Except Err (List Str)) : List Str :=
  match r with
  | .error _ => []
  | .ok l => l

/-- Predecessor list of a node in a graph given as `(node, predecessors)`
items. -/
def Pred (g : List (Str × List Str)) (v : Str) : List Str :=
  (lookupMeta g v).getD []

/-- Edge `u → v` of the dependency graph: `u` is a declared predecessor
(dependency) of `v`, so `u` must be materialized before `v`. -/
def GEdge (g : List (Str × List Str)) (u v : Str) : Prop := u ∈ Pred g v

/-- A dependency cycle: some node reaches itself through at least one
edge. -/
def HasCycle (g : List (Str × List Str)) : Prop :=
  ∃ n, Relation.TransGen (GEdge g) n n

/-- Dependency-edge relation of a `deps_map`. -/
def DepEdge (dm : List (Str × List Str)) (a b : Str) : Prop := b ∈ depsOf dm a

lemma sortedDedup_sorted (l : List Str) : (sortedDedup l).Sorted (· ≤ ·) :=
  List.sorted_insertionSort _ _

lemma sortedDedup_perm (l : List Str) : (sortedDedup l).Perm l.dedup :=
  List.perm_insertionSort _ _

lemma mem_sortedDedup (l : List Str) (x : Str) : x ∈ sortedDedup l ↔ x ∈ l := by
  rw [(sortedDedup_perm l).mem_iff]
  exact List.mem_dedup

lemma sortedDedup_nodup (l : List Str) : (sortedDedup l).Nodup :=
  ((sortedDedup_perm l).nodup_iff).mpr l.nodup_dedup

lemma sortedDedup_ne_nil_iff (l : List Str) : sortedDedup l ≠ [] ↔ l ≠ [] := by
  constructor
  · intro h hc
    subst hc
    simp [sortedDedup, List.insertionSort] at h
  · intro h hc
    rcases List.exists_mem_of_ne_nil l h with ⟨x, hx⟩
    have := (mem_sortedDedup l x).mpr hx
    rw [hc] at this
    simp at this

lemma vd_ok_val (keys : List Str) (name path : Str) :
    ∀ (l ds : List Str), validateDeps keys name path l = .ok ds → ds = l := by
  intro l
  induction l with
  | nil =>
    intro ds h
    simpa [validateDeps] using h
  | cons dep rest ih =>
    intro ds h
    by_cases h1 : dep = name
    · simp [validateDeps, h1] at h
    · by_cases h2 : dep ∈ keys
      · rcases except_cases (validateDeps keys name path rest) with ⟨e, he⟩ | ⟨ds', hd⟩
        · simp [validateDeps, h1, h2, he] at h
        · have hv := ih ds' hd
          subst hv
          have : dep :: ds' = ds := by
            simpa [validateDeps, h1, h2, hd] using h
          exact this.symm
      · simp [validateDeps, h1, h2] at h

lemma vd_err_iff (keys : List Str) (name path : Str) (l : List Str) :
    (∃ e, validateDeps keys name path l = .error e) ↔
      ∃ dep ∈ l, dep = name ∨ dep ∉ keys := by
  induction l with
  | nil => simp [validateDeps]
  | cons dep rest ih =>
    by_cases h1 : dep = name
    · simp only [validateDeps, if_pos h1]
      constructor
      · intro _
        exact ⟨dep, by simp, Or.inl h1⟩
      · intro _
        exact ⟨.selfDependency name, rfl⟩
    · by_cases h2 : dep ∈ keys
      · rcases except_cases (validateDeps keys name path rest) with ⟨e, he⟩ | ⟨ds', hd⟩
        · constructor
          · intro _
            rcases ih.mp ⟨e, he⟩ with ⟨d, hdm, hdc⟩
            exact ⟨d, by simp [hdm], hdc⟩
          · intro _
            exact ⟨e, by simp [validateDeps, h1, h2, he]⟩
        · constructor
          · rintro ⟨e, he⟩
            simp [validateDeps, h1, h2, hd] at he
          · rintro ⟨d, hdm, hdc⟩
            rcases List.mem_cons.mp hdm with rfl | hdm'
            · rcases hdc with hc | hc
              · exact absurd hc h1
              · exact absurd h2 hc
            · rcases ih.mpr ⟨d, hdm', hdc⟩ with ⟨e, he⟩
              rw [hd] at he
              exact Except.noConfusion he
      · constructor
        · intro _
          exact ⟨dep, by simp, Or.inr h2⟩
        · intro _
          exact ⟨.unknownDependency dep path, by simp [validateDeps, h1, h2]⟩

lemma vd_err_id (keys : List Str) (name path : Str) (l : List Str) (e : Err)
    (h : validateDeps keys name path l = .error e) :
    (e = .selfDependency name ∧ name ∈ l) ∨
      ∃ dep, e = .unknownDependency dep path ∧ dep ∈ l ∧ dep ∉ keys := by
  induction l with
  | nil => simp [validateDeps] at h
  | cons dep rest ih =>
    by_cases h1 : dep = name
    · have : Err.selfDependency name = e := by
        simpa [validateDeps, h1] using h
      subst this
      exact Or.inl ⟨rfl, by simp [← h1]⟩
    · by_cases h2 : dep ∈ keys
      · rcases except_cases (validateDeps keys name path rest) with ⟨e', he⟩ | ⟨ds', hd⟩
        · have : e' = e := by
            simpa [validateDeps, h1, h2, he] using h
          subst this
          rcases ih he with ⟨he1, he2⟩ | ⟨d, hd1, hd2, hd3⟩
          · exact Or.inl ⟨he1, by simp [he2]⟩
          · exact Or.inr ⟨d, hd1, by simp [hd2], hd3⟩
        · simp [validateDeps, h1, h2, hd] at h
      · have : Err.unknownDependency dep path = e := by
          simpa [validateDeps, h1, h2] using h
        subst this
        exact Or.inr ⟨dep, rfl, by simp, h2⟩

lemma ad_ok_val (keys : List Str) :
    ∀ (items : List (Str × Asset)) (m : List (Str × List Str)),
      assetDepsAux keys items = .ok m →
      m = items.map (fun en => (en.1, sortedDedup en.2.depends)) := by
  intro items
  induction items with
  | nil =>
    intro m h
    simpa [assetDepsAux] using h
  | cons en rest ih =>
    intro m h
    obtain ⟨name, asset⟩ := en
    rcases except_cases (validateDeps keys name asset.path asset.depends)
      with ⟨e, he⟩ | ⟨ds, hd⟩
    · simp [assetDepsAux, he] at h
    · rcases except_cases (assetDepsAux keys rest) with ⟨e, hre⟩ | ⟨m', hrm⟩
      · simp [assetDepsAux, hd, hre] at h
      · have hds := vd_ok_val keys name asset.path asset.depends ds hd
        subst hds
        have hm := ih m' hrm
        have : (name, sortedDedup asset.depends) :: m' = m := by
          simpa [assetDepsAux, hd, hrm] using h
        rw [← this, hm]
        simp

lemma ad_err_iff (keys : List Str) (items : List (Str × Asset)) :
    (∃ e, assetDepsAux keys items = .error e) ↔
      ∃ en ∈ items, ∃ dep ∈ en.2.depends, dep = en.1 ∨ dep ∉ keys := by
  induction items with
  | nil => simp [assetDepsAux]
  | cons en rest ih =>
    obtain ⟨name, asset⟩ := en
    rcases except_cases (validateDeps keys name asset.path asset.depends)
      with ⟨e, he⟩ | ⟨ds, hd⟩
    · constructor
      · intro _
        rcases (vd_err_iff keys name asset.path asset.depends).mp ⟨e, he⟩
          with ⟨d, hdm, hdc⟩
        exact ⟨(name, asset), by simp, d, hdm, hdc⟩
      · intro _
        exact ⟨e, by simp [assetDepsAux, he]⟩
    · have hnone : ¬∃ dep ∈ asset.depends, dep = name ∨ dep ∉ keys := by
        intro hc
        rcases (vd_err_iff keys name asset.path asset.depends).mpr hc with ⟨e, he⟩
        rw [hd] at he
        exact Except.noConfusion he
      rcases except_cases (assetDepsAux keys rest) with ⟨e, hre⟩ | ⟨m', hrm⟩
      · constructor
        · intro _
          rcases ih.mp ⟨e, hre⟩ with ⟨en', hen', d, hdm, hdc⟩
          exact ⟨en', by simp [hen'], d, hdm, hdc⟩
        · intro _
          exact ⟨e, by simp [assetDepsAux, hd, hre]⟩
      · constructor
        · rintro ⟨e, he⟩
          simp [assetDepsAux, hd, hrm] at he
        · rintro ⟨en', hen', d, hdm, hdc⟩
          rcases List.mem_cons.mp hen' with rfl | hen''
          · exact absurd ⟨d, hdm, hdc⟩ hnone
          · rcases ih.mpr ⟨en', hen'', d, hdm, hdc⟩ with ⟨e, he⟩
            rw [hrm] at he
            exact Except.noConfusion he

lemma ad_err_id (keys : List Str) (items : List (Str × Asset)) (e : Err)
    (h : assetDepsAux keys items = .error e) :
    ∃ en ∈ items,
      (e = .selfDependency en.1 ∧ en.1 ∈ en.2.depends) ∨
        ∃ dep, e = .unknownDependency dep en.2.path ∧ dep ∈ en.2.depends ∧
          dep ∉ keys := by
  induction items with
  | nil => simp [assetDepsAux] at h
  | cons en rest ih =>
    obtain ⟨name, asset⟩ := en
    rcases except_cases (validateDeps keys name asset.path asset.depends)
      with ⟨e', he⟩ | ⟨ds, hd⟩
    · have : e' = e := by
        simpa [assetDepsAux, he] using h
      subst this
      exact ⟨(name, asset), by simp, vd_err_id keys name asset.path asset.depends e' he⟩
    · rcases except_cases (assetDepsAux keys rest) with ⟨e', hre⟩ | ⟨m', hrm⟩
      · have : e' = e := by
          simpa [assetDepsAux, hd, hre] using h
        subst this
        rcases ih hre with ⟨en', hen', hc⟩
        exact ⟨en', by simp [hen'], hc⟩
      · simp [assetDepsAux, hd, hrm] at h

lemma lookupMeta_map_deps (items : List (Str × Asset))
    (hnd : (items.map Prod.fst).Nodup) (name : Str) (a : Asset)
    (hmem : (name, a) ∈ items) :
    lookupMeta (items.map (fun en => (en.1, sortedDedup en.2.depends))) name =
      some (sortedDedup a.depends) := by
  induction items with
  | nil => simp at hmem
  | cons en rest ih =>
    obtain ⟨n', a'⟩ := en
    rcases List.mem_cons.mp hmem with heq | hmem'
    · injection heq with h1 h2
      subst h1
      subst h2
      simp [lookupMeta]
    · rw [List.map_cons, List.nodup_cons] at hnd
      obtain ⟨hn1, hn2⟩ := hnd
      have hne : n' ≠ name := by
        intro hc
        subst hc
        exact hn1 (List.mem_map.mpr ⟨(n', a), hmem', rfl⟩)
      simp only [List.map_cons, lookupMeta, if_neg hne]
      exact ih hn2 hmem'

/-- Claim C5: `asset_dependencies` fails if and only if some discovered
asset declares itself as a dependency or declares a dependency not in
the discovered mapping; the error identifies the asset (its name, or its
path and the bad reference); on success every asset maps to the sorted,
duplicate-free list of its dependency names; and `materialize` runs this
validation on the whole discovered universe before selection, so any
such error aborts every request, whatever its selection. -/
theorem asset_dependencies_validation (assets : List (Str × Asset))
    (hnd : (assets.map Prod.fst).Nodup) :
    ((∃ e, asset_dependencies assets = .error e) ↔
      ∃ en ∈ assets, ∃ dep ∈ en.2.depends,
        dep = en.1 ∨ dep ∉ assets.map Prod.fst) ∧
    (∀ e, asset_dependencies assets = .error e →
      ∃ en ∈ assets,
        (e = .selfDependency en.1 ∧ en.1 ∈ en.2.depends) ∨
          ∃ dep, e = .unknownDependency dep en.2.path ∧ dep ∈ en.2.depends ∧
            dep ∉ assets.map Prod.fst) ∧
    (∀ m, asset_dependencies assets = .ok m →
      ∀ en ∈ assets, lookupMeta m en.1 = some (sortedDedup en.2.depends) ∧
        (sortedDedup en.2.depends).Sorted (· ≤ ·) ∧
        (sortedDedup en.2.depends).Nodup ∧
        (∀ d, d ∈ sortedDedup en.2.depends ↔ d ∈ en.2.depends)) ∧
    (∀ e names all_assets, asset_dependencies assets = .error e →
      materializePlan assets names all_assets = .error e) := by
  refine ⟨ad_err_iff _ _, fun e he => ad_err_id _ _ _ he, ?_, ?_⟩
  · intro m hm en hen
    obtain ⟨n, a⟩ := en
    have hm' := ad_ok_val _ _ _ hm
    subst hm'
    exact ⟨lookupMeta_map_deps assets hnd n a hen, sortedDedup_sorted _,
      sortedDedup_nodup _, fun d => mem_sortedDedup _ _⟩
  · intro e names all_assets he
    simp [materializePlan, he]

/-- Concrete discovered mapping instantiating
`asset_dependencies_validation`. -/
def assetsW5 : List (Str × Asset) := [(str "s.t", aW9)]

theorem asset_dependencies_validation_witness :
    lookupMeta [(str "s.t", ([] : List Str))] (str "s.t") =
      some (sortedDedup aW9.depends) :=
  ((asset_dependencies_validation assetsW5 (by decide)).2.2.1
    [(str "s.t", [])] rfl (str "s.t", aW9) (by simp [assetsW5])).1

/-- Claim C7: with an explicit (non-"all") request, `resolve_selection`
fails exactly when some requested name is unknown, and the error lists
all unknown requested names (sorted, duplicate-free) rather than only
the first; a call with neither a non-empty name list nor the "all" flag
is a usage error, not a silent empty selection. -/
theorem selection_request_errors (assets : List (Str × Asset))
    (deps_map : List (Str × List Str)) :
    (∀ names, (names = none ∨ names = some []) →
      resolve_selection names false assets deps_map = .error .usage) ∧
    (∀ req, req ≠ [] →
      ((∃ e, resolve_selection (some req) false assets deps_map = .error e) ↔
        ∃ n ∈ req, n ∉ assets.map Prod.fst)) ∧
    (∀ req, req ≠ [] → (∃ n ∈ req, n ∉ assets.map Prod.fst) →
      resolve_selection (some req) false assets deps_map =
        .error (.unknownAssets (unknownRequested assets req)) ∧
      ∀ n, n ∈ unknownRequested assets req ↔
        n ∈ req ∧ n ∉ assets.map Prod.fst) := by
  have hmemu : ∀ (req : List Str) (n : Str),
      n ∈ unknownRequested assets req ↔ n ∈ req ∧ n ∉ assets.map Prod.fst := by
    intro req n
    rw [unknownRequested, mem_sortedDedup, List.mem_filter]
    simp
  refine ⟨?_, ?_, ?_⟩
  · rintro names (rfl | rfl) <;> simp [resolve_selection]
  · intro req hreq
    by_cases hun : unknownRequested assets req = []
    · constructor
      · rintro ⟨e, he⟩
        simp [resolve_selection, hreq, hun] at he
      · rintro ⟨n, hn, hnk⟩
        have hmem : n ∈ unknownRequested assets req := (hmemu req n).mpr ⟨hn, hnk⟩
        rw [hun] at hmem
        simp at hmem
    · constructor
      · intro _
        rcases List.exists_mem_of_ne_nil _ hun with ⟨n, hn⟩
        obtain ⟨hn1, hn2⟩ := (hmemu req n).mp hn
        exact ⟨n, hn1, hn2⟩
      · intro _
        exact ⟨.unknownAssets (unknownRequested assets req),
          by simp [resolve_selection, hreq, hun]⟩
  · intro req hreq hex
    have hun : unknownRequested assets req ≠ [] := by
      rcases hex with ⟨n, hn, hnk⟩
      intro hc
      have hmem : n ∈ unknownRequested assets req := (hmemu req n).mpr ⟨hn, hnk⟩
      rw [hc] at hmem
      simp at hmem
    exact ⟨by simp [resolve_selection, hreq, hun], hmemu req⟩

theorem selection_request_errors_witness :
    resolve_selection none false ([] : List (Str × Asset)) [] = .error .usage ∧
    ∃ e, resolve_selection (some [str "m"]) false ([] : List (Str × Asset)) [] =
      .error e :=
  ⟨(selection_request_errors [] []).1 none (Or.inl rfl),
    ((selection_request_errors [] []).2.1 [str "m"] (by decide)).mpr
      ⟨str "m", by simp, by simp⟩⟩

lemma addDeps_fst_mem :
    ∀ (l sel stack : List Str) (x : Str),
      x ∈ (addDeps sel stack l).1 ↔ x ∈ sel ∨ x ∈ l := by
  intro l
  induction l with
  | nil => intro sel stack x; simp [addDeps]
  | cons dep rest ih =>
    intro sel stack x
    by_cases hd : dep ∈ sel
    · rw [show addDeps sel stack (dep :: rest) = addDeps sel stack rest by
        simp [addDeps, hd]]
      rw [ih]
      constructor
      · rintro (h | h)
        · exact Or.inl h
        · exact Or.inr (by simp [h])
      · rintro (h | h)
        · exact Or.inl h
        · rcases List.mem_cons.mp h with rfl | h'
          · exact Or.inl hd
          · exact Or.inr h'
    · rw [show addDeps sel stack (dep :: rest) = addDeps (dep :: sel) (dep :: stack) rest by
        simp [addDeps, hd]]
      rw [ih]
      constructor
      · rintro (h | h)
        · rcases List.mem_cons.mp h with rfl | h'
          · exact Or.inr (by simp)
          · exact Or.inl h'
        · exact Or.inr (by simp [h])
      · rintro (h | h)
        · exact Or.inl (by simp [h])
        · rcases List.mem_cons.mp h with rfl | h'
          · exact Or.inl (by simp)
          · exact Or.inr h'

lemma addDeps_snd_mem :
    ∀ (l sel stack : List Str) (x : Str),
      x ∈ (addDeps sel stack l).2 ↔ x ∈ stack ∨ (x ∈ l ∧ x ∉ sel) := by
  intro l
  induction l with
  | nil => intro sel stack x; simp [addDeps]
  | cons dep rest ih =>
    intro sel stack x
    by_cases hd : dep ∈ sel
    · rw [show addDeps sel stack (dep :: rest) = addDeps sel stack rest by
        simp [addDeps, hd]]
      rw [ih]
      constructor
      · rintro (h | ⟨h1, h2⟩)
        · exact Or.inl h
        · exact Or.inr ⟨by simp [h1], h2⟩
      · rintro (h | ⟨h1, h2⟩)
        · exact Or.inl h
        · rcases List.mem_cons.mp h1 with rfl | h'
          · exact absurd hd h2
          · exact Or.inr ⟨h', h2⟩
    · rw [show addDeps sel stack (dep :: rest) = addDeps (dep :: sel) (dep :: stack) rest by
        simp [addDeps, hd]]
      rw [ih]
      by_cases hxd : x = dep
      · subst hxd
        simp [hd]
      · constructor
        · rintro (h | ⟨h1, h2⟩)
          · rcases List.mem_cons.mp h with rfl | h'
            · exact absurd rfl hxd
            · exact Or.inl h'
          · refine Or.inr ⟨by simp [h1], fun hc => h2 (by simp [hc])⟩
        · rintro (h | ⟨h1, h2⟩)
          · exact Or.inl (by simp [h])
          · rcases List.mem_cons.mp h1 with rfl | h'
            · exact absurd rfl hxd
            · exact Or.inr ⟨h', by simp [hxd, h2]⟩

/-- Multiset of dependency occurrences over the whole `deps_map`. -/
def depUniverse (dm : List (Str × List Str)) : List Str :=
  (dm.map (fun e => e.2)).join

/-- Number of dependency occurrences not yet selected, the potential
driving the closure fuel. -/
def newCount (dm : List (Str × List Str)) (sel : List Str) : Nat :=
  ((depUniverse dm).filter (fun d => decide (d ∉ sel))).length

lemma length_filter_mono {p q : Str → Bool} (h : ∀ a, p a = true → q a = true) :
    ∀ (l : List Str), (l.filter p).length ≤ (l.filter q).length := by
  intro l
  induction l with
  | nil => simp
  | cons a l ih =>
    by_cases hp : p a = true
    · simp [List.filter_cons, hp, h a hp]
      omega
    · by_cases hq : q a = true <;>
        simp [List.filter_cons, hp, hq] <;> omega

lemma newCount_cons_le (dm : List (Str × List Str)) (sel : List Str) (dep : Str) :
    newCount dm (dep :: sel) ≤ newCount dm sel := by
  apply length_filter_mono
  intro a ha
  simp only [decide_eq_true_eq] at ha ⊢
  intro hc
  exact ha (by simp [hc])

lemma filter_unsel_lt (sel : List Str) (dep : Str) (hds : dep ∉ sel) :
    ∀ (U : List Str), dep ∈ U →
      (U.filter (fun d => decide (d ∉ dep :: sel))).length <
        (U.filter (fun d => decide (d ∉ sel))).length := by
  intro U
  induction U with
  | nil => intro h; simp at h
  | cons u U' ih =>
    intro hmem
    by_cases hud : u = dep
    · subst hud
      rw [List.filter_cons_of_neg (by simp),
        List.filter_cons_of_pos (by simpa using hds)]
      have hmono := length_filter_mono
        (p := fun d => decide (d ∉ u :: sel)) (q := fun d => decide (d ∉ sel))
        (fun a ha => by
          simp only [decide_eq_true_eq] at ha ⊢
          intro hc
          exact ha (by simp [hc])) U'
      simp only [List.length_cons]
      omega
    · have hmem' : dep ∈ U' := by
        rcases List.mem_cons.mp hmem with h | h
        · exact absurd h.symm hud
        · exact h
      have hrec := ih hmem'
      by_cases hu : u ∈ sel
      · rw [List.filter_cons_of_neg (by simp [hu]),
          List.filter_cons_of_neg (by simp [hu])]
        exact hrec
      · rw [List.filter_cons_of_pos (by simp [List.mem_cons, hud, hu]),
          List.filter_cons_of_pos (by simp [hu])]
        simp only [List.length_cons]
        omega

lemma newCount_cons_lt (dm : List (Str × List Str)) (sel : List Str) (dep : Str)
    (hdU : dep ∈ depUniverse dm) (hds : dep ∉ sel) :
    newCount dm (dep :: sel) < newCount dm sel :=
  filter_unsel_lt sel dep hds (depUniverse dm) hdU

lemma lookupMeta_mem :
    ∀ (dm : List (Str × List Str)) (n : Str) (vs : List Str),
      lookupMeta dm n = some vs → (n, vs) ∈ dm := by
  intro dm
  induction dm with
  | nil => intro n vs h; simp [lookupMeta] at h
  | cons e rest ih =>
    intro n vs h
    obtain ⟨k, v⟩ := e
    by_cases hk : k = n
    · subst hk
      simp [lookupMeta] at h
      subst h
      simp
    · simp only [lookupMeta, if_neg hk] at h
      exact List.mem_cons_of_mem _ (ih n vs h)

lemma depsOf_subset_univ (dm : List (Str × List Str)) (x : Str) :
    ∀ d ∈ depsOf dm x, d ∈ depUniverse dm := by
  intro d hd
  unfold depsOf at hd
  rcases hl : lookupMeta dm x with _ | vs
  · rw [hl] at hd
    simp at hd
  · rw [hl] at hd
    simp only [Option.getD_some] at hd
    have hmem := lookupMeta_mem dm x vs hl
    unfold depUniverse
    rw [List.mem_join]
    exact ⟨vs, List.mem_map.mpr ⟨(x, vs), hmem, rfl⟩, hd⟩

lemma addDeps_measure (dm : List (Str × List Str)) :
    ∀ (l sel stack : List Str),
      (∀ x ∈ l, x ∈ depUniverse dm) →
      (addDeps sel stack l).2.length + newCount dm (addDeps sel stack l).1 ≤
        stack.length + newCount dm sel := by
  intro l
  induction l with
  | nil => intro sel stack _; simp [addDeps]
  | cons dep rest ih =>
    intro sel stack hU
    by_cases hd : dep ∈ sel
    · rw [show addDeps sel stack (dep :: rest) = addDeps sel stack rest by
        simp [addDeps, hd]]
      exact ih sel stack (fun x hx => hU x (by simp [hx]))
    · rw [show addDeps sel stack (dep :: rest) = addDeps (dep :: sel) (dep :: stack) rest by
        simp [addDeps, hd]]
      have h1 := ih (dep :: sel) (dep :: stack) (fun x hx => hU x (by simp [hx]))
      have h2 : newCount dm (dep :: sel) < newCount dm sel :=
        newCount_cons_lt dm sel dep (hU dep (by simp)) hd
      simp only [List.length_cons] at h1
      omega

lemma closureAux_spec (dm : List (Str × List Str)) :
    ∀ (fuel : Nat) (sel stack : List Str),
      stack.length + newCount dm sel < fuel →
      (∀ x ∈ stack, x ∈ sel) →
      (∀ x ∈ sel, x ∈ stack ∨ ∀ d ∈ depsOf dm x, d ∈ sel) →
      (∀ x ∈ sel, x ∈ closureAux dm fuel sel stack) ∧
      (∀ x ∈ closureAux dm fuel sel stack, ∀ d ∈ depsOf dm x,
        d ∈ closureAux dm fuel sel stack) := by
  intro fuel
  induction fuel with
  | zero =>
    intro sel stack hlt
    exact absurd hlt (by omega)
  | succ fuel ih =>
    intro sel stack hlt hss hinv
    match stack with
    | [] =>
      refine ⟨fun x hx => hx, fun x hx d hd => ?_⟩
      rcases hinv x hx with h | h
      · simp at h
      · exact h d hd
    | name :: rest =>
      have hstep : closureAux dm (fuel + 1) sel (name :: rest) =
          closureAux dm fuel (addDeps sel rest (depsOf dm name)).1
            (addDeps sel rest (depsOf dm name)).2 := rfl
      have hbound : (addDeps sel rest (depsOf dm name)).2.length +
          newCount dm (addDeps sel rest (depsOf dm name)).1 < fuel := by
        have hm := addDeps_measure dm (depsOf dm name) sel rest
          (fun x hx => depsOf_subset_univ dm name x hx)
        simp only [List.length_cons] at hlt
        omega
      have hss' : ∀ x ∈ (addDeps sel rest (depsOf dm name)).2,
          x ∈ (addDeps sel rest (depsOf dm name)).1 := by
        intro x hx
        rcases (addDeps_snd_mem _ _ _ _).mp hx with h | ⟨h1, _⟩
        · exact (addDeps_fst_mem _ _ _ _).mpr (Or.inl (hss x (by simp [h])))
        · exact (addDeps_fst_mem _ _ _ _).mpr (Or.inr h1)
      have hinv' : ∀ x ∈ (addDeps sel rest (depsOf dm name)).1,
          x ∈ (addDeps sel rest (depsOf dm name)).2 ∨
            ∀ d ∈ depsOf dm x, d ∈ (addDeps sel rest (depsOf dm name)).1 := by
        intro x hx
        rcases (addDeps_fst_mem _ _ _ _).mp hx with hxs | hxd
        · rcases hinv x hxs with hst | hcl
          · rcases List.mem_cons.mp hst with rfl | hst'
            · exact Or.inr (fun d hd => (addDeps_fst_mem _ _ _ _).mpr (Or.inr hd))
            · exact Or.inl ((addDeps_snd_mem _ _ _ _).mpr (Or.inl hst'))
          · exact Or.inr (fun d hd => (addDeps_fst_mem _ _ _ _).mpr (Or.inl (hcl d hd)))
        · by_cases hxs : x ∈ sel
          · rcases hinv x hxs with hst | hcl
            · rcases List.mem_cons.mp hst with rfl | hst'
              · exact Or.inr (fun d hd => (addDeps_fst_mem _ _ _ _).mpr (Or.inr hd))
              · exact Or.inl ((addDeps_snd_mem _ _ _ _).mpr (Or.inl hst'))
            · exact Or.inr (fun d hd => (addDeps_fst_mem _ _ _ _).mpr (Or.inl (hcl d hd)))
          · exact Or.inl ((addDeps_snd_mem _ _ _ _).mpr (Or.inr ⟨hxd, hxs⟩))
      obtain ⟨ha, hb⟩ := ih (addDeps sel rest (depsOf dm name)).1
        (addDeps sel rest (depsOf dm name)).2 hbound hss' hinv'
      rw [hstep]
      exact ⟨fun x hx => ha x ((addDeps_fst_mem _ _ _ _).mpr (Or.inl hx)), hb⟩

lemma closureAux_sound (dm : List (Str × List Str)) (R : Str → Prop)
    (hR : ∀ x, R x → ∀ d ∈ depsOf dm x, R d) :
    ∀ (fuel : Nat) (sel stack : List Str),
      (∀ x ∈ sel, R x) → (∀ x ∈ stack, x ∈ sel) →
      ∀ x ∈ closureAux dm fuel sel stack, R x := by
  intro fuel
  induction fuel with
  | zero =>
    intro sel stack hsel _ x hx
    exact hsel x hx
  | succ fuel ih =>
    intro sel stack hsel hss x hx
    match stack with
    | [] => exact hsel x hx
    | name :: rest =>
      have hname : R name := hsel name (hss name (by simp))
      refine ih (addDeps sel rest (depsOf dm name)).1
        (addDeps sel rest (depsOf dm name)).2 ?_ ?_ x hx
      · intro y hy
        rcases (addDeps_fst_mem _ _ _ _).mp hy with h | h
        · exact hsel y h
        · exact hR name hname y h
      · intro y hy
        rcases (addDeps_snd_mem _ _ _ _).mp hy with h | ⟨h1, _⟩
        · exact (addDeps_fst_mem _ _ _ _).mpr (Or.inl (hss y (by simp [h])))
        · exact (addDeps_fst_mem _ _ _ _).mpr (Or.inr h1)

lemma runClosure_mem (dm : List (Str × List Str)) (init : List Str) (x : Str) :
    x ∈ runClosure dm init ↔
      ∃ s ∈ init, Relation.ReflTransGen (DepEdge dm) s x := by
  have hbound : init.length + newCount dm init <
      init.length + (dm.map (fun e => e.2.length)).sum + 1 := by
    have h1 : newCount dm init ≤ (depUniverse dm).length :=
      List.length_filter_le _ _
    have h2 : (depUniverse dm).length = (dm.map (fun e => e.2.length)).sum := by
      unfold depUniverse
      rw [List.length_join, List.map_map]
      rfl
    omega
  have hspec := closureAux_spec dm
    (init.length + (dm.map (fun e => e.2.length)).sum + 1) init init hbound
    (fun x hx => hx) (fun x hx => Or.inl hx)
  constructor
  · apply closureAux_sound dm
      (fun y => ∃ s ∈ init, Relation.ReflTransGen (DepEdge dm) s y)
    · rintro y ⟨s, hs, hpath⟩ d hd
      exact ⟨s, hs, hpath.tail hd⟩
    · exact fun y hy => ⟨y, hy, Relation.ReflTransGen.refl⟩
    · exact fun y hy => hy
  · rintro ⟨s, hs, hreach⟩
    induction hreach with
    | refl => exact hspec.1 s hs
    | tail hr hstep ihx => exact hspec.2 _ ihx _ hstep

/-- Claim C6: `resolve_selection` returns exactly the reachability
closure of its initial set under the dependency relation.  With the
"all" flag the initial set is every discovered asset and the result is
all discovered assets, independent of any requested names; with an
explicit request the result contains exactly the names reachable from
the requested names through declared dependencies. -/
theorem selection_closure (assets : List (Str × Asset)) (dm : List (Str × List Str))
    (hkeys : dm.map Prod.fst = assets.map Prod.fst)
    (hsub : ∀ e ∈ dm, ∀ d ∈ e.2, d ∈ dm.map Prod.fst) :
    (∀ names, ∃ sel, resolve_selection names true assets dm = .ok sel ∧
      ∀ n, n ∈ sel ↔ n ∈ assets.map Prod.fst) ∧
    (∀ req sel, resolve_selection (some req) false assets dm = .ok sel →
      ∀ n, n ∈ sel ↔ ∃ r ∈ req, Relation.ReflTransGen (DepEdge dm) r n) := by
  have hclosed : ∀ a b, Relation.ReflTransGen (DepEdge dm) a b →
      a ∈ assets.map Prod.fst → b ∈ assets.map Prod.fst := by
    intro a b hab
    induction hab with
    | refl => exact fun h => h
    | tail hr hstep ihx =>
      intro ha
      have hb := ihx ha
      unfold DepEdge depsOf at hstep
      rcases hl : lookupMeta dm _ with _ | vs
      · rw [hl] at hstep
        simp at hstep
      · rw [hl] at hstep
        simp only [Option.getD_some] at hstep
        have hmem := lookupMeta_mem dm _ vs hl
        rw [← hkeys]
        exact hsub (_, vs) hmem _ hstep
  constructor
  · intro names
    refine ⟨runClosure dm (assets.map Prod.fst), rfl, ?_⟩
    intro n
    rw [runClosure_mem]
    constructor
    · rintro ⟨s, hs, hreach⟩
      exact hclosed s n hreach hs
    · intro hn
      exact ⟨n, hn, Relation.ReflTransGen.refl⟩
  · intro req sel hok n
    by_cases hreq : req = []
    · simp [resolve_selection, hreq] at hok
    · by_cases hun : unknownRequested assets req = []
      · have hsel : runClosure dm req.dedup = sel := by
          simpa [resolve_selection, hreq, hun] using hok
        rw [← hsel, runClosure_mem]
        constructor
        · rintro ⟨s, hs, hr⟩
          exact ⟨s, List.mem_dedup.mp hs, hr⟩
        · rintro ⟨s, hs, hr⟩
          exact ⟨s, List.mem_dedup.mpr hs, hr⟩
      · simp [resolve_selection, hreq, hun] at hok

/-- Deps map with the chain x → y → z instantiating `selection_closure`. -/
def dmW6 : List (Str × List Str) :=
  [(str "x", [str "y"]), (str "y", [str "z"]), (str "z", [])]

/-- Discovered assets with keys x, y, z. -/
def assetsW6 : List (Str × Asset) :=
  [(str "x", aW9), (str "y", aW9), (str "z", aW9)]

theorem selection_closure_witness :
    (str "z") ∈ [str "z", str "y", str "x"] ↔
      ∃ r ∈ [str "x"], Relation.ReflTransGen (DepEdge dmW6) r (str "z") :=
  (selection_closure assetsW6 dmW6 rfl (by decide)).2 [str "x"]
    [str "z", str "y", str "x"] rfl (str "z")

lemma tsGetNode_npred (st : TSState) (n : Str) :
    (tsGetNode st n).npred = st.npred := by
  unfold tsGetNode
  split <;> rfl

lemma tsGetNode_succs (st : TSState) (n : Str) :
    (tsGetNode st n).succs = st.succs := by
  unfold tsGetNode
  split <;> rfl

lemma tsGetNode_order_mem (st : TSState) (n x : Str) :
    x ∈ (tsGetNode st n).order ↔ x ∈ st.order ∨ x = n := by
  unfold tsGetNode
  split
  · constructor
    · exact Or.inl
    · rintro (h | rfl)
      · exact h
      · assumption
  · simp

lemma tsGetNode_order_nodup (st : TSState) (n : Str) (h : st.order.Nodup) :
    (tsGetNode st n).order.Nodup := by
  unfold tsGetNode
  split
  · exact h
  · simp only [List.nodup_append, List.nodup_cons]
    refine ⟨h, by simp, ?_⟩
    intro x hx
    simp only [List.mem_singleton]
    intro hc
    subst hc
    exact absurd hx (by assumption)

lemma tsAddSucc_npred (node : Str) (acc : TSState) (p : Str) :
    (tsAddSucc node acc p).npred = acc.npred := by
  unfold tsAddSucc
  rw [show ({ tsGetNode acc p with
      succs := fun m => if m = p then (tsGetNode acc p).succs p ++ [node]
        else (tsGetNode acc p).succs m } : TSState).npred = (tsGetNode acc p).npred
    from rfl]
  exact tsGetNode_npred acc p

lemma tsAddSucc_succs (node : Str) (acc : TSState) (p q : Str) :
    (tsAddSucc node acc p).succs q =
      if q = p then acc.succs p ++ [node] else acc.succs q := by
  unfold tsAddSucc
  rw [show ({ tsGetNode acc p with
      succs := fun m => if m = p then (tsGetNode acc p).succs p ++ [node]
        else (tsGetNode acc p).succs m } : TSState).succs q =
      (if q = p then (tsGetNode acc p).succs p ++ [node]
        else (tsGetNode acc p).succs q) from rfl]
  rw [tsGetNode_succs]

lemma tsAddSucc_order (node : Str) (acc : TSState) (p : Str) :
    (tsAddSucc node acc p).order = (tsGetNode acc p).order := rfl

lemma tsFoldSucc_npred (node : Str) :
    ∀ (preds : List Str) (st : TSState),
      (preds.foldl (tsAddSucc node) st).npred = st.npred := by
  intro preds
  induction preds with
  | nil => intro st; rfl
  | cons p rest ih =>
    intro st
    rw [List.foldl_cons, ih, tsAddSucc_npred]

lemma tsFoldSucc_succs (node : Str) :
    ∀ (preds : List Str) (st : TSState), preds.Nodup → ∀ q,
      (preds.foldl (tsAddSucc node) st).succs q =
        if q ∈ preds then st.succs q ++ [node] else st.succs q := by
  intro preds
  induction preds with
  | nil => intro st _ q; simp
  | cons p rest ih =>
    intro st hnd q
    rw [List.nodup_cons] at hnd
    rw [List.foldl_cons, ih (tsAddSucc node st p) hnd.2 q]
    by_cases hq : q ∈ rest
    · have hqp : q ≠ p := fun hc => hnd.1 (hc ▸ hq)
      rw [if_pos hq, if_pos (by simp [hq]), tsAddSucc_succs, if_neg hqp]
    · by_cases hqp : q = p
      · subst hqp
        rw [if_neg hq, if_pos (by simp), tsAddSucc_succs, if_pos rfl]
      · rw [if_neg hq, if_neg (by simp [hqp, hq]), tsAddSucc_succs, if_neg hqp]

lemma tsFoldSucc_order_mem (node : Str) :
    ∀ (preds : List Str) (st : TSState) (x : Str),
      x ∈ (preds.foldl (tsAddSucc node) st).order ↔ x ∈ st.order ∨ x ∈ preds := by
  intro preds
  induction preds with
  | nil => intro st x; simp
  | cons p rest ih =>
    intro st x
    rw [List.foldl_cons, ih, tsAddSucc_order, tsGetNode_order_mem]
    simp [or_assoc, eq_comm]

lemma tsFoldSucc_order_nodup (node : Str) :
    ∀ (preds : List Str) (st : TSState), st.order.Nodup →
      (preds.foldl (tsAddSucc node) st).order.Nodup := by
  intro preds
  induction preds with
  | nil => intro st h; exact h
  | cons p rest ih =>
    intro st h
    rw [List.foldl_cons]
    refine ih _ ?_
    rw [tsAddSucc_order]
    exact tsGetNode_order_nodup st p h

lemma tsAdd_npred (st : TSState) (node : Str) (preds : List Str) (q : Str) :
    (tsAdd st node preds).npred q =
      if q = node then st.npred node + preds.length else st.npred q := by
  unfold tsAdd
  rw [tsFoldSucc_npred]
  simp only [tsGetNode_npred]

lemma tsAdd_succs (st : TSState) (node : Str) (preds : List Str)
    (hnd : preds.Nodup) (q : Str) :
    (tsAdd st node preds).succs q =
      if q ∈ preds then st.succs q ++ [node] else st.succs q := by
  unfold tsAdd
  rw [tsFoldSucc_succs node preds _ hnd q]
  simp only [tsGetNode_succs]

lemma tsAdd_order_mem (st : TSState) (node : Str) (preds : List Str) (x : Str) :
    x ∈ (tsAdd st node preds).order ↔ x ∈ st.order ∨ x = node ∨ x ∈ preds := by
  unfold tsAdd
  rw [tsFoldSucc_order_mem]
  rw [show ({ tsGetNode st node with
      npred := fun m => if m = node then (tsGetNode st node).npred node + preds.length
        else (tsGetNode st node).npred m } : TSState).order =
      (tsGetNode st node).order from rfl]
  rw [tsGetNode_order_mem]
  tauto

lemma tsAdd_order_nodup (st : TSState) (node : Str) (preds : List Str)
    (h : st.order.Nodup) : (tsAdd st node preds).order.Nodup := by
  unfold tsAdd
  apply tsFoldSucc_order_nodup
  rw [show ({ tsGetNode st node with
      npred := fun m => if m = node then (tsGetNode st node).npred node + preds.length
        else (tsGetNode st node).npred m } : TSState).order =
      (tsGetNode st node).order from rfl]
  exact tsGetNode_order_nodup st node h

lemma tsFold_npred :
    ∀ (g : List (Str × List Str)) (st : TSState) (n : Str),
      (g.foldl (fun acc e => tsAdd acc e.1 e.2) st).npred n =
        st.npred n +
          ((g.filter (fun e => decide (e.1 = n))).map (fun e => (e.2.length : Int))).sum := by
  intro g
  induction g with
  | nil => intro st n; simp
  | cons e g' ih =>
    intro st n
    rw [List.foldl_cons, ih]
    by_cases he : e.1 = n
    · rw [List.filter_cons_of_pos (by simp [he])]
      rw [tsAdd_npred]
      rw [if_pos he.symm]
      subst he
      simp only [List.map_cons, List.sum_cons]
      ring
    · rw [List.filter_cons_of_neg (by simp [he])]
      rw [tsAdd_npred, if_neg (fun hc => he hc.symm)]

lemma tsFold_succs :
    ∀ (g : List (Str × List Str)) (st : TSState) (p : Str),
      (∀ e ∈ g, e.2.Nodup) →
      (g.foldl (fun acc e => tsAdd acc e.1 e.2) st).succs p =
        st.succs p ++ (g.filter (fun e => decide (p ∈ e.2))).map Prod.fst := by
  intro g
  induction g with
  | nil => intro st p _; simp
  | cons e g' ih =>
    intro st p hnd
    rw [List.foldl_cons, ih _ _ (fun x hx => hnd x (by simp [hx]))]
    by_cases hp : p ∈ e.2
    · rw [List.filter_cons_of_pos (by simp [hp])]
      rw [tsAdd_succs _ _ _ (hnd e (by simp)) p, if_pos hp]
      simp
    · rw [List.filter_cons_of_neg (by simp [hp])]
      rw [tsAdd_succs _ _ _ (hnd e (by simp)) p, if_neg hp]

lemma tsFold_order_mem :
    ∀ (g : List (Str × List Str)) (st : TSState) (x : Str),
      x ∈ (g.foldl (fun acc e => tsAdd acc e.1 e.2) st).order ↔
        x ∈ st.order ∨ x ∈ g.map Prod.fst ∨ ∃ e ∈ g, x ∈ e.2 := by
  intro g
  induction g with
  | nil => intro st x; simp
  | cons e g' ih =>
    intro st x
    rw [List.foldl_cons, ih, tsAdd_order_mem]
    simp only [List.map_cons, List.mem_cons]
    constructor
    · rintro ((h | h | h) | h | ⟨e', he', hx⟩)
      · exact Or.inl h
      · exact Or.inr (Or.inl (Or.inl h))
      · exact Or.inr (Or.inr ⟨e, Or.inl rfl, h⟩)
      · exact Or.inr (Or.inl (Or.inr h))
      · exact Or.inr (Or.inr ⟨e', Or.inr he', hx⟩)
    · rintro (h | (h | h) | ⟨e', (rfl | he''), hx⟩)
      · exact Or.inl (Or.inl h)
      · exact Or.inl (Or.inr (Or.inl h))
      · exact Or.inr (Or.inl h)
      · exact Or.inl (Or.inr (Or.inr hx))
      · exact Or.inr (Or.inr ⟨e', he'', hx⟩)

lemma tsFold_order_nodup :
    ∀ (g : List (Str × List Str)) (st : TSState), st.order.Nodup →
      (g.foldl (fun acc e => tsAdd acc e.1 e.2) st).order.Nodup := by
  intro g
  induction g with
  | nil => intro st h; exact h
  | cons e g' ih =>
    intro st h
    rw [List.foldl_cons]
    exact ih _ (tsAdd_order_nodup _ _ _ h)

lemma lookupMeta_of_mem :
    ∀ (g : List (Str × List Str)), (g.map Prod.fst).Nodup →
      ∀ (n : Str) (vs : List Str), (n, vs) ∈ g → lookupMeta g n = some vs := by
  intro g
  induction g with
  | nil => intro _ n vs h; simp at h
  | cons e g' ih =>
    intro hnd n vs h
    obtain ⟨k, v⟩ := e
    rw [List.map_cons, List.nodup_cons] at hnd
    rcases List.mem_cons.mp h with heq | h'
    · injection heq with h1 h2
      subst h1
      subst h2
      simp [lookupMeta]
    · have hk : k ≠ n := by
        intro hc
        subst hc
        exact hnd.1 (List.mem_map.mpr ⟨(k, vs), h', rfl⟩)
      simp only [lookupMeta, if_neg hk]
      exact ih hnd.2 n vs h'

lemma filter_key_none (g : List (Str × List Str)) (n : Str)
    (h : lookupMeta g n = none) :
    g.filter (fun e => decide (e.1 = n)) = [] := by
  induction g with
  | nil => simp
  | cons e g' ih =>
    obtain ⟨k, v⟩ := e
    by_cases hk : k = n
    · subst hk
      simp [lookupMeta] at h
    · simp only [lookupMeta, if_neg hk] at h
      rw [List.filter_cons_of_neg (by simp [hk])]
      exact ih h

lemma filter_key_some (g : List (Str × List Str)) (hnd : (g.map Prod.fst).Nodup)
    (n : Str) (vs : List Str) (h : lookupMeta g n = some vs) :
    g.filter (fun e => decide (e.1 = n)) = [(n, vs)] := by
  induction g with
  | nil => simp [lookupMeta] at h
  | cons e g' ih =>
    obtain ⟨k, v⟩ := e
    rw [List.map_cons, List.nodup_cons] at hnd
    by_cases hk : k = n
    · subst hk
      simp [lookupMeta] at h
      subst h
      rw [List.filter_cons_of_pos (by simp)]
      have htail : g'.filter (fun e => decide (e.1 = k)) = [] := by
        rw [List.filter_eq_nil_iff]
        intro e he
        simp only [decide_eq_true_eq]
        intro hc
        exact hnd.1 (List.mem_map.mpr ⟨e, he, hc⟩)
      rw [htail]
    · simp only [lookupMeta, if_neg hk] at h
      rw [List.filter_cons_of_neg (by simp [hk])]
      exact ih hnd.2 h

lemma tsInit_npred (g : List (Str × List Str)) (hnd : (g.map Prod.fst).Nodup)
    (n : Str) : (tsInit g).npred n = ((Pred g n).length : Int) := by
  unfold tsInit
  rw [tsFold_npred]
  rcases hl : lookupMeta g n with _ | vs
  · rw [filter_key_none g n hl]
    simp [Pred, hl]
  · rw [filter_key_some g hnd n vs hl]
    simp [Pred, hl]

lemma tsInit_succs_eq (g : List (Str × List Str)) (hd2 : ∀ e ∈ g, e.2.Nodup)
    (p : Str) :
    (tsInit g).succs p = (g.filter (fun e => decide (p ∈ e.2))).map Prod.fst := by
  unfold tsInit
  rw [tsFold_succs g _ p hd2]
  simp

lemma tsInit_succs_mem (g : List (Str × List Str)) (hnd : (g.map Prod.fst).Nodup)
    (hd2 : ∀ e ∈ g, e.2.Nodup) (p n : Str) :
    n ∈ (tsInit g).succs p ↔ p ∈ Pred g n := by
  rw [tsInit_succs_eq g hd2 p]
  constructor
  · intro h
    rcases List.mem_map.mp h with ⟨e, he, hfst⟩
    have hmem := List.mem_filter.mp he
    have hp : p ∈ e.2 := by simpa using hmem.2
    have hlook : lookupMeta g e.1 = some e.2 := lookupMeta_of_mem g hnd e.1 e.2 hmem.1
    rw [← hfst]
    simp [Pred, hlook, hp]
  · intro h
    unfold Pred at h
    rcases hl : lookupMeta g n with _ | vs
    · rw [hl] at h
      simp at h
    · rw [hl] at h
      simp only [Option.getD_some] at h
      have hmem := lookupMeta_mem g n vs hl
      exact List.mem_map.mpr ⟨(n, vs), List.mem_filter.mpr ⟨hmem, by simpa using h⟩, rfl⟩

lemma tsInit_succs_nodup (g : List (Str × List Str)) (hnd : (g.map Prod.fst).Nodup)
    (hd2 : ∀ e ∈ g, e.2.Nodup) (p : Str) : ((tsInit g).succs p).Nodup := by
  rw [tsInit_succs_eq g hd2 p]
  have hsub : (g.filter (fun e => decide (p ∈ e.2))).map Prod.fst |>.Sublist
      (g.map Prod.fst) := (List.filter_sublist g).map Prod.fst
  exact hnd.sublist hsub

/-- Occurrence count of a node in a list. -/
def countStr (n : Str) (l : List Str) : Nat := l.countP (fun x => decide (x = n))

lemma countStr_nil (n : Str) : countStr n [] = 0 := rfl

lemma countStr_cons (n x : Str) (l : List Str) :
    countStr n (x :: l) = countStr n l + (if x = n then 1 else 0) := by
  simp [countStr, List.countP_cons]

lemma countStr_append (n : Str) (l₁ l₂ : List Str) :
    countStr n (l₁ ++ l₂) = countStr n l₁ + countStr n l₂ := by
  simp [countStr, List.countP_append]

lemma countStr_eq_zero (n : Str) (l : List Str) : countStr n l = 0 ↔ n ∉ l := by
  rw [countStr, List.countP_eq_zero]
  constructor
  · intro h hc
    exact absurd (by simp) (h n hc)
  · intro h a ha
    simp only [decide_eq_true_eq]
    intro hc
    subst hc
    exact h ha

lemma countStr_pos (n : Str) (l : List Str) : 1 ≤ countStr n l ↔ n ∈ l := by
  constructor
  · intro h
    by_contra hc
    rw [← countStr_eq_zero] at hc
    omega
  · intro h
    by_contra hc
    have h0 : countStr n l = 0 := by omega
    exact (countStr_eq_zero n l).mp h0 h

lemma countStr_eq_one_of_nodup (n : Str) :
    ∀ (l : List Str), l.Nodup → n ∈ l → countStr n l = 1 := by
  intro l
  induction l with
  | nil => intro _ h; simp at h
  | cons x xs ih =>
    intro hnd hm
    rw [List.nodup_cons] at hnd
    rw [countStr_cons]
    rcases List.mem_cons.mp hm with rfl | hm'
    · rw [if_pos rfl]
      rw [(countStr_eq_zero n xs).mpr hnd.1]
    · have hx : x ≠ n := fun hc => hnd.1 (hc ▸ hm')
      rw [if_neg hx, ih hnd.2 hm']

lemma tsInit_succs_count (g : List (Str × List Str)) (hnd : (g.map Prod.fst).Nodup)
    (hd2 : ∀ e ∈ g, e.2.Nodup) (p n : Str) :
    countStr n ((tsInit g).succs p) = if p ∈ Pred g n then 1 else 0 := by
  have hnodup := tsInit_succs_nodup g hnd hd2 p
  by_cases hmem : n ∈ (tsInit g).succs p
  · rw [if_pos ((tsInit_succs_mem g hnd hd2 p n).mp hmem)]
    exact countStr_eq_one_of_nodup n _ hnodup hmem
  · rw [if_neg (fun hc => hmem ((tsInit_succs_mem g hnd hd2 p n).mpr hc))]
    exact (countStr_eq_zero n _).mpr hmem

lemma tsInit_order_mem (g : List (Str × List Str))
    (hsub : ∀ e ∈ g, ∀ d ∈ e.2, d ∈ g.map Prod.fst) (x : Str) :
    x ∈ (tsInit g).order ↔ x ∈ g.map Prod.fst := by
  unfold tsInit
  rw [tsFold_order_mem]
  constructor
  · rintro (h | h | ⟨e, he, hx⟩)
    · simp at h
    · exact h
    · exact hsub e he x hx
  · intro h
    exact Or.inr (Or.inl h)

lemma tsInit_order_nodup (g : List (Str × List Str)) : (tsInit g).order.Nodup := by
  unfold tsInit
  exact tsFold_order_nodup g _ (by simp)

lemma tsInit_order_perm (g : List (Str × List Str)) (hnd : (g.map Prod.fst).Nodup)
    (hsub : ∀ e ∈ g, ∀ d ∈ e.2, d ∈ g.map Prod.fst) :
    (tsInit g).order.Perm (g.map Prod.fst) := by
  apply List.Subperm.antisymm
  · exact (tsInit_order_nodup g).subperm
      (fun x hx => (tsInit_order_mem g hsub x).mp hx)
  · exact hnd.subperm (fun x hx => (tsInit_order_mem g hsub x).mpr hx)

lemma decRun_append (l₁ : List Str) :
    ∀ (np : Str → Int) (acc : List Str) (l₂ : List Str),
      decRun np acc (l₁ ++ l₂) =
        decRun (decRun np acc l₁).1 (decRun np acc l₁).2 l₂ := by
  induction l₁ with
  | nil => intro np acc l₂; rfl
  | cons s rest ih =>
    intro np acc l₂
    rw [List.cons_append]
    rw [show decRun np acc (s :: (rest ++ l₂)) =
      decRun (fun m => if m = s then np s - 1 else np m)
        (if np s - 1 = 0 then acc ++ [s] else acc) (rest ++ l₂) from rfl]
    rw [ih]
    rfl

lemma doneGroup_eq_decRun (succs : Str → List Str) :
    ∀ (group : List Str) (np : Str → Int) (acc : List Str),
      group.foldl (fun st node => decRun st.1 st.2 (succs node)) (np, acc) =
        decRun np acc ((group.map succs).flatten) := by
  intro group
  induction group with
  | nil => intro np acc; rfl
  | cons n g' ih =>
    intro np acc
    rw [List.foldl_cons, List.map_cons, List.flatten_cons, decRun_append]
    exact ih (decRun np acc (succs n)).1 (decRun np acc (succs n)).2

lemma decRun_fst (L : List Str) :
    ∀ (np : Str → Int) (acc : List Str) (n : Str),
      (decRun np acc L).1 n = np n - (countStr n L : Int) := by
  induction L with
  | nil => intro np acc n; simp [decRun, countStr_nil]
  | cons s rest ih =>
    intro np acc n
    rw [show decRun np acc (s :: rest) =
      decRun (fun m => if m = s then np s - 1 else np m)
        (if np s - 1 = 0 then acc ++ [s] else acc) rest from rfl]
    rw [ih, countStr_cons]
    by_cases hn : n = s
    · subst hn
      rw [if_pos rfl, if_pos rfl]
      push_cast
      ring
    · rw [if_neg hn, if_neg (fun hc => hn hc.symm)]
      push_cast
      ring

lemma decRun_snd_count (L : List Str) :
    ∀ (np : Str → Int) (acc : List Str) (n : Str),
      countStr n (decRun np acc L).2 =
        countStr n acc +
          (if 1 ≤ np n ∧ np n ≤ (countStr n L : Int) then 1 else 0) := by
  induction L with
  | nil =>
    intro np acc n
    rw [show decRun np acc [] = (np, acc) from rfl]
    rw [countStr_nil]
    rw [if_neg (by push_cast; omega)]
    rfl
  | cons s rest ih =>
    intro np acc n
    rw [show decRun np acc (s :: rest) =
      decRun (fun m => if m = s then np s - 1 else np m)
        (if np s - 1 = 0 then acc ++ [s] else acc) rest from rfl]
    rw [ih, countStr_cons]
    by_cases hn : n = s
    · subst hn
      simp only [eq_self_iff_true, if_true]
      by_cases h1 : np n - 1 = 0
      · rw [if_pos h1, countStr_append, countStr_cons, countStr_nil, if_pos rfl]
        rw [if_neg (by omega)]
        rw [if_pos (by push_cast; omega)]
      · rw [if_neg h1]
        have hcond : (1 ≤ np n - 1 ∧ np n - 1 ≤ (countStr n rest : Int)) ↔
            (1 ≤ np n ∧ np n ≤ ((countStr n rest + 1 : Nat) : Int)) := by
          push_cast
          omega
        rw [if_congr hcond rfl rfl]
    · have hsn : ¬(s = n) := fun hc => hn hc.symm
      simp only [if_neg hn, if_neg hsn]
      have hacc : countStr n (if np s - 1 = 0 then acc ++ [s] else acc) =
          countStr n acc := by
        split
        · rw [countStr_append, countStr_cons, countStr_nil, if_neg hsn]
          omega
        · rfl
      rw [hacc]
      simp

lemma nodup_of_countStr_le_one :
    ∀ (l : List Str), (∀ n, countStr n l ≤ 1) → l.Nodup := by
  intro l
  induction l with
  | nil => intro _; simp
  | cons x xs ih =>
    intro h
    rw [List.nodup_cons]
    constructor
    · intro hc
      have hx := h x
      rw [countStr_cons, if_pos rfl] at hx
      have := (countStr_pos x xs).mpr hc
      omega
    · refine ih (fun n => ?_)
      have := h n
      rw [countStr_cons] at this
      omega

lemma doneGroup_fst (succs : Str → List Str) (np : Str → Int) (group : List Str)
    (n : Str) :
    (doneGroup succs np group).1 n =
      np n - (countStr n ((group.map succs).flatten) : Int) := by
  unfold doneGroup
  rw [doneGroup_eq_decRun, decRun_fst]

lemma doneGroup_snd_count (succs : Str → List Str) (np : Str → Int)
    (group : List Str) (n : Str) :
    countStr n (doneGroup succs np group).2 =
      if 1 ≤ np n ∧ np n ≤ (countStr n ((group.map succs).flatten) : Int)
        then 1 else 0 := by
  unfold doneGroup
  rw [doneGroup_eq_decRun, decRun_snd_count, countStr_nil]
  omega

/-- Pigeonhole: in a finite set where every element has a predecessor
inside the set, some element lies on a cycle. -/
lemma cycle_of_all_have_pred (predsF : Str → List Str) (S : List Str) (hne : S ≠ [])
    (hstep : ∀ n ∈ S, ∃ p ∈ S, p ∈ predsF n) :
    ∃ n, Relation.TransGen (fun a b => a ∈ predsF b) n n := by
  classical
  have hstep' : ∀ (n : {x // x ∈ S}), ∃ p : {x // x ∈ S}, p.1 ∈ predsF n.1 := by
    rintro ⟨n, hn⟩
    rcases hstep n hn with ⟨p, hp, hpe⟩
    exact ⟨⟨p, hp⟩, hpe⟩
  choose f hf using hstep'
  rcases List.exists_mem_of_ne_nil S hne with ⟨n₀, hn₀⟩
  set seq : Nat → {x // x ∈ S} := fun k => f^[k] ⟨n₀, hn₀⟩ with hseq
  have hedge : ∀ k, (seq (k + 1)).1 ∈ predsF (seq k).1 := by
    intro k
    have : seq (k + 1) = f (seq k) := by
      rw [hseq]
      exact Function.iterate_succ_apply' f k _
    rw [this]
    exact hf (seq k)
  have hchain : ∀ (d i : Nat),
      Relation.TransGen (fun a b => a ∈ predsF b) (seq (i + d + 1)).1 (seq i).1 := by
    intro d
    induction d with
    | zero => intro i; exact Relation.TransGen.single (hedge i)
    | succ d ihd =>
      intro i
      have h1 : Relation.TransGen (fun a b => a ∈ predsF b)
          (seq (i + (d + 1) + 1)).1 (seq (i + 1)).1 := by
        have := ihd (i + 1)
        have harith : i + 1 + d + 1 = i + (d + 1) + 1 := by omega
        rwa [harith] at this
      exact h1.trans (Relation.TransGen.single (hedge i))
  have hnotinj : ¬((List.range (S.length + 1)).map (fun k => (seq k).1)).Nodup := by
    intro hnd
    have hsub : ((List.range (S.length + 1)).map (fun k => (seq k).1)) ⊆ S := by
      intro x hx
      rcases List.mem_map.mp hx with ⟨k, _, hk⟩
      rw [← hk]
      exact (seq k).2
    have hsp := hnd.subperm hsub
    have := hsp.length_le
    simp at this
  have hexdup : ∃ i j, i < j ∧ seq i = seq j := by
    by_contra hc
    push_neg at hc
    apply hnotinj
    refine (List.nodup_map_iff_inj_on (List.nodup_range _)).mpr ?_
    intro i hi j hj hij
    rcases Nat.lt_trichotomy i j with h | h | h
    · exact absurd (Subtype.ext hij) (hc i j h)
    · exact h
    · exact absurd (Subtype.ext hij.symm) (hc j i h)
  rcases hexdup with ⟨i, j, hij, heq⟩
  refine ⟨(seq i).1, ?_⟩
  have hd : j = i + (j - i - 1) + 1 := by omega
  have := hchain (j - i - 1) i
  rw [← hd, ← heq] at this
  exact this

lemma count_flatten_succs (succs predsF : Str → List Str)
    (hsucc : ∀ p n, countStr n (succs p) = if p ∈ predsF n then 1 else 0) :
    ∀ (group : List Str) (n : Str),
      countStr n ((group.map succs).flatten) =
        (group.filter (fun p => decide (p ∈ predsF n))).length := by
  intro group
  induction group with
  | nil => intro n; simp [countStr_nil]
  | cons p g' ih =>
    intro n
    rw [List.map_cons, List.flatten_cons, countStr_append, hsucc p n, ih n]
    by_cases hp : p ∈ predsF n
    · rw [if_pos hp, List.filter_cons_of_pos (by simpa using hp), List.length_cons]
      omega
    · rw [if_neg hp, List.filter_cons_of_neg (by simpa using hp)]
      omega

lemma filter_partition (q : Str → Bool) :
    ∀ (l : List Str),
      (l.filter q).length + (l.filter (fun x => !q x)).length = l.length := by
  intro l
  induction l with
  | nil => simp
  | cons x xs ih =>
    by_cases hx : q x = true
    · rw [List.filter_cons_of_pos hx, List.filter_cons_of_neg (by simp [hx])]
      simp only [List.length_cons]
      omega
    · have hx' : q x = false := by
        cases hq : q x
        · rfl
        · exact absurd hq hx
      rw [List.filter_cons_of_neg (by simp [hx']), List.filter_cons_of_pos (by simp [hx'])]
      simp only [List.length_cons]
      omega

lemma length_eq_of_nodup_mem_iff (l₁ l₂ : List Str) (h₁ : l₁.Nodup)
    (h₂ : l₂.Nodup) (h : ∀ x, x ∈ l₁ ↔ x ∈ l₂) : l₁.length = l₂.length :=
  ((h₁.subperm (fun x hx => (h x).mp hx)).antisymm
    (h₂.subperm (fun x hx => (h x).mpr hx))).length_eq

/-- Topologically sorted sequence: no later element is a predecessor
(declared dependency) of an earlier one. -/
def TopoSeqP (predsF : Str → List Str) (L : List Str) : Prop :=
  L.Pairwise (fun a b => b ∉ predsF a)

/-- Loop invariant of the Kahn phase of `static_order`, relating the
emitted prefix `E`, the predecessor counters and the ready list. -/
def KInv (predsF : Str → List Str) (keys : List Str) (E : List Str)
    (np : Str → Int) (ready : List Str) : Prop :=
  (E ++ ready).Nodup ∧
  (∀ x ∈ E ++ ready, x ∈ keys) ∧
  (∀ r ∈ ready, ∀ p ∈ predsF r, p ∈ E) ∧
  TopoSeqP predsF (E ++ ready) ∧
  (∀ n, n ∉ E → np n = (((predsF n).filter (fun p => decide (p ∉ E))).length : Int)) ∧
  (∀ n ∈ E, np n ≤ 0) ∧
  (∀ n ∈ keys, n ∉ E → n ∉ ready → np n ≠ 0) ∧
  (∀ e ∈ E, ∀ p ∈ predsF e, p ∈ E)

lemma kahnStep (succs predsF : Str → List Str) (keys : List Str)
    (hsucc : ∀ p n, countStr n (succs p) = if p ∈ predsF n then 1 else 0)
    (hknd : keys.Nodup)
    (hpnd : ∀ n, (predsF n).Nodup)
    (hpkey : ∀ n, predsF n ≠ [] → n ∈ keys)
    (E : List Str) (np : Str → Int) (ready : List Str)
    (hinv : KInv predsF keys E np ready) :
    KInv predsF keys (E ++ ready) (doneGroup succs np ready).1
      (doneGroup succs np ready).2 ∧
    (keys.filter (fun n => decide (n ∉ E ++ ready))).length + ready.length ≤
      (keys.filter (fun n => decide (n ∉ E))).length := by
  obtain ⟨h1, h2, h3, h4, h5, h6, h7, h8⟩ := hinv
  obtain ⟨hEnd, hrnd, hdisj⟩ := List.nodup_append.mp h1
  have hcnt := count_flatten_succs succs predsF hsucc ready
  have hnp' : ∀ n, (doneGroup succs np ready).1 n =
      np n - ((ready.filter (fun p => decide (p ∈ predsF n))).length : Int) := by
    intro n
    rw [doneGroup_fst, hcnt n]
  have hnrcount : ∀ n, countStr n (doneGroup succs np ready).2 =
      if 1 ≤ np n ∧
          np n ≤ ((ready.filter (fun p => decide (p ∈ predsF n))).length : Int)
        then 1 else 0 := by
    intro n
    rw [doneGroup_snd_count, hcnt n]
  have hnrmem : ∀ n, n ∈ (doneGroup succs np ready).2 ↔
      (1 ≤ np n ∧
        np n ≤ ((ready.filter (fun p => decide (p ∈ predsF n))).length : Int)) := by
    intro n
    rw [← countStr_pos, hnrcount]
    split
    · rename_i hcond
      simp only [le_refl, true_iff]
      exact hcond
    · rename_i hcond
      constructor
      · intro h10
        omega
      · intro hcc
        exact absurd hcc hcond
  have hnrnodup : (doneGroup succs np ready).2.Nodup := by
    apply nodup_of_countStr_le_one
    intro n
    rw [hnrcount]
    split <;> omega
  have hready_np0 : ∀ r ∈ ready, np r = 0 := by
    intro r hr
    have hrE : r ∉ E := fun hE => hdisj hE hr
    rw [h5 r hrE]
    have hfe : (predsF r).filter (fun p => decide (p ∉ E)) = [] := by
      rw [List.filter_eq_nil_iff]
      intro p hp
      simp [h3 r hr p hp]
    rw [hfe]
    rfl
  have hsubperm : ∀ n, n ∉ E →
      (ready.filter (fun p => decide (p ∈ predsF n))).Subperm
        ((predsF n).filter (fun p => decide (p ∉ E))) := by
    intro n _
    apply (hrnd.filter _).subperm
    intro x hx
    obtain ⟨hxr, hxp⟩ := List.mem_filter.mp hx
    refine List.mem_filter.mpr ⟨by simpa using hxp, ?_⟩
    simp only [decide_eq_true_eq]
    exact fun hE => hdisj hE hxr
  have hdecs_le : ∀ n, n ∉ E →
      ((ready.filter (fun p => decide (p ∈ predsF n))).length : Int) ≤ np n := by
    intro n hn
    rw [h5 n hn]
    exact_mod_cast (hsubperm n hn).length_le
  have hnrE' : ∀ y ∈ (doneGroup succs np ready).2, y ∉ E ++ ready := by
    intro y hy hc
    have hcond := (hnrmem y).mp hy
    rcases List.mem_append.mp hc with hyE | hyr
    · have := h6 y hyE
      omega
    · have := hready_np0 y hyr
      omega
  have hnrE : ∀ y ∈ (doneGroup succs np ready).2, y ∉ E := by
    intro y hy hc
    exact hnrE' y hy (List.mem_append_left _ hc)
  have hnr_keys : ∀ y ∈ (doneGroup succs np ready).2, y ∈ keys := by
    intro y hy
    have hcond := (hnrmem y).mp hy
    have hyE := hnrE y hy
    apply hpkey
    intro hnil
    have h5y := h5 y hyE
    rw [hnil] at h5y
    simp at h5y
    omega
  have hnr_preds : ∀ y ∈ (doneGroup succs np ready).2, ∀ p ∈ predsF y,
      p ∈ E ++ ready := by
    intro y hy p hp
    by_cases hpE : p ∈ E
    · exact List.mem_append_left _ hpE
    · have hcond := (hnrmem y).mp hy
      have hyE := hnrE y hy
      have hle := hdecs_le y hyE
      have h5y := h5 y hyE
      have heq : ((predsF y).filter (fun q => decide (q ∉ E))).length ≤
          (ready.filter (fun q => decide (q ∈ predsF y))).length := by
        have hc2 := hcond.2
        omega
      have hperm := (hsubperm y hyE).perm_of_length_le heq
      have hpmem : p ∈ (predsF y).filter (fun q => decide (q ∉ E)) :=
        List.mem_filter.mpr ⟨hp, by simpa using hpE⟩
      have := hperm.mem_iff.mpr hpmem
      exact List.mem_append_right _ (List.mem_filter.mp this).1
  have hE'preds : ∀ e ∈ E ++ ready, ∀ p ∈ predsF e, p ∈ E := by
    intro e he p hp
    rcases List.mem_append.mp he with heE | her
    · exact h8 e heE p hp
    · exact h3 e her p hp
  refine ⟨⟨?_, ?_, hnr_preds, ?_, ?_, ?_, ?_, ?_⟩, ?_⟩
  · rw [List.nodup_append]
    exact ⟨h1, hnrnodup, fun a ha hc => hnrE' a hc ha⟩
  · intro x hx
    rcases List.mem_append.mp hx with hx1 | hx2
    · exact h2 x hx1
    · exact hnr_keys x hx2
  · rw [TopoSeqP, List.pairwise_append]
    refine ⟨h4, ?_, ?_⟩
    · apply List.pairwise_of_forall_mem_list
      intro a ha b hb
      intro hc
      exact hnrE' b hb (hnr_preds a ha b hc)
    · intro x hx y hy hc
      exact hnrE' y hy (List.mem_append_left _ (hE'preds x hx y hc))
  · intro n hn
    have hnE : n ∉ E := fun hc => hn (List.mem_append_left _ hc)
    have hnr : n ∉ ready := fun hc => hn (List.mem_append_right _ hc)
    rw [hnp' n, h5 n hnE]
    have hpart := filter_partition (fun p => decide (p ∈ ready))
      ((predsF n).filter (fun p => decide (p ∉ E)))
    have hA : (((predsF n).filter (fun p => decide (p ∉ E))).filter
        (fun p => decide (p ∈ ready))).length =
        (ready.filter (fun p => decide (p ∈ predsF n))).length := by
      apply length_eq_of_nodup_mem_iff
      · exact ((hpnd n).filter _).filter _
      · exact hrnd.filter _
      · intro x
        simp only [List.mem_filter, decide_eq_true_eq]
        tauto
    have hB : (((predsF n).filter (fun p => decide (p ∉ E))).filter
        (fun p => !decide (p ∈ ready))).length =
        ((predsF n).filter (fun p => decide (p ∉ E ++ ready))).length := by
      apply length_eq_of_nodup_mem_iff
      · exact ((hpnd n).filter _).filter _
      · exact (hpnd n).filter _
      · intro x
        simp only [List.mem_filter, decide_eq_true_eq, Bool.not_eq_true',
          decide_eq_false_iff_not, List.mem_append]
        tauto
    omega
  · intro n hn
    rcases List.mem_append.mp hn with hnE | hnr
    · have := h6 n hnE
      rw [hnp' n]
      omega
    · have := hready_np0 n hnr
      rw [hnp' n]
      omega
  · intro n hnk hn hnnr
    have hnE : n ∉ E := fun hc => hn (List.mem_append_left _ hc)
    have hnr : n ∉ ready := fun hc => hn (List.mem_append_right _ hc)
    rw [hnp' n]
    intro hc
    have hcond : ¬(1 ≤ np n ∧
        np n ≤ ((ready.filter (fun p => decide (p ∈ predsF n))).length : Int)) :=
      fun hcc => hnnr ((hnrmem n).mpr hcc)
    have h5n := h5 n hnE
    have h7n := h7 n hnk hnE hnr
    have hnn : (0 : Int) ≤ ((predsF n).filter (fun p => decide (p ∉ E))).length := by
      positivity
    omega
  · intro e he p hp
    exact List.mem_append_left _ (hE'preds e he p hp)
  · have hC : ((keys.filter (fun n => decide (n ∉ E ++ ready))) ++ ready).Subperm
        (keys.filter (fun n => decide (n ∉ E))) := by
      apply List.Nodup.subperm
      · rw [List.nodup_append]
        refine ⟨hknd.filter _, hrnd, ?_⟩
        intro a ha hc
        have := List.mem_filter.mp ha
        simp only [decide_eq_true_eq, List.mem_append] at this
        exact this.2 (Or.inr hc)
      · intro x hx
        rcases List.mem_append.mp hx with hx1 | hx2
        · obtain ⟨hxk, hxE'⟩ := List.mem_filter.mp hx1
          simp only [decide_eq_true_eq, List.mem_append] at hxE'
          exact List.mem_filter.mpr ⟨hxk, by
            simp only [decide_eq_true_eq]
            exact fun hc => hxE' (Or.inl hc)⟩
        · refine List.mem_filter.mpr ⟨h2 x (List.mem_append_right _ hx2), ?_⟩
          simp only [decide_eq_true_eq]
          exact fun hc => hdisj hc hx2
    have := hC.length_le
    rw [List.length_append] at this
    exact this

lemma kahnLoop_spec (succs predsF : Str → List Str) (keys : List Str)
    (hsucc : ∀ p n, countStr n (succs p) = if p ∈ predsF n then 1 else 0)
    (hknd : keys.Nodup)
    (hpsub : ∀ n, ∀ p ∈ predsF n, p ∈ keys)
    (hpnd : ∀ n, (predsF n).Nodup)
    (hpkey : ∀ n, predsF n ≠ [] → n ∈ keys) :
    ∀ (fuel : Nat) (np : Str → Int) (E ready : List Str),
      KInv predsF keys E np ready →
      (keys.filter (fun n => decide (n ∉ E))).length < fuel →
      (E ++ kahnLoop succs fuel np ready).Nodup ∧
      TopoSeqP predsF (E ++ kahnLoop succs fuel np ready) ∧
      (∀ x ∈ kahnLoop succs fuel np ready, x ∈ keys) ∧
      ((∀ k ∈ keys, k ∈ E ++ kahnLoop succs fuel np ready) ∨
        ∃ n, Relation.TransGen (fun a b => a ∈ predsF b) n n) := by
  intro fuel
  induction fuel with
  | zero =>
    intro np E ready _ hlt
    exact absurd hlt (by omega)
  | succ fuel ih =>
    intro np E ready hinv hlt
    by_cases hready : ready = []
    · subst hready
      have hout : kahnLoop succs (fuel + 1) np [] = [] := by
        simp [kahnLoop]
      rw [hout, List.append_nil]
      obtain ⟨h1, h2, h3, h4, h5, h6, h7, h8⟩ := hinv
      rw [List.append_nil] at h1 h4
      refine ⟨h1, h4, by simp, ?_⟩
      by_cases hcov : ∀ k ∈ keys, k ∈ E
      · exact Or.inl hcov
      · right
        push_neg at hcov
        obtain ⟨k₀, hk₀, hk₀E⟩ := hcov
        apply cycle_of_all_have_pred predsF (keys.filter (fun n => decide (n ∉ E)))
        · intro hc
          have : k₀ ∈ keys.filter (fun n => decide (n ∉ E)) :=
            List.mem_filter.mpr ⟨hk₀, by simpa using hk₀E⟩
          rw [hc] at this
          simp at this
        · intro n hn
          obtain ⟨hnk, hnE'⟩ := List.mem_filter.mp hn
          have hnE : n ∉ E := by simpa using hnE'
          have h7n := h7 n hnk hnE (by simp)
          have h5n := h5 n hnE
          have hne : (predsF n).filter (fun p => decide (p ∉ E)) ≠ [] := by
            intro hc
            rw [hc] at h5n
            simp at h5n
            exact h7n h5n
          rcases List.exists_mem_of_ne_nil _ hne with ⟨p, hp⟩
          obtain ⟨hp1, hp2⟩ := List.mem_filter.mp hp
          exact ⟨p, List.mem_filter.mpr ⟨hpsub n p hp1, hp2⟩, hp1⟩
    · have hout : kahnLoop succs (fuel + 1) np ready =
          ready ++ kahnLoop succs fuel (doneGroup succs np ready).1
            (doneGroup succs np ready).2 := by
        simp only [kahnLoop, if_neg hready]
      obtain ⟨hstep, hdec⟩ :=
        kahnStep succs predsF keys hsucc hknd hpnd hpkey E np ready hinv
      have hlen : 1 ≤ ready.length := List.length_pos.mpr hready
      have hlt' : (keys.filter (fun n => decide (n ∉ E ++ ready))).length < fuel := by
        omega
      obtain ⟨c1, c2, c3, c4⟩ := ih (doneGroup succs np ready).1 (E ++ ready)
        (doneGroup succs np ready).2 hstep hlt'
      rw [hout]
      refine ⟨?_, ?_, ?_, ?_⟩
      · rw [← List.append_assoc]
        exact c1
      · rw [← List.append_assoc]
        exact c2
      · intro x hx
        rcases List.mem_append.mp hx with hx1 | hx2
        · exact hinv.2.1 x (List.mem_append_right _ hx1)
        · exact c3 x hx2
      · rcases c4 with hcov | hcyc
        · left
          intro k hk
          have := hcov k hk
          rw [← List.append_assoc]
          exact this
        · exact Or.inr hcyc

lemma addDeps_fst_nodup :
    ∀ (l sel stack : List Str), sel.Nodup → (addDeps sel stack l).1.Nodup := by
  intro l
  induction l with
  | nil => intro sel stack h; exact h
  | cons dep rest ih =>
    intro sel stack h
    by_cases hd : dep ∈ sel
    · rw [show addDeps sel stack (dep :: rest) = addDeps sel stack rest by
        simp [addDeps, hd]]
      exact ih sel stack h
    · rw [show addDeps sel stack (dep :: rest) =
        addDeps (dep :: sel) (dep :: stack) rest by simp [addDeps, hd]]
      exact ih _ _ (List.nodup_cons.mpr ⟨hd, h⟩)

lemma closureAux_nodup (dm : List (Str × List Str)) :
    ∀ (fuel : Nat) (sel stack : List Str), sel.Nodup →
      (closureAux dm fuel sel stack).Nodup := by
  intro fuel
  induction fuel with
  | zero => intro sel stack h; exact h
  | succ fuel ih =>
    intro sel stack h
    match stack with
    | [] => exact h
    | name :: rest =>
      exact ih _ _ (addDeps_fst_nodup (depsOf dm name) sel rest h)

lemma runClosure_nodup (dm : List (Str × List Str)) (init : List Str)
    (h : init.Nodup) : (runClosure dm init).Nodup :=
  closureAux_nodup dm _ init init h

lemma lookup_map_self (f : Str → List Str) :
    ∀ (sel : List Str), sel.Nodup → ∀ n ∈ sel,
      lookupMeta (sel.map (fun m => (m, f m))) n = some (f n) := by
  intro sel
  induction sel with
  | nil => intro _ n h; simp at h
  | cons s rest ih =>
    intro hnd n hn
    rw [List.nodup_cons] at hnd
    rcases List.mem_cons.mp hn with rfl | hn'
    · simp [lookupMeta]
    · have hs : s ≠ n := fun hc => hnd.1 (hc ▸ hn')
      simp only [List.map_cons, lookupMeta, if_neg hs]
      exact ih hnd.2 n hn'

lemma keys_map_self (f : Str → List Str) (sel : List Str) :
    (sel.map (fun m => (m, f m))).map Prod.fst = sel := by
  rw [List.map_map]
  exact List.map_id _

lemma pred_map_self (f : Str → List Str) (sel : List Str) (hnd : sel.Nodup)
    (n : Str) (hn : n ∈ sel) :
    Pred (sel.map (fun m => (m, f m))) n = f n := by
  unfold Pred
  rw [lookup_map_self f sel hnd n hn]
  rfl

/-- The Kahn phase of `static_order`, instantiated: when `_find_cycle`
found nothing, `static_order` returns a duplicate-free topologically
sorted sequence of graph nodes, and it covers every node unless the
graph has a cycle. -/
lemma static_order_kahn (g : List (Str × List Str))
    (H1 : (g.map Prod.fst).Nodup)
    (H2nd : ∀ e ∈ g, e.2.Nodup)
    (H2sub : ∀ e ∈ g, ∀ d ∈ e.2, d ∈ g.map Prod.fst)
    (hfc : findCycle (tsInit g) = none) :
    ∃ ord, static_order g = .ok ord ∧
      (∀ x ∈ ord, x ∈ g.map Prod.fst) ∧ ord.Nodup ∧ TopoSeqP (Pred g) ord ∧
      ((∀ k ∈ g.map Prod.fst, k ∈ ord) ∨ HasCycle g) := by
  have hpsub : ∀ n, ∀ p ∈ Pred g n, p ∈ g.map Prod.fst := by
    intro n p hp
    unfold Pred at hp
    rcases hl : lookupMeta g n with _ | vs
    · rw [hl] at hp
      simp at hp
    · rw [hl] at hp
      simp only [Option.getD_some] at hp
      exact H2sub (n, vs) (lookupMeta_mem g n vs hl) p hp
  have hpnd : ∀ n, (Pred g n).Nodup := by
    intro n
    unfold Pred
    rcases hl : lookupMeta g n with _ | vs
    · simp
    · simpa using H2nd (n, vs) (lookupMeta_mem g n vs hl)
  have hpkey : ∀ n, Pred g n ≠ [] → n ∈ g.map Prod.fst := by
    intro n hne
    unfold Pred at hne
    rcases hl : lookupMeta g n with _ | vs
    · rw [hl] at hne
      simp at hne
    · exact List.mem_map.mpr ⟨(n, vs), lookupMeta_mem g n vs hl, rfl⟩
  have hready_pred : ∀ r ∈ (tsInit g).order.filter
      (fun n => decide ((tsInit g).npred n = 0)), Pred g r = [] := by
    intro r hr
    obtain ⟨_, hr0⟩ := List.mem_filter.mp hr
    simp only [decide_eq_true_eq] at hr0
    rw [tsInit_npred g H1 r] at hr0
    have : (Pred g r).length = 0 := by exact_mod_cast hr0
    exact List.length_eq_zero.mp this
  have hinv : KInv (Pred g) (g.map Prod.fst) [] (tsInit g).npred
      ((tsInit g).order.filter (fun n => decide ((tsInit g).npred n = 0))) := by
    refine ⟨?_, ?_, ?_, ?_, ?_, ?_, ?_, ?_⟩
    · simpa using (tsInit_order_nodup g).filter _
    · intro x hx
      simp only [List.nil_append] at hx
      exact (tsInit_order_mem g H2sub x).mp (List.mem_filter.mp hx).1
    · intro r hr p hp
      rw [hready_pred r hr] at hp
      simp at hp
    · rw [TopoSeqP, List.nil_append]
      apply List.pairwise_of_forall_mem_list
      intro a ha b _ hc
      rw [hready_pred a ha] at hc
      simp at hc
    · intro n _
      rw [tsInit_npred g H1 n]
      congr 1
      rw [List.filter_eq_self.mpr]
      intro p _
      simp
    · intro n hn
      simp at hn
    · intro n hnk _ hnr
      intro hc
      apply hnr
      refine List.mem_filter.mpr ⟨(tsInit_order_mem g H2sub n).mpr hnk, by simp [hc]⟩
    · intro e he
      simp at he
  have hfuel : ((g.map Prod.fst).filter (fun n => decide (n ∉ ([] : List Str)))).length <
      (tsInit g).order.length + 1 := by
    rw [List.filter_eq_self.mpr (by intro p _; simp)]
    rw [(tsInit_order_perm g H1 H2sub).length_eq]
    omega
  obtain ⟨c1, c2, c3, c4⟩ := kahnLoop_spec (tsInit g).succs (Pred g)
    (g.map Prod.fst) (tsInit_succs_count g H1 H2nd) H1 hpsub hpnd hpkey
    ((tsInit g).order.length + 1) (tsInit g).npred []
    ((tsInit g).order.filter (fun n => decide ((tsInit g).npred n = 0))) hinv hfuel
  rw [List.nil_append] at c1 c2
  refine ⟨_, ?_, c3, c1, c2, ?_⟩
  · simp only [static_order, hfc]
  · rcases c4 with hcov | hcyc
    · left
      intro k hk
      simpa using hcov k hk
    · exact Or.inr hcyc

/-- Ghost certificate extracted from a completed depth-first search:
a list of finished nodes, most recently finished first, in which every
node's successors appear strictly later.  Such a list can contain no
cycle of the successor relation. -/
def GoodR (succs : Str → List Str) : List Str → Prop
  | [] => True
  | b :: rest => (∀ c ∈ succs b, c ∈ rest) ∧ GoodR succs rest

lemma GoodR_closed (succs : Str → List Str) :
    ∀ F, GoodR succs F → ∀ a ∈ F, ∀ c ∈ succs a, c ∈ F := by
  intro F
  induction F with
  | nil => intro _ a ha; simp at ha
  | cons b rest ih =>
    intro hg a ha c hc
    rcases List.mem_cons.mp ha with rfl | ha'
    · exact List.mem_cons_of_mem _ (hg.1 c hc)
    · exact List.mem_cons_of_mem _ (ih hg.2 a ha' c hc)

lemma GoodR_reach (succs : Str → List Str) (F : List Str) (hg : GoodR succs F)
    (a b : Str) (h : Relation.ReflTransGen (fun x y => y ∈ succs x) a b)
    (ha : a ∈ F) : b ∈ F := by
  induction h with
  | refl => exact ha
  | tail _ h2 ih => exact GoodR_closed succs F hg _ ih _ h2

lemma GoodR_acyclic (succs : Str → List Str) :
    ∀ F, GoodR succs F → ∀ n, Relation.TransGen (fun x y => y ∈ succs x) n n →
      n ∉ F := by
  intro F
  induction F with
  | nil => intro _ n _; simp
  | cons b rest ih =>
    intro hg n hT hn
    rcases List.mem_cons.mp hn with rfl | hn'
    · rcases Relation.TransGen.head'_iff.mp hT with ⟨c, hbc, hcb⟩
      have hc : c ∈ rest := hg.1 c hbc
      have hb : n ∈ rest := GoodR_reach succs rest hg.2 c n hcb hc
      exact ih hg.2 n hT hb
    · exact ih hg.2 n hT hn'

/-- The promise of `visit` when it reports no cycle: the ghost finish
list can be extended to cover the visited node, and the seen set only
grows within the node universe. -/
def VisitNoneP (succs : Str → List Str) (U : List Str) (fuel : Nat) : Prop :=
  ∀ seen path node F seen' (r : Option (List Str)),
    GoodR succs F → (∀ a ∈ F, a ∈ seen ∧ a ∉ path) →
    (∀ a ∈ seen, a ∉ path → a ∈ F) →
    seen.Nodup → (∀ a ∈ seen, a ∈ U) → node ∈ U → (∀ a ∈ path, a ∈ seen) →
    U.length ≤ fuel + seen.length →
    visit succs fuel seen path node = (seen', r) → r = none →
    ∃ F', GoodR succs F' ∧ (∀ a ∈ F', a ∈ seen' ∧ a ∉ path) ∧
      (∀ a ∈ seen', a ∉ path → a ∈ F') ∧
      seen'.Nodup ∧ (∀ a ∈ seen', a ∈ U) ∧ (∀ a ∈ seen, a ∈ seen') ∧
      (∀ a ∈ F, a ∈ F') ∧ node ∈ F'

/-- The promise of `visitList` when it reports no cycle, for every node
of the processed list. -/
def VisitListNoneP (succs : Str → List Str) (U : List Str) (fuel : Nat) : Prop :=
  ∀ (l : List Str) seen path F seen' (r : Option (List Str)),
    GoodR succs F → (∀ a ∈ F, a ∈ seen ∧ a ∉ path) →
    (∀ a ∈ seen, a ∉ path → a ∈ F) →
    seen.Nodup → (∀ a ∈ seen, a ∈ U) → (∀ c ∈ l, c ∈ U) → (∀ a ∈ path, a ∈ seen) →
    U.length ≤ fuel + seen.length →
    visitList succs fuel seen path l = (seen', r) → r = none →
    ∃ F', GoodR succs F' ∧ (∀ a ∈ F', a ∈ seen' ∧ a ∉ path) ∧
      (∀ a ∈ seen', a ∉ path → a ∈ F') ∧
      seen'.Nodup ∧ (∀ a ∈ seen', a ∈ U) ∧ (∀ a ∈ seen, a ∈ seen') ∧
      (∀ a ∈ F, a ∈ F') ∧ (∀ c ∈ l, c ∈ F')

lemma visitList_none_of_visit (succs : Str → List Str) (U : List Str)
    (fuel : Nat) (hv : VisitNoneP succs U fuel) : VisitListNoneP succs U fuel := by
  intro l
  induction l with
  | nil =>
    intro seen path F seen' r hg hF1 hF2 hnd hsU _ hpath hfuel hvl hr
    rw [visitList_nil] at hvl
    obtain ⟨rfl, rfl⟩ : seen = seen' ∧ (none : Option (List Str)) = r := by
      injection hvl with h1 h2; exact ⟨h1, h2⟩
    exact ⟨F, hg, hF1, hF2, hnd, hsU, fun a ha => ha, fun a ha => ha,
      by intro c hc; simp at hc⟩
  | cons c cs ih =>
    intro seen path F seen' r hg hF1 hF2 hnd hsU hlU hpath hfuel hvl hr
    rw [visitList_cons] at hvl
    rcases hvc : visit succs fuel seen path c with ⟨seen₁, r₁⟩
    rw [hvc] at hvl
    match r₁, hvl with
    | some cyc, hvl =>
      exfalso
      obtain ⟨-, h2⟩ : seen₁ = seen' ∧ (some cyc : Option (List Str)) = r := by
        injection hvl with h1 h2; exact ⟨h1, h2⟩
      rw [hr] at h2
      exact Option.noConfusion h2
    | none, hvl =>
      obtain ⟨F₁, hg₁, hF11, hF12, hnd₁, hsU₁, hmono₁, hFm₁, hc₁⟩ :=
        hv seen path c F seen₁ none hg hF1 hF2 hnd hsU
          (hlU c (List.mem_cons_self c cs)) hpath hfuel hvc rfl
      have hlen : seen.length ≤ seen₁.length :=
        (hnd.subperm hmono₁).length_le
      obtain ⟨F', hg', hF1', hF2', hnd', hsU', hmono', hFm', hcs'⟩ :=
        ih seen₁ path F₁ seen' r hg₁ hF11 hF12 hnd₁ hsU₁
          (fun d hd => hlU d (List.mem_cons_of_mem c hd))
          (fun a ha => hmono₁ a (hpath a ha)) (by omega) hvl hr
      refine ⟨F', hg', hF1', hF2', hnd', hsU',
        fun a ha => hmono' a (hmono₁ a ha), fun a ha => hFm' a (hFm₁ a ha), ?_⟩
      intro d hd
      rcases List.mem_cons.mp hd with rfl | hd'
      · exact hFm' d hc₁
      · exact hcs' d hd'

lemma visit_none_all (succs : Str → List Str) (U : List Str)
    (hsuccU : ∀ a, ∀ b ∈ succs a, b ∈ U) :
    ∀ fuel, VisitNoneP succs U fuel := by
  intro fuel
  induction fuel with
  | zero =>
    intro seen path node F seen' r hg hF1 hF2 hnd hsU hnU hpath hfuel hv hr
    rw [visit_eq] at hv
    by_cases hs : node ∈ seen
    · rw [if_pos hs] at hv
      by_cases hp : node ∈ path
      · exfalso
        rw [if_pos hp] at hv
        obtain ⟨-, h2⟩ : seen = seen' ∧
            (some (path.dropWhile (fun x => decide (x ≠ node)) ++ [node]) :
              Option (List Str)) = r := by
          injection hv with h1 h2; exact ⟨h1, h2⟩
        rw [hr] at h2
        exact Option.noConfusion h2
      · rw [if_neg hp] at hv
        obtain ⟨rfl, -⟩ : seen = seen' ∧ (none : Option (List Str)) = r := by
          injection hv with h1 h2; exact ⟨h1, h2⟩
        exact ⟨F, hg, hF1, hF2, hnd, hsU, fun a ha => ha, fun a ha => ha,
          hF2 node hs hp⟩
    · exfalso
      have hsub : (node :: seen) ⊆ U := by
        intro a ha
        rcases List.mem_cons.mp ha with rfl | ha'
        · exact hnU
        · exact hsU a ha'
      have hlen : (node :: seen).length ≤ U.length :=
        ((List.nodup_cons.mpr ⟨hs, hnd⟩).subperm hsub).length_le
      simp only [List.length_cons] at hlen
      omega
  | succ fuel ihf =>
    have hl : VisitListNoneP succs U fuel :=
      visitList_none_of_visit succs U fuel ihf
    intro seen path node F seen' r hg hF1 hF2 hnd hsU hnU hpath hfuel hv hr
    rw [visit_eq] at hv
    by_cases hs : node ∈ seen
    · rw [if_pos hs] at hv
      by_cases hp : node ∈ path
      · exfalso
        rw [if_pos hp] at hv
        obtain ⟨-, h2⟩ : seen = seen' ∧
            (some (path.dropWhile (fun x => decide (x ≠ node)) ++ [node]) :
              Option (List Str)) = r := by
          injection hv with h1 h2; exact ⟨h1, h2⟩
        rw [hr] at h2
        exact Option.noConfusion h2
      · rw [if_neg hp] at hv
        obtain ⟨rfl, -⟩ : seen = seen' ∧ (none : Option (List Str)) = r := by
          injection hv with h1 h2; exact ⟨h1, h2⟩
        exact ⟨F, hg, hF1, hF2, hnd, hsU, fun a ha => ha, fun a ha => ha,
          hF2 node hs hp⟩
    · rw [if_neg hs] at hv
      have hnp : node ∉ path := fun hc => hs (hpath node hc)
      obtain ⟨F₁, hg₁, hF11, hF12, hnd₁, hsU₁, hmono₁, hFm₁, hsucc₁⟩ :=
        hl (succs node) (node :: seen) (path ++ [node]) F seen' r hg
          (by
            intro a ha
            obtain ⟨ha1, ha2⟩ := hF1 a ha
            refine ⟨List.mem_cons_of_mem _ ha1, ?_⟩
            intro hc
            rcases List.mem_append.mp hc with hc' | hc'
            · exact ha2 hc'
            · rcases List.mem_singleton.mp hc' with rfl
              exact hs ha1)
          (by
            intro a ha hnp'
            rcases List.mem_cons.mp ha with rfl | ha'
            · exact absurd (List.mem_append.mpr (Or.inr (List.mem_singleton.mpr rfl))) hnp'
            · exact hF2 a ha' (fun hc =>
                hnp' (List.mem_append.mpr (Or.inl hc))))
          (List.nodup_cons.mpr ⟨hs, hnd⟩)
          (by
            intro a ha
            rcases List.mem_cons.mp ha with rfl | ha'
            · exact hnU
            · exact hsU a ha')
          (hsuccU node)
          (by
            intro a ha
            rcases List.mem_append.mp ha with ha' | ha'
            · exact List.mem_cons_of_mem _ (hpath a ha')
            · rcases List.mem_singleton.mp ha' with rfl
              exact List.mem_cons_self _ _)
          (by simp only [List.length_cons]; omega)
          hv hr
      have hnode_seen : node ∈ seen' := hmono₁ node (List.mem_cons_self _ _)
      refine ⟨node :: F₁, ⟨?_, hg₁⟩, ?_, ?_, hnd₁, hsU₁,
        fun a ha => hmono₁ a (List.mem_cons_of_mem _ ha),
        fun a ha => List.mem_cons_of_mem _ (hFm₁ a ha),
        List.mem_cons_self _ _⟩
      · exact hsucc₁
      · intro a ha
        rcases List.mem_cons.mp ha with rfl | ha'
        · exact ⟨hnode_seen, hnp⟩
        · obtain ⟨ha1, ha2⟩ := hF11 a ha'
          exact ⟨ha1, fun hc => ha2 (List.mem_append.mpr (Or.inl hc))⟩
      · intro a ha hap
        by_cases han : a = node
        · exact han ▸ List.mem_cons_self _ _
        · refine List.mem_cons_of_mem _ (hF12 a ha ?_)
          intro hc
          rcases List.mem_append.mp hc with hc' | hc'
          · exact hap hc'
          · exact han (List.mem_singleton.mp hc')

lemma findCycleAux_none (succs : Str → List Str) (U : List Str)
    (hsuccU : ∀ a, ∀ b ∈ succs a, b ∈ U) (fuel : Nat) :
    ∀ (roots seen F : List Str), GoodR succs F → (∀ a ∈ F, a ∈ seen) →
    (∀ a ∈ seen, a ∈ F) → seen.Nodup → (∀ a ∈ seen, a ∈ U) →
    (∀ n ∈ roots, n ∈ U) → U.length ≤ fuel + seen.length →
    findCycleAux succs fuel seen roots = none →
    ∃ F', GoodR succs F' ∧ (∀ n ∈ roots, n ∈ F') ∧ (∀ a ∈ F, a ∈ F') := by
  intro roots
  induction roots with
  | nil =>
    intro seen F hg hF1 hF2 _ _ _ _ _
    exact ⟨F, hg, by intro n hn; simp at hn, fun a ha => ha⟩
  | cons n rest ih =>
    intro seen F hg hF1 hF2 hnd hsU hrU hfuel hfc
    rw [findCycleAux] at hfc
    by_cases hn : n ∈ seen
    · rw [if_pos hn] at hfc
      obtain ⟨F', hg', hr', hm'⟩ :=
        ih seen F hg hF1 hF2 hnd hsU
          (fun m hm => hrU m (List.mem_cons_of_mem n hm)) hfuel hfc
      refine ⟨F', hg', ?_, hm'⟩
      intro m hm
      rcases List.mem_cons.mp hm with rfl | hm'
      · exact hm' m (hF2 m hn)
      · exact hr' m hm'
    · rw [if_neg hn] at hfc
      rcases hvc : visit succs fuel seen [] n with ⟨seen₁, r₁⟩
      rw [hvc] at hfc
      match r₁, hfc with
      | none, hfc =>
        obtain ⟨F₁, hg₁, hF11, hF12, hnd₁, hsU₁, hmono₁, hFm₁, hn₁⟩ :=
          visit_none_all succs U hsuccU fuel seen [] n F seen₁ none hg
            (by intro a ha; exact ⟨hF1 a ha, by simp⟩)
            (by intro a ha _; exact hF2 a ha)
            hnd hsU (hrU n (List.mem_cons_self n rest))
            (by intro a ha; simp at ha) hfuel hvc rfl
        have hlen : seen.length ≤ seen₁.length :=
          (hnd.subperm hmono₁).length_le
        obtain ⟨F', hg', hr', hm'⟩ :=
          ih seen₁ F₁ hg₁ (fun a ha => (hF11 a ha).1)
            (fun a ha => hF12 a ha (by simp)) hnd₁ hsU₁
            (fun m hm => hrU m (List.mem_cons_of_mem n hm)) (by omega) hfc
        refine ⟨F', hg', ?_, fun a ha => hm' a (hFm₁ a ha)⟩
        intro m hm
        rcases List.mem_cons.mp hm with rfl | hm'
        · exact hm' m hn₁
        · exact hr' m hm'

lemma findCycle_none_goodR (st : TSState)
    (hsuccU : ∀ a, ∀ b ∈ st.succs a, b ∈ st.order)
    (hfc : findCycle st = none) :
    ∃ F, GoodR st.succs F ∧ ∀ n ∈ st.order, n ∈ F := by
  obtain ⟨F', hg', hr', -⟩ :=
    findCycleAux_none st.succs st.order hsuccU (st.order.length + 1)
      st.order [] [] trivial (by intro a ha; simp at ha)
      (by intro a ha; simp at ha) List.nodup_nil
      (by intro a ha; simp at ha) (fun n hn => hn)
      (by simp) hfc
  exact ⟨F', hg', hr'⟩

/-- If `_find_cycle` reports no cycle then the successor relation has no
cycle at all: completeness of the depth-first search. -/
lemma findCycle_none_acyclic (st : TSState)
    (hsuccU : ∀ a, ∀ b ∈ st.succs a, b ∈ st.order)
    (hfc : findCycle st = none) :
    ¬ ∃ n, Relation.TransGen (fun x y => y ∈ st.succs x) n n := by
  rintro ⟨n, hT⟩
  obtain ⟨F, hg, hcov⟩ := findCycle_none_goodR st hsuccU hfc
  rcases Relation.TransGen.tail'_iff.mp hT with ⟨m, -, hmn⟩
  have hnU : n ∈ st.order := hsuccU m n hmn
  exact GoodR_acyclic st.succs F hg n hT (hcov n hnU)

lemma chain_transGen (R : Str → Str → Prop) :
    ∀ (l : List Str) (a b : Str), List.Chain R a (l ++ [b]) →
      Relation.TransGen R a b := by
  intro l
  induction l with
  | nil =>
    intro a b h
    exact Relation.TransGen.single (List.chain_cons.mp h).1
  | cons x l' ih =>
    intro a b h
    rw [List.cons_append, List.chain_cons] at h
    exact Relation.TransGen.head h.1 (ih x b h.2)

/-- Shape of the cycle reported by `_find_cycle`: a node followed by a
successor chain that returns to the same node. -/
def CycW (succs : Str → List Str) (cyc : List Str) : Prop :=
  ∃ n suf, cyc = n :: (suf ++ [n]) ∧
    List.Chain (fun x y => y ∈ succs x) n (suf ++ [n])

lemma cycW_ne_nil (succs : Str → List Str) (cyc : List Str)
    (h : CycW succs cyc) : cyc ≠ [] := by
  rcases h with ⟨n, suf, rfl, -⟩
  simp

lemma cycW_all_cyclic (succs : Str → List Str) (cyc : List Str)
    (h : CycW succs cyc) :
    ∀ m ∈ cyc, Relation.TransGen (fun x y => y ∈ succs x) m m := by
  rcases h with ⟨n, suf, rfl, hch⟩
  have hn : Relation.TransGen (fun x y => y ∈ succs x) n n :=
    chain_transGen _ suf n n hch
  intro m hm
  rcases List.mem_cons.mp hm with rfl | hm'
  · exact hn
  · rcases List.mem_append.mp hm' with hms | hml
    · obtain ⟨s1, s2, rfl⟩ := List.append_of_mem hms
      rw [List.append_assoc, List.cons_append, List.chain_split] at hch
      have h1 : Relation.TransGen (fun x y => y ∈ succs x) n m :=
        chain_transGen _ s1 n m hch.1
      have h2 : Relation.TransGen (fun x y => y ∈ succs x) m n :=
        chain_transGen _ s2 m n hch.2
      exact h2.trans h1
    · rcases List.mem_singleton.mp hml with rfl
      exact hn

lemma dropWhile_mem_cons :
    ∀ (path : List Str) (node : Str), node ∈ path →
      ∃ suf, path.dropWhile (fun x => decide (x ≠ node)) = node :: suf := by
  intro path
  induction path with
  | nil => intro node h; simp at h
  | cons h t ih =>
    intro node hm
    by_cases he : h = node
    · subst he
      exact ⟨t, by simp [List.dropWhile_cons]⟩
    · have hnt : node ∈ t := by
        rcases List.mem_cons.mp hm with h' | h'
        · exact absurd h'.symm he
        · exact h'
      obtain ⟨suf, hsuf⟩ := ih node hnt
      exact ⟨suf, by simp only [List.dropWhile_cons, decide_eq_true_eq]; rw [if_pos he]; exact hsuf⟩

lemma chain'_snoc (R : Str → Str → Prop) (l : List Str) (a b : Str)
    (h : List.Chain' R (l ++ [a])) (hab : R a b) :
    List.Chain' R ((l ++ [a]) ++ [b]) := by
  rw [List.chain'_append]
  refine ⟨h, List.chain'_singleton b, ?_⟩
  intro x hx y hy
  rw [List.getLast?_concat] at hx
  rcases Option.mem_some_iff.mp hx with rfl
  simp only [List.head?_cons, Option.mem_some_iff] at hy
  subst hy
  exact hab

/-- Promise of `visit` when it reports a cycle: the result witnesses a
genuine cycle of the successor relation. -/
def VisitSomeP (succs : Str → List Str) (fuel : Nat) : Prop :=
  ∀ (seen path : List Str) (node : Str) (seen' cyc : List Str),
    List.Chain' (fun x y => y ∈ succs x) (path ++ [node]) →
    visit succs fuel seen path node = (seen', some cyc) →
    CycW succs cyc

/-- Promise of `visitList` when it reports a cycle. -/
def VisitListSomeP (succs : Str → List Str) (fuel : Nat) : Prop :=
  ∀ (l seen path : List Str) (seen' cyc : List Str),
    (∀ c ∈ l, List.Chain' (fun x y => y ∈ succs x) (path ++ [c])) →
    visitList succs fuel seen path l = (seen', some cyc) →
    CycW succs cyc

lemma visitList_some_of_visit (succs : Str → List Str) (fuel : Nat)
    (hv : VisitSomeP succs fuel) : VisitListSomeP succs fuel := by
  intro l
  induction l with
  | nil =>
    intro seen path seen' cyc _ hvl
    rw [visitList_nil] at hvl
    exact absurd hvl (by simp)
  | cons c cs ih =>
    intro seen path seen' cyc hch hvl
    rw [visitList_cons] at hvl
    rcases hvc : visit succs fuel seen path c with ⟨seen₁, r₁⟩
    rw [hvc] at hvl
    match r₁, hvl with
    | some cyc₁, hvl =>
      obtain ⟨-, h2⟩ : seen₁ = seen' ∧ (some cyc₁ : Option (List Str)) = some cyc := by
        injection hvl with h1 h2; exact ⟨h1, h2⟩
      rcases Option.some_inj.mp h2 with rfl
      exact hv seen path c seen₁ _ (hch c (List.mem_cons_self c cs)) hvc
    | none, hvl =>
      exact ih seen₁ path seen' cyc
        (fun d hd => hch d (List.mem_cons_of_mem c hd)) hvl

lemma visit_some_all (succs : Str → List Str) :
    ∀ fuel, VisitSomeP succs fuel := by
  intro fuel
  induction fuel with
  | zero =>
    intro seen path node seen' cyc hch hv
    rw [visit_eq] at hv
    by_cases hs : node ∈ seen
    · rw [if_pos hs] at hv
      by_cases hp : node ∈ path
      · rw [if_pos hp] at hv
        obtain ⟨-, h2⟩ : seen = seen' ∧
            (some (path.dropWhile (fun x => decide (x ≠ node)) ++ [node]) :
              Option (List Str)) = some cyc := by
          injection hv with h1 h2; exact ⟨h1, h2⟩
        rcases Option.some_inj.mp h2 with rfl
        obtain ⟨suf, hsuf⟩ := dropWhile_mem_cons path node hp
        obtain ⟨t, ht⟩ := List.dropWhile_suffix (l := path)
          (fun x => decide (x ≠ node))
        rw [hsuf] at ht
        refine ⟨node, suf, by rw [hsuf, List.cons_append], ?_⟩
        have hsfx : (node :: suf) ++ [node] <:+ path ++ [node] :=
          ⟨t, by rw [← ht, List.append_assoc]⟩
        have hch' : List.Chain' (fun x y => y ∈ succs x) ((node :: suf) ++ [node]) :=
          hch.suffix hsfx
        rw [List.cons_append] at hch'
        exact hch'
      · rw [if_neg hp] at hv
        exact absurd hv (by simp)
    · rw [if_neg hs] at hv
      exact absurd hv (by simp)
  | succ fuel ihf =>
    have hl : VisitListSomeP succs fuel := visitList_some_of_visit succs fuel ihf
    intro seen path node seen' cyc hch hv
    rw [visit_eq] at hv
    by_cases hs : node ∈ seen
    · rw [if_pos hs] at hv
      by_cases hp : node ∈ path
      · rw [if_pos hp] at hv
        obtain ⟨-, h2⟩ : seen = seen' ∧
            (some (path.dropWhile (fun x => decide (x ≠ node)) ++ [node]) :
              Option (List Str)) = some cyc := by
          injection hv with h1 h2; exact ⟨h1, h2⟩
        rcases Option.some_inj.mp h2 with rfl
        obtain ⟨suf, hsuf⟩ := dropWhile_mem_cons path node hp
        obtain ⟨t, ht⟩ := List.dropWhile_suffix (l := path)
          (fun x => decide (x ≠ node))
        rw [hsuf] at ht
        refine ⟨node, suf, by rw [hsuf, List.cons_append], ?_⟩
        have hsfx : (node :: suf) ++ [node] <:+ path ++ [node] :=
          ⟨t, by rw [← ht, List.append_assoc]⟩
        have hch' : List.Chain' (fun x y => y ∈ succs x) ((node :: suf) ++ [node]) :=
          hch.suffix hsfx
        rw [List.cons_append] at hch'
        exact hch'
      · rw [if_neg hp] at hv
        exact absurd hv (by simp)
    · rw [if_neg hs] at hv
      refine hl (succs node) (node :: seen) (path ++ [node]) seen' cyc ?_ hv
      intro c hc
      exact chain'_snoc _ path node c hch hc

lemma findCycleAux_some (succs : Str → List Str) (fuel : Nat) :
    ∀ (roots seen : List Str) (cyc : List Str),
      findCycleAux succs fuel seen roots = some cyc → CycW succs cyc := by
  intro roots
  induction roots with
  | nil => intro seen cyc h; rw [findCycleAux] at h; exact absurd h (by simp)
  | cons n rest ih =>
    intro seen cyc hfc
    rw [findCycleAux] at hfc
    by_cases hn : n ∈ seen
    · rw [if_pos hn] at hfc
      exact ih seen cyc hfc
    · rw [if_neg hn] at hfc
      rcases hvc : visit succs fuel seen [] n with ⟨seen₁, r₁⟩
      rw [hvc] at hfc
      match r₁, hfc with
      | some cyc₁, hfc =>
        rcases Option.some_inj.mp hfc with rfl
        exact visit_some_all succs fuel seen [] n seen₁ cyc₁
          (by simp only [List.nil_append]; exact List.chain'_singleton n) hvc
      | none, hfc => exact ih seen₁ cyc hfc

/-- Soundness of `_find_cycle`: a reported cycle is a genuine cycle of
the successor relation. -/
lemma findCycle_some (st : TSState) (cyc : List Str)
    (h : findCycle st = some cyc) : CycW st.succs cyc :=
  findCycleAux_some st.succs (st.order.length + 1) st.order [] cyc h

lemma tsInit_succsU (g : List (Str × List Str))
    (H1 : (g.map Prod.fst).Nodup) (H2nd : ∀ e ∈ g, e.2.Nodup)
    (H2sub : ∀ e ∈ g, ∀ d ∈ e.2, d ∈ g.map Prod.fst) :
    ∀ a, ∀ b ∈ (tsInit g).succs a, b ∈ (tsInit g).order := by
  intro a b hb
  have hp : a ∈ Pred g b := (tsInit_succs_mem g H1 H2nd a b).mp hb
  unfold Pred at hp
  rcases hl : lookupMeta g b with _ | vs
  · rw [hl] at hp
    simp at hp
  · have hk : b ∈ g.map Prod.fst :=
      List.mem_map.mpr ⟨(b, vs), lookupMeta_mem g b vs hl, rfl⟩
    exact (tsInit_order_mem g H2sub b).mpr hk

lemma not_hasCycle_of_findCycle_none (g : List (Str × List Str))
    (H1 : (g.map Prod.fst).Nodup) (H2nd : ∀ e ∈ g, e.2.Nodup)
    (H2sub : ∀ e ∈ g, ∀ d ∈ e.2, d ∈ g.map Prod.fst)
    (hfc : findCycle (tsInit g) = none) : ¬ HasCycle g := by
  rintro ⟨n, hT⟩
  apply findCycle_none_acyclic (tsInit g) (tsInit_succsU g H1 H2nd H2sub) hfc
  exact ⟨n, Relation.TransGen.mono
    (fun x y hxy => (tsInit_succs_mem g H1 H2nd x y).mpr hxy) hT⟩

/-- `static_order` on a well-formed acyclic graph: the Kahn phase runs
and emits a permutation of the node set in which no later node is a
predecessor of an earlier one. -/
lemma static_order_ok_spec (g : List (Str × List Str))
    (H1 : (g.map Prod.fst).Nodup) (H2nd : ∀ e ∈ g, e.2.Nodup)
    (H2sub : ∀ e ∈ g, ∀ d ∈ e.2, d ∈ g.map Prod.fst)
    (hacyc : ¬ HasCycle g) :
    ∃ ord, static_order g = .ok ord ∧ ord.Perm (g.map Prod.fst) ∧
      TopoSeqP (Pred g) ord := by
  have hfc : findCycle (tsInit g) = none := by
    rcases h : findCycle (tsInit g) with _ | cyc
    · rfl
    · exfalso
      rcases findCycle_some _ _ h with ⟨n, suf, -, hch⟩
      have hT : Relation.TransGen (fun x y => y ∈ (tsInit g).succs x) n n :=
        chain_transGen _ suf n n hch
      exact hacyc ⟨n, Relation.TransGen.mono
        (fun x y hxy => (tsInit_succs_mem g H1 H2nd x y).mp hxy) hT⟩
  obtain ⟨ord, hso, hsub', hnd, htopo, hcov⟩ :=
    static_order_kahn g H1 H2nd H2sub hfc
  rcases hcov with hcov | hcyc
  · exact ⟨ord, hso, List.Subperm.antisymm (hnd.subperm hsub')
      (H1.subperm hcov), htopo⟩
  · exact absurd hcyc hacyc

/-- `static_order` on a well-formed cyclic graph: `_find_cycle` reports
a non-empty witness all of whose members really lie on a cycle, and the
whole call raises `CycleError`. -/
lemma static_order_cycle_spec (g : List (Str × List Str))
    (H1 : (g.map Prod.fst).Nodup) (H2nd : ∀ e ∈ g, e.2.Nodup)
    (H2sub : ∀ e ∈ g, ∀ d ∈ e.2, d ∈ g.map Prod.fst)
    (hcyc : HasCycle g) :
    ∃ cyc, static_order g = .error cyc ∧ cyc ≠ [] ∧
      ∀ m ∈ cyc, Relation.TransGen (GEdge g) m m := by
  rcases h : findCycle (tsInit g) with _ | cyc
  · exact absurd hcyc (not_hasCycle_of_findCycle_none g H1 H2nd H2sub h)
  · refine ⟨cyc, by simp only [static_order, h], ?_, ?_⟩
    · exact cycW_ne_nil _ _ (findCycle_some _ _ h)
    · intro m hm
      exact Relation.TransGen.mono
        (fun x y hxy => (tsInit_succs_mem g H1 H2nd x y).mp hxy)
        (cycW_all_cyclic _ _ (findCycle_some _ _ h) m hm)

lemma vd_ok_not_self (keys : List Str) (name path : Str) :
    ∀ (l ds : List Str), validateDeps keys name path l = .ok ds → name ∉ l := by
  intro l
  induction l with
  | nil => intro ds _; simp
  | cons dep rest ih =>
    intro ds h
    rw [validateDeps] at h
    by_cases hd : dep = name
    · rw [if_pos hd] at h
      exact absurd h (by simp)
    · rw [if_neg hd] at h
      by_cases hk : dep ∉ keys
      · rw [if_pos hk] at h
        exact absurd h (by simp)
      · rw [if_neg hk] at h
        intro hc
        rcases List.mem_cons.mp hc with hc' | hc'
        · exact hd hc'.symm
        · rcases hvr : validateDeps keys name path rest with e | ds'
          · rw [hvr] at h
            exact absurd h (by simp [exbind_err])
          · exact ih ds' hvr hc'

lemma ad_ok_not_self (keys : List Str) :
    ∀ (items : List (Str × Asset)) (m : List (Str × List Str)),
      assetDepsAux keys items = .ok m → ∀ e ∈ m, e.1 ∉ e.2 := by
  intro items
  induction items with
  | nil =>
    intro m h e he
    rw [assetDepsAux] at h
    obtain rfl : ([] : List (Str × List Str)) = m := by injection h
    simp at he
  | cons en rest ih =>
    intro m h e he
    rw [assetDepsAux] at h
    rcases hvd : validateDeps keys en.1 en.2.path en.2.depends with e' | ds
    · rw [hvd] at h
      simp only [exbind_err] at h
      exact absurd h (by simp)
    · rw [hvd] at h
      simp only [exbind_ok] at h
      rcases har : assetDepsAux keys rest with e' | m'
      · rw [har] at h
        simp only [exbind_err] at h
        exact absurd h (by simp)
      · rw [har] at h
        simp only [exbind_ok] at h
        obtain rfl : (en.1, sortedDedup ds) :: m' = m := by injection h
        rcases List.mem_cons.mp he with rfl | he'
        · intro hc
          simp only at hc
          have hds := vd_ok_val keys en.1 en.2.path en.2.depends ds hvd
          exact vd_ok_not_self keys en.1 en.2.path en.2.depends ds hvd
            (hds ▸ (mem_sortedDedup ds en.1).mp hc)
        · exact ih m' har e he'

lemma depsOf_not_self (assets : List (Str × Asset)) (dm : List (Str × List Str))
    (hdm : asset_dependencies assets = .ok dm) (n : Str) :
    n ∉ depsOf dm n := by
  unfold depsOf
  rcases hl : lookupMeta dm n with _ | vs
  · simp
  · simp only [Option.getD_some]
    exact ad_ok_not_self (assets.map Prod.fst) assets dm hdm (n, vs)
      (lookupMeta_mem dm n vs hl)

lemma depsOf_nodup (assets : List (Str × Asset)) (dm : List (Str × List Str))
    (hdm : asset_dependencies assets = .ok dm) (n : Str) :
    (depsOf dm n).Nodup := by
  unfold depsOf
  rcases hl : lookupMeta dm n with _ | vs
  · simp
  · simp only [Option.getD_some]
    have hmem := lookupMeta_mem dm n vs hl
    have hval := ad_ok_val (assets.map Prod.fst) assets dm hdm
    rw [hval] at hmem
    rcases List.mem_map.mp hmem with ⟨en, -, heq⟩
    obtain ⟨-, rfl⟩ : en.1 = n ∧ sortedDedup en.2.depends = vs := by
      constructor
      · exact congrArg Prod.fst heq
      · exact congrArg Prod.snd heq
    exact sortedDedup_nodup _

lemma runClosure_closed (dm : List (Str × List Str)) (init : List Str) :
    ∀ n ∈ runClosure dm init, ∀ d ∈ depsOf dm n, d ∈ runClosure dm init := by
  intro n hn d hd
  rw [runClosure_mem] at hn ⊢
  rcases hn with ⟨s, hs, hr⟩
  exact ⟨s, hs, hr.tail hd⟩

lemma resolve_selection_runClosure (names : Option (List Str))
    (all_assets : Bool) (assets : List (Str × Asset))
    (dm : List (Str × List Str)) (sel : List Str)
    (hnd : (assets.map Prod.fst).Nodup)
    (hsel : resolve_selection names all_assets assets dm = .ok sel) :
    ∃ init, init.Nodup ∧ sel = runClosure dm init := by
  unfold resolve_selection at hsel
  rcases all_assets with _ | _
  · simp only [Bool.false_eq_true, if_false] at hsel
    rcases names with _ | requested
    · exact absurd hsel (by simp)
    · simp only at hsel
      by_cases hreq : requested = []
      · rw [if_pos hreq] at hsel
        exact absurd hsel (by simp)
      · rw [if_neg hreq] at hsel
        by_cases hun : unknownRequested assets requested ≠ []
        · rw [if_pos hun] at hsel
          exact absurd hsel (by simp)
        · rw [if_neg hun] at hsel
          refine ⟨requested.dedup, requested.nodup_dedup, ?_⟩
          injection hsel with h
          exact h.symm
  · simp only [if_true] at hsel
    refine ⟨assets.map Prod.fst, hnd, ?_⟩
    injection hsel with h
    exact h.symm

lemma resolve_selection_nodup (names : Option (List Str))
    (all_assets : Bool) (assets : List (Str × Asset))
    (dm : List (Str × List Str)) (sel : List Str)
    (hnd : (assets.map Prod.fst).Nodup)
    (hsel : resolve_selection names all_assets assets dm = .ok sel) :
    sel.Nodup := by
  obtain ⟨init, hind, rfl⟩ :=
    resolve_selection_runClosure names all_assets assets dm sel hnd hsel
  exact runClosure_nodup dm init hind

lemma resolve_selection_closed (names : Option (List Str))
    (all_assets : Bool) (assets : List (Str × Asset))
    (dm : List (Str × List Str)) (sel : List Str)
    (hnd : (assets.map Prod.fst).Nodup)
    (hsel : resolve_selection names all_assets assets dm = .ok sel) :
    ∀ n ∈ sel, ∀ d ∈ depsOf dm n, d ∈ sel := by
  obtain ⟨init, -, rfl⟩ :=
    resolve_selection_runClosure names all_assets assets dm sel hnd hsel
  exact runClosure_closed dm init

lemma materializePlan_static (assets : List (Str × Asset))
    (names : Option (List Str)) (all_assets : Bool)
    (dm : List (Str × List Str)) (sel : List Str)
    (hdm : asset_dependencies assets = .ok dm)
    (hsel : resolve_selection names all_assets assets dm = .ok sel) :
    materializePlan assets names all_assets =
      match static_order (sel.map (fun n => (n, depsOf dm n))) with
      | .error cyc => .error (.cycle cyc)
      | .ok order => .ok order := by
  unfold materializePlan
  rw [hdm, exbind_ok, hsel, exbind_ok]

lemma pred_mem_keys (g : List (Str × List Str)) (n : Str)
    (hne : Pred g n ≠ []) : n ∈ g.map Prod.fst := by
  unfold Pred at hne
  rcases hl : lookupMeta g n with _ | vs
  · rw [hl] at hne
    simp at hne
  · exact List.mem_map.mpr ⟨(n, vs), lookupMeta_mem g n vs hl, rfl⟩

/-- Well-formedness of the restricted graph `{name: deps_map[name] for
name in selected}` handed to `TopologicalSorter`: duplicate-free keys,
duplicate-free dependency lists, and all dependencies among the keys. -/
lemma restricted_graph_wf (assets : List (Str × Asset))
    (names : Option (List Str)) (all_assets : Bool)
    (dm : List (Str × List Str)) (sel : List Str)
    (hnd : (assets.map Prod.fst).Nodup)
    (hdm : asset_dependencies assets = .ok dm)
    (hsel : resolve_selection names all_assets assets dm = .ok sel) :
    (((sel.map (fun n => (n, depsOf dm n))).map Prod.fst).Nodup) ∧
    (∀ e ∈ sel.map (fun n => (n, depsOf dm n)), e.2.Nodup) ∧
    (∀ e ∈ sel.map (fun n => (n, depsOf dm n)), ∀ d ∈ e.2,
      d ∈ (sel.map (fun n => (n, depsOf dm n))).map Prod.fst) := by
  have hselnd := resolve_selection_nodup names all_assets assets dm sel hnd hsel
  have hkeys : (sel.map (fun n => (n, depsOf dm n))).map Prod.fst = sel :=
    keys_map_self (depsOf dm) sel
  refine ⟨by rw [hkeys]; exact hselnd, ?_, ?_⟩
  · intro e he
    rcases List.mem_map.mp he with ⟨n, -, rfl⟩
    exact depsOf_nodup assets dm hdm n
  · intro e he d hd
    rcases List.mem_map.mp he with ⟨n, hn, rfl⟩
    rw [hkeys]
    exact resolve_selection_closed names all_assets assets dm sel hnd hsel n hn d hd

/-- Claim C1: for every selected asset set whose restricted dependency
graph is acyclic, the scheduling step of `materialize` emits a single
total order over exactly the selected assets (a duplicate-free
permutation of the selection, closed under dependencies), in which every
dependency appears strictly before each of its dependents. -/
theorem scheduling_topological_order (assets : List (Str × Asset))
    (names : Option (List Str)) (all_assets : Bool)
    (dm : List (Str × List Str)) (sel ord : List Str)
    (hnd : (assets.map Prod.fst).Nodup)
    (hdm : asset_dependencies assets = .ok dm)
    (hsel : resolve_selection names all_assets assets dm = .ok sel)
    (hacyc : ¬ HasCycle (sel.map (fun n => (n, depsOf dm n))))
    (hord : materializePlan assets names all_assets = .ok ord) :
    ord.Perm sel ∧
    (∀ a ∈ ord, ∀ d ∈ depsOf dm a, d ∈ ord) ∧
    (∀ i j : Fin ord.length, ord.get j ∈ depsOf dm (ord.get i) →
      (j : Nat) < (i : Nat)) := by
  obtain ⟨H1, H2nd, H2sub⟩ :=
    restricted_graph_wf assets names all_assets dm sel hnd hdm hsel
  have hselnd := resolve_selection_nodup names all_assets assets dm sel hnd hsel
  have hkeys : (sel.map (fun n => (n, depsOf dm n))).map Prod.fst = sel :=
    keys_map_self (depsOf dm) sel
  obtain ⟨ord', hso, hperm, htopo⟩ :=
    static_order_ok_spec (sel.map (fun n => (n, depsOf dm n))) H1 H2nd H2sub hacyc
  have hmp := materializePlan_static assets names all_assets dm sel hdm hsel
  have hoo : (Except.ok ord : Except Err (List Str)) = .ok ord' := by
    rw [← hord, hmp, hso]
  obtain rfl : ord = ord' := by injection hoo
  rw [hkeys] at hperm
  refine ⟨hperm, ?_, ?_⟩
  · intro a ha d hd
    have ha' : a ∈ sel := hperm.mem_iff.mp ha
    exact hperm.mem_iff.mpr
      (resolve_selection_closed names all_assets assets dm sel hnd hsel a ha' d hd)
  · intro i j hdep
    have htopo' : ord.Pairwise
        (fun a b => b ∉ Pred (sel.map (fun n => (n, depsOf dm n))) a) := htopo
    have hpair := List.pairwise_iff_get.mp htopo'
    have hai : ord.get i ∈ sel := hperm.mem_iff.mp (List.get_mem ord i.1 i.2)
    have hpredi : Pred (sel.map (fun n => (n, depsOf dm n))) (ord.get i) =
        depsOf dm (ord.get i) :=
      pred_map_self (depsOf dm) sel hselnd _ hai
    rcases Nat.lt_trichotomy (j : Nat) (i : Nat) with h | h | h
    · exact h
    · exfalso
      have hij : j = i := Fin.ext h
      rw [hij] at hdep
      exact depsOf_not_self assets dm hdm _ hdep
    · exfalso
      exact (hpair i j h) (hpredi ▸ hdep)

/-- Asset `a.a`, depending on `a.b` (acyclic witness input). -/
def aW1a : Asset :=
  { name := str "a.a", schema := str "a", table := str "a", path := str "wa.sql",
    kind := .sql, source := str "select 1", depends := [str "a.b"] }

/-- Asset `a.b`, no dependencies (acyclic witness input). -/
def aW1b : Asset :=
  { name := str "a.b", schema := str "a", table := str "b", path := str "wb.sql",
    kind := .sql, source := str "select 1", depends := [] }

def assetsW1 : List (Str × Asset) := [(str "a.a", aW1a), (str "a.b", aW1b)]

def dmW1 : List (Str × List Str) := [(str "a.a", [str "a.b"]), (str "a.b", [])]

def selW1 : List Str := [str "a.b", str "a.a"]

def ordW1 : List Str := [str "a.b", str "a.a"]

theorem scheduling_topological_order_witness :
    ordW1.Perm selW1 ∧
    (∀ a ∈ ordW1, ∀ d ∈ depsOf dmW1 a, d ∈ ordW1) ∧
    (∀ i j : Fin ordW1.length, ordW1.get j ∈ depsOf dmW1 (ordW1.get i) →
      (j : Nat) < (i : Nat)) :=
  scheduling_topological_order assetsW1 (some [str "a.a"]) false dmW1 selW1 ordW1
    (by decide) rfl rfl
    (not_hasCycle_of_findCycle_none (selW1.map (fun n => (n, depsOf dmW1 n)))
      (by decide) (by decide) (by decide) (by decide))
    rfl

/-- Claim C4: for every selection whose restricted dependency graph has
a cycle, the `materialize` run fails with a cycle error whose reported
list is non-empty and names only genuine cycle participants from the
selected set, and the per-asset execution loop never runs, so no table
is written. -/
theorem cycle_error_before_execution (assets : List (Str × Asset))
    (names : Option (List Str)) (all_assets : Bool)
    (dm : List (Str × List Str)) (sel : List Str)
    (hnd : (assets.map Prod.fst).Nodup)
    (hdm : asset_dependencies assets = .ok dm)
    (hsel : resolve_selection names all_assets assets dm = .ok sel)
    (hcyc : HasCycle (sel.map (fun n => (n, depsOf dm n)))) :
    ∃ cyc, materializePlan assets names all_assets = .error (.cycle cyc) ∧
      cyc ≠ [] ∧
      (∀ m ∈ cyc, m ∈ sel ∧
        Relation.TransGen (GEdge (sel.map (fun n => (n, depsOf dm n)))) m m) ∧
      executedAssets (materializePlan assets names all_assets) = [] := by
  obtain ⟨H1, H2nd, H2sub⟩ :=
    restricted_graph_wf assets names all_assets dm sel hnd hdm hsel
  have hkeys : (sel.map (fun n => (n, depsOf dm n))).map Prod.fst = sel :=
    keys_map_self (depsOf dm) sel
  obtain ⟨cyc, hso, hne, hall⟩ :=
    static_order_cycle_spec (sel.map (fun n => (n, depsOf dm n))) H1 H2nd H2sub hcyc
  have hmp : materializePlan assets names all_assets = .error (.cycle cyc) := by
    rw [materializePlan_static assets names all_assets dm sel hdm hsel, hso]
  refine ⟨cyc, hmp, hne, ?_, by rw [hmp]; rfl⟩
  intro m hm
  have hT := hall m hm
  rcases Relation.TransGen.tail'_iff.mp hT with ⟨p, -, hpm⟩
  have hmk : m ∈ sel := by
    rw [← hkeys]
    exact pred_mem_keys _ m (List.ne_nil_of_mem hpm)
  exact ⟨hmk, hT⟩

/-- Asset `a.a`, depending on `a.b` (cyclic witness input). -/
def aW4a : Asset :=
  { name := str "a.a", schema := str "a", table := str "a", path := str "ca.sql",
    kind := .sql, source := str "select 1", depends := [str "a.b"] }

/-- Asset `a.b`, depending back on `a.a` (cyclic witness input). -/
def aW4b : Asset :=
  { name := str "a.b", schema := str "a", table := str "b", path := str "cb.sql",
    kind := .sql, source := str "select 1", depends := [str "a.a"] }

def assetsW4 : List (Str × Asset) := [(str "a.a", aW4a), (str "a.b", aW4b)]

def dmW4 : List (Str × List Str) :=
  [(str "a.a", [str "a.b"]), (str "a.b", [str "a.a"])]

def selW4 : List Str := [str "a.b", str "a.a"]

theorem cycle_error_before_execution_witness :
    ∃ cyc, materializePlan assetsW4 (some [str "a.a"]) false =
        .error (.cycle cyc) ∧
      cyc ≠ [] ∧
      (∀ m ∈ cyc, m ∈ selW4 ∧
        Relation.TransGen (GEdge (selW4.map (fun n => (n, depsOf dmW4 n)))) m m) ∧
      executedAssets (materializePlan assetsW4 (some [str "a.a"]) false) = [] :=
  cycle_error_before_execution assetsW4 (some [str "a.a"]) false dmW4 selW4
    (by decide) rfl rfl
    ⟨str "a.a",
      Relation.TransGen.head
        (show str "a.a" ∈ Pred (selW4.map (fun n => (n, depsOf dmW4 n)))
          (str "a.b") by decide)
        (Relation.TransGen.single
          (show str "a.b" ∈ Pred (selW4.map (fun n => (n, depsOf dmW4 n)))
            (str "a.a") by decide))⟩

lemma lookupMeta_perm (g₁ g₂ : List (Str × List Str)) (hperm : g₁.Perm g₂)
    (H1 : (g₁.map Prod.fst).Nodup) (n : Str) :
    lookupMeta g₁ n = lookupMeta g₂ n := by
  have H2 : (g₂.map Prod.fst).Nodup := ((hperm.map Prod.fst).nodup_iff).mp H1
  rcases h1 : lookupMeta g₁ n with _ | vs
  · rcases h2 : lookupMeta g₂ n with _ | vs
    · rfl
    · exfalso
      have hmem : (n, vs) ∈ g₁ := hperm.mem_iff.mpr (lookupMeta_mem g₂ n vs h2)
      rw [lookupMeta_of_mem g₁ H1 n vs hmem] at h1
      exact Option.noConfusion h1
  · exact (lookupMeta_of_mem g₂ H2 n vs
      (hperm.mem_iff.mp (lookupMeta_mem g₁ n vs h1))).symm

lemma Pred_perm (g₁ g₂ : List (Str × List Str)) (hperm : g₁.Perm g₂)
    (H1 : (g₁.map Prod.fst).Nodup) (n : Str) : Pred g₂ n = Pred g₁ n := by
  unfold Pred
  rw [lookupMeta_perm g₁ g₂ hperm H1 n]

/-- Claim C2, counterexample: the scheduler of `materialize` has no
name-keyed tie-breaking and its output is not a function of the
scheduling input as a set.  The same two unconstrained assets `a` and
`b`, enumerated in the two possible orders the Python set iteration may
produce on different runs, are emitted in different orders — and the
enumeration `[b, a]` is emitted as `[b, a]`, not name-sorted. -/
theorem scheduler_order_depends_on_enumeration :
    static_order [(str "b", ([] : List Str)), (str "a", [])] =
      .ok [str "b", str "a"] ∧
    static_order [(str "a", ([] : List Str)), (str "b", [])] =
      .ok [str "a", str "b"] ∧
    ([str "b", str "a"] : List Str) ≠ [str "a", str "b"] :=
  ⟨rfl, rfl, by decide⟩

/-- Claim C2 (amended): for a fixed discovered asset set and selection
request, the scheduling step is deterministic only up to the enumeration
order of the selected set (a Python `set`, whose iteration order may
change between runs).  Any two enumerations of the same well-formed
acyclic scheduling input both succeed and emit orders over exactly the
same assets, each placing every dependency before its dependents — but
the emitted sequence itself may depend on the enumeration; it is not
fixed by a name sort key. -/
theorem scheduler_enumeration_invariance (g₁ g₂ : List (Str × List Str))
    (hperm : g₁.Perm g₂)
    (H1 : (g₁.map Prod.fst).Nodup)
    (H2nd : ∀ e ∈ g₁, e.2.Nodup)
    (H2sub : ∀ e ∈ g₁, ∀ d ∈ e.2, d ∈ g₁.map Prod.fst)
    (hacyc : ¬ HasCycle g₁) :
    ∃ ord₁ ord₂, static_order g₁ = .ok ord₁ ∧ static_order g₂ = .ok ord₂ ∧
      ord₁.Perm ord₂ ∧ TopoSeqP (Pred g₁) ord₁ ∧ TopoSeqP (Pred g₁) ord₂ := by
  have hkperm : (g₁.map Prod.fst).Perm (g₂.map Prod.fst) := hperm.map Prod.fst
  have H1₂ : (g₂.map Prod.fst).Nodup := (hkperm.nodup_iff).mp H1
  have H2nd₂ : ∀ e ∈ g₂, e.2.Nodup := fun e he =>
    H2nd e (hperm.mem_iff.mpr he)
  have H2sub₂ : ∀ e ∈ g₂, ∀ d ∈ e.2, d ∈ g₂.map Prod.fst := fun e he d hd =>
    hkperm.mem_iff.mp (H2sub e (hperm.mem_iff.mpr he) d hd)
  have hacyc₂ : ¬ HasCycle g₂ := by
    rintro ⟨n, hT⟩
    refine hacyc ⟨n, Relation.TransGen.mono ?_ hT⟩
    intro x y hxy
    show x ∈ Pred g₁ y
    rw [← Pred_perm g₁ g₂ hperm H1 y]
    exact hxy
  obtain ⟨ord₁, hso₁, hperm₁, htopo₁⟩ := static_order_ok_spec g₁ H1 H2nd H2sub hacyc
  obtain ⟨ord₂, hso₂, hperm₂, htopo₂⟩ :=
    static_order_ok_spec g₂ H1₂ H2nd₂ H2sub₂ hacyc₂
  refine ⟨ord₁, ord₂, hso₁, hso₂,
    hperm₁.trans (hkperm.trans hperm₂.symm), htopo₁, ?_⟩
  have htopo₂' : ord₂.Pairwise (fun a b => b ∉ Pred g₂ a) := htopo₂
  exact htopo₂'.imp (by
    intro a b hab hc
    rw [← Pred_perm g₁ g₂ hperm H1 a] at hc
    exact hab hc)

def g1W2 : List (Str × List Str) := [(str "p.a", []), (str "p.b", [])]

def g2W2 : List (Str × List Str) := [(str "p.b", []), (str "p.a", [])]

theorem scheduler_enumeration_invariance_witness :
    ∃ ord₁ ord₂, static_order g1W2 = .ok ord₁ ∧ static_order g2W2 = .ok ord₂ ∧
      ord₁.Perm ord₂ ∧ TopoSeqP (Pred g1W2) ord₁ ∧ TopoSeqP (Pred g1W2) ord₂ :=
  scheduler_enumeration_invariance g1W2 g2W2 (by decide) (by decide)
    (by decide) (by decide)
    (not_hasCycle_of_findCycle_none g1W2 (by decide) (by decide) (by decide)
      (by decide))

end BDP
